import Mathlib

/-!
Verification of the medsupply allocation core (`app/core/matching.py`,
`app/core/solver.py`, `app/core/metrics.py`, `app/core/simulate.py`).

Modelling conventions of this shallow embedding:

* Python floats are modelled as exact rationals (`ℚ`).  All arithmetic the
  core performs on them (`+`, `-`, `*`, `/`, `min`, `max`, `floor`,
  comparisons) is rational-closed.
* The transcendental helper `haversine` (app/core/distance.py) is modelled
  as an abstract parameter `hav : ℚ → ℚ → ℚ → ℚ → ℚ`; every theorem is
  quantified over it.  (Concrete instances in witnesses correspond to real
  coordinate layouts, e.g. the all-zero function is the layout in which all
  points share one location, where `haversine` returns exactly `0`.)
* `numpy.std` is `sqrt` of the population variance; `sqrt` is modelled as an
  abstract parameter `sq : ℚ → ℚ`, characterised where needed by the
  hypotheses `0 ≤ sq v` and `sq v * sq v = v`.
* pandas data frames are modelled as lists of records in the canonical
  (post-`_normalize_patients`) shape: every row carries all columns the core
  reads, with `Option` for columns whose values may be missing (severity,
  occ_ratio).  `pandas.DataFrame.sample` (a library RNG, not repository
  code) is modelled as an abstract `sampler` parameter.
* The potentially nonterminating `while` loops of `_hungarian_square` are
  embedded with explicit fuel; the solver returns `Option`, `none` meaning
  the source would not have terminated (or crashed) within that budget.
-/

set_option maxHeartbeats 1000000

namespace MedSupply

/-! ### Data model -/

/-- A patient row in canonical form: `id_pasien`, `lat`, `lon`, `kasus`
(service type, `""` = any), optional `severity`, `wilayah` tag. -/
structure Patient where
  idp : String
  lat : ℚ
  lon : ℚ
  kasus : String
  sev : Option ℚ
  wil : String
  deriving Repr, DecidableEq, Inhabited

/-- A facility row: `id_rs`, coordinates, `capacity_tt`, `occupied_tt`,
`services` (string form, as read by both solvers), `wilayah`, `kelas`. -/
structure Fac where
  idr : String
  lat : ℚ
  lon : ℚ
  cap : ℚ
  occ : ℚ
  services : String
  wil : String
  kel : String
  deriving Repr, DecidableEq, Inhabited

/-- Weights `wd`, `wo`, `wf` extracted by `_extract_config`. -/
structure Wts where
  wd : ℚ
  wo : ℚ
  wf : ℚ
  deriving Repr, DecidableEq, Inhabited

/-- Constraints as packed by `_extract_config`: `radius_km`, `max_load`,
and `target_occupancy` (stored alongside the constraints in the source). -/
structure Cons where
  radiusKm : ℚ
  maxLoad : ℚ
  targetOcc : ℚ
  deriving Repr, DecidableEq, Inhabited

/-- A configuration after `_extract_config` resolved the defaults. -/
structure Config where
  w : Wts
  cns : Cons
  solver : String
  deriving Repr, DecidableEq, Inhabited

/-- An assignment record as emitted by both solvers.  `svcOk` models the
optional `service_ok` key read by `compute_metrics` (never set by the
solvers themselves). -/
structure Asg where
  pid : String
  hid : String
  dist : ℚ
  occB : ℚ
  occA : ℚ
  cost : ℚ
  svcOk : Option Bool := none
  deriving Repr, DecidableEq, Inhabited

/-- A facility snapshot row of a result envelope (`occr` models the
`occ_ratio` key, absent in hand-built envelopes fed to the metrics). -/
structure Snap where
  hid : String
  cap : ℚ
  occ : ℚ
  occr : Option ℚ
  wil : String
  kel : String
  deriving Repr, DecidableEq, Inhabited

/-- The `summary` block of a result envelope. -/
structure Summary where
  totalP : ℤ
  totalA : ℤ
  totalU : ℤ
  deriving Repr, DecidableEq, Inhabited

/-- A result envelope: summary, assignments, facility snapshot. -/
structure Result where
  summary : Summary
  asgs : List Asg
  facs : List Snap
  deriving Repr, DecidableEq, Inhabited

/-! ### Cost model (`_compute_cost`, identical in matching.py and solver.py) -/

/-- `_compute_cost`:
`d_norm = min(distance, radius)/radius if radius > 0 else 1.0`,
`occ_penalty = max(0, occ_ratio - target)`, result `wd*d_norm + wo*occ_penalty`.
The fairness weight `wf` is carried in `Wts` but never read. -/
def computeCost (distanceKm occR : ℚ) (w : Wts) (cns : Cons) : ℚ :=
  let dNorm : ℚ := if 0 < cns.radiusKm then min distanceKm cns.radiusKm / cns.radiusKm else 1
  let occPen : ℚ := max 0 (occR - cns.targetOcc)
  w.wd * dNorm + w.wo * occPen

/-! ### String helpers -/

/-- Python's `str.lower()` on the ASCII data the core handles, written over
the character list so that concrete instances compute. -/
def lowerStr (s : String) : String := String.mk (s.data.map Char.toLower)

/-- Character-list version of `str.startswith`. -/
def startsWithChars : List Char → List Char → Bool
  | [], _ => true
  | _ :: _, [] => false
  | a :: as, b :: bs => a = b && startsWithChars as bs

/-- Character-list version of Python's `needle in hay` substring test. -/
def containsChars (hay needle : List Char) : Bool :=
  if startsWithChars needle hay then true
  else
    match hay with
    | [] => false
    | _ :: t => containsChars t needle

/-- `case_lower in services_str`: substring test on the lowered strings
(the string branch of `_services_match`, and the check used by the
capacity-expanded solver on the stringified services). -/
def containsSub (hay needle : String) : Bool :=
  containsChars hay.toList needle.toList

/-- `_services_match` (string form): empty case matches anything, otherwise
case-insensitive substring containment. -/
def servicesMatch (servicesVal kasusLower : String) : Bool :=
  if kasusLower = "" then true
  else containsSub (lowerStr servicesVal) kasusLower

/-! ### Greedy matcher (`greedy_match`) -/

/-- Severity priority as a boolean relation: `sort_values("severity",
ascending=False)` puts higher severities first and missing severities last. -/
def sevBefore : Option ℚ → Option ℚ → Bool
  | some x, some y => decide (y ≤ x)
  | some _, none => true
  | none, some _ => false
  | none, none => true

/-- The sorted patient order used by the greedy pass. -/
def sortPatients (pats : List Patient) : List Patient :=
  pats.insertionSort (fun a b => sevBefore a.sev b.sev = true)

/-- Lookup in the `capacity_map` built from the facilities frame
(`set_index("id_rs")`; with unique ids this is the first row of that id). -/
def findFac (facs : List Fac) (h : String) : Option Fac :=
  facs.find? (fun f => f.idr = h)

/-- Initial mutable occupancy counters of the `capacity_map`. -/
def initOcc (facs : List Fac) : String → ℚ :=
  fun h => ((findFac facs h).map Fac.occ).getD 0

/-- The inner facility scan of `greedy_match` for one patient: returns the
minimum-cost feasible `(id_rs, distance, occ_ratio, cost)`, ties broken by
first encounter (strict `<` improvement). -/
def greedyScan (hav : ℚ → ℚ → ℚ → ℚ → ℚ) (w : Wts) (cns : Cons)
    (facs : List Fac) (occm : String → ℚ) (p : Patient) :
    Option (String × ℚ × ℚ × ℚ) :=
  let caseLower := lowerStr p.kasus
  facs.foldl
    (fun best rs =>
      match findFac facs rs.idr with
      | none => best
      | some capInfo =>
        let currentOcc := occm rs.idr
        let capacity := capInfo.cap
        if capacity ≤ 0 then best
        else
          let occR := currentOcc / capacity
          if cns.maxLoad ≤ occR then best
          else if ¬ servicesMatch rs.services caseLower then best
          else
            let distanceKm := hav p.lat p.lon rs.lat rs.lon
            if cns.radiusKm < distanceKm then best
            else
              let cost := computeCost distanceKm occR w cns
              match best with
              | none => some (rs.idr, distanceKm, occR, cost)
              | some (_, _, _, bc) =>
                if cost < bc then some (rs.idr, distanceKm, occR, cost) else best)
    none

/-- One greedy step: scan, then on success bump the facility's occupancy
counter and append the assignment record. -/
def greedyStep (hav : ℚ → ℚ → ℚ → ℚ → ℚ) (w : Wts) (cns : Cons)
    (facs : List Fac) (st : (String → ℚ) × List Asg) (p : Patient) :
    (String → ℚ) × List Asg :=
  match greedyScan hav w cns facs st.1 p with
  | none => st
  | some (rsId, distanceKm, occBefore, bestCost) =>
    let newOcc := st.1 rsId + 1
    let occm' : String → ℚ := fun h => if h = rsId then newOcc else st.1 h
    let capacity := ((findFac facs rsId).map Fac.cap).getD 0
    let occAfter := newOcc / capacity
    (occm', st.2 ++ [{ pid := p.idp, hid := rsId, dist := distanceKm,
                       occB := occBefore, occA := occAfter, cost := bestCost }])

/-- Final facility snapshot of the greedy pass. -/
def greedySnapshot (facs : List Fac) (occm : String → ℚ) : List Snap :=
  facs.filterMap (fun rs =>
    (findFac facs rs.idr).map (fun capInfo =>
      let cap := capInfo.cap
      let occ := occm rs.idr
      { hid := rs.idr, cap := cap, occ := occ,
        occr := some (if 0 < cap then occ / cap else 0),
        wil := rs.wil, kel := rs.kel }))

/-- The empty envelope returned when either frame is empty. -/
def emptyResult (nPats : ℤ) : Result :=
  { summary := { totalP := nPats, totalA := 0, totalU := nPats },
    asgs := [], facs := [] }

/-- `greedy_match`: severity-descending pass, per-patient minimum-cost
feasible facility, mutable occupancy counters. -/
def greedyMatch (hav : ℚ → ℚ → ℚ → ℚ → ℚ) (pats : List Patient)
    (facs : List Fac) (cfg : Config) : Result :=
  if pats = [] ∨ facs = [] then emptyResult pats.length
  else
    let st := (sortPatients pats).foldl
      (greedyStep hav cfg.w cfg.cns facs) (initOcc facs, [])
    let totalP : ℤ := pats.length
    let totalA : ℤ := st.2.length
    { summary := { totalP := totalP, totalA := totalA, totalU := totalP - totalA },
      asgs := st.2,
      facs := greedySnapshot facs st.1 }

/-! ### Capacity-expanded solver (`solver.py`) -/

/-- The infeasibility sentinel `INF = 1e9`. -/
def INF : ℚ := 1000000000

/-- `compute_available_slots`: `max(0, floor(max_load*capacity) - floor(occupied))`. -/
def computeAvailableSlots (capacityTt occupiedTt maxLoad : ℚ) : ℤ :=
  max 0 (⌊maxLoad * capacityTt⌋ - ⌊occupiedTt⌋)

/-- A per-facility slot of the capacity-expanded model. -/
structure Slot where
  hid : String
  k : ℕ
  occB : ℚ
  lat : ℚ
  lon : ℚ
  services : String
  cap : ℚ
  occ0 : ℚ
  kel : String
  wil : String
  deriving Repr, DecidableEq, Inhabited

/-- The slots one facility contributes (the loop body of
`build_capacity_expanded_slots`). -/
def facSlots (cns : Cons) (rs : Fac) : List Slot :=
  if rs.cap ≤ 0 then []
  else
    (List.range (computeAvailableSlots rs.cap rs.occ cns.maxLoad).toNat).map
      (fun k =>
        { hid := rs.idr, k := k, occB := (rs.occ + k) / rs.cap,
          lat := rs.lat, lon := rs.lon, services := lowerStr rs.services,
          cap := rs.cap, occ0 := rs.occ, kel := rs.kel, wil := rs.wil })

/-- `build_capacity_expanded_slots`: one slot per allowed additional bed,
skipping facilities with non-positive capacity or zero availability. -/
def buildCapacityExpandedSlots (facs : List Fac) (cns : Cons) : List Slot :=
  facs.flatMap (facSlots cns)

/-- One entry of the patients × slots cost matrix of
`build_cost_matrix_with_capacity`: `INF` when service or radius fails,
otherwise the cost at the slot's pre-fill occupancy ratio. -/
def costEntry (hav : ℚ → ℚ → ℚ → ℚ → ℚ) (w : Wts) (cns : Cons)
    (pats : List Patient) (slots : List Slot) (i j : ℕ) : ℚ :=
  match pats.get? i, slots.get? j with
  | some p, some s =>
    let caseLower := lowerStr p.kasus
    if caseLower ≠ "" ∧ ¬ (containsSub s.services caseLower = true) then INF
    else
      let dist := hav p.lat p.lon s.lat s.lon
      if cns.radiusKm < dist then INF
      else computeCost dist s.occB w cns
  | _, _ => 0

/-! #### `_hungarian_square` (fueled embedding) -/

/-- Mutable state of the zero-covering loop. -/
structure HS where
  c : ℕ → ℕ → ℚ
  rcov : ℕ → Bool
  ccov : ℕ → Bool
  star : ℕ → ℕ → Bool
  prim : ℕ → ℕ → Bool

/-- Minimum of row `i` over the first `n` columns (`cost.min(axis=1)`). -/
def rowMin (c : ℕ → ℕ → ℚ) (n i : ℕ) : ℚ :=
  ((List.range n).map (fun j => c i j)).foldl min (c i 0)

/-- Minimum of column `j` over the first `n` rows (`cost.min(axis=0)`). -/
def colMin (c : ℕ → ℕ → ℚ) (n j : ℕ) : ℚ :=
  ((List.range n).map (fun i => c i j)).foldl min (c 0 j)

/-- Step 1, row reduction. -/
def rowReduce (c : ℕ → ℕ → ℚ) (n : ℕ) : ℕ → ℕ → ℚ :=
  fun i j => c i j - rowMin c n i

/-- Step 2, column reduction (applied to the row-reduced matrix). -/
def colReduce (c : ℕ → ℕ → ℚ) (n : ℕ) : ℕ → ℕ → ℚ :=
  fun i j => c i j - colMin c n j

/-- One row of the initial greedy starring. -/
def initStarStep (c : ℕ → ℕ → ℚ) (n : ℕ) (star : ℕ → ℕ → Bool) (i : ℕ) :
    ℕ → ℕ → Bool :=
  match (List.range n).find? (fun j =>
      c i j = 0 ∧ ((List.range n).all (fun i' => !star i' j))) with
  | none => star
  | some j => fun a b => if a = i ∧ b = j then true else star a b

/-- Initial greedy starring: for each row in order, star the first zero in a
column not already holding a star (the row/column cover flags of the source
reduce to exactly this and are then reset). -/
def initStar (c : ℕ → ℕ → ℚ) (n : ℕ) : ℕ → ℕ → Bool :=
  (List.range n).foldl (initStarStep c n) (fun _ _ => false)

/-- `cover_columns_with_starred_zeros`. -/
def coverStarCols (star : ℕ → ℕ → Bool) (n : ℕ) : ℕ → Bool :=
  fun j => decide (j < n) && (List.range n).any (fun i => star i j)

/-- Number of covered columns (`col_covered.sum()`). -/
def colCount (ccov : ℕ → Bool) (n : ℕ) : ℕ :=
  ((List.range n).filter (fun j => ccov j)).length

/-- First non-covered zero in row-major order. -/
def findZero (st : HS) (n : ℕ) : Option (ℕ × ℕ) :=
  (List.range n).findSome? (fun i =>
    if st.rcov i then none
    else ((List.range n).find? (fun j => ¬ st.ccov j ∧ st.c i j = 0)).map
      (fun j => (i, j)))

/-- The matrix adjustment when no non-covered zero exists: subtract the
minimum non-covered entry from every non-covered row, add it to every
covered column.  `none` when the non-covered submatrix is empty (where the
source raises). -/
def adjust (st : HS) (n : ℕ) : Option HS :=
  let rowsU := (List.range n).filter (fun i => !st.rcov i)
  let colsU := (List.range n).filter (fun j => !st.ccov j)
  match rowsU.flatMap (fun i => colsU.map (fun j => st.c i j)) with
  | [] => none
  | v :: vs =>
    let m := vs.foldl min v
    let c' : ℕ → ℕ → ℚ := fun i j =>
      st.c i j - (if st.rcov i then 0 else m) + (if st.ccov j then m else 0)
    some { st with c := c' }

/-- First starred column of a row (`np.where(starred[r])[0][0]`). -/
def starInRow (star : ℕ → ℕ → Bool) (n r : ℕ) : Option ℕ :=
  (List.range n).find? (fun j => star r j)

/-- First starred row of a column. -/
def starInCol (star : ℕ → ℕ → Bool) (n b : ℕ) : Option ℕ :=
  (List.range n).find? (fun i => star i b)

/-- First primed column of a row. -/
def primeInRow (prim : ℕ → ℕ → Bool) (n r : ℕ) : Option ℕ :=
  (List.range n).find? (fun j => prim r j)

/-- The augmenting-path construction: starting at a primed zero, alternately
append the starred zero of the current column and the primed zero of that
star's row, until a column holds no star (or, degenerately, a row holds no
prime). -/
def buildPath (fuel : ℕ) (star prim : ℕ → ℕ → Bool) (n : ℕ) (p : ℕ × ℕ) :
    Option (List (ℕ × ℕ)) :=
  match fuel with
  | 0 => none
  | fuel + 1 =>
    match starInCol star n p.2 with
    | none => some [p]
    | some r2 =>
      match primeInRow prim n r2 with
      | none => some [p, (r2, p.2)]
      | some j2 =>
        (buildPath fuel star prim n (r2, j2)).map
          (fun rest => p :: (r2, p.2) :: rest)

/-- Flip stars along the path (sequential toggles, as in the source). -/
def flipPath (star : ℕ → ℕ → Bool) (path : List (ℕ × ℕ)) : ℕ → ℕ → Bool :=
  path.foldl
    (fun st pr => fun i j => if i = pr.1 ∧ j = pr.2 then !st i j else st i j)
    star

/-- The inner `while True` loop: find a non-covered zero (adjusting the
matrix until one exists), prime it; with a star in its row swap the covers,
otherwise augment along the alternating path, reset primes and covers, and
return to the outer loop. -/
def phase (fuel : ℕ) (n : ℕ) (st : HS) : Option HS :=
  match fuel with
  | 0 => none
  | fuel + 1 =>
    match findZero st n with
    | none => (adjust st n).bind (phase fuel n)
    | some (r, s) =>
      let st1 : HS := { st with
        prim := fun a b => if a = r ∧ b = s then true else st.prim a b }
      match starInRow st1.star n r with
      | some jstar =>
        phase fuel n { st1 with
          rcov := fun i => if i = r then true else st1.rcov i,
          ccov := fun j => if j = jstar then false else st1.ccov j }
      | none =>
        (buildPath fuel st1.star st1.prim n (r, s)).map (fun path =>
          let star2 := flipPath st1.star path
          { c := st1.c, rcov := fun _ => false, ccov := coverStarCols star2 n,
            star := star2, prim := fun _ _ => false })

/-- The outer `while col_covered.sum() < n` loop. -/
def outerLoop (fuel : ℕ) (n : ℕ) (st : HS) : Option HS :=
  match fuel with
  | 0 => none
  | fuel + 1 =>
    if n ≤ colCount st.ccov n then some st
    else (phase fuel n { st with prim := fun _ _ => false }).bind
      (outerLoop fuel n)

/-- The state after reductions and initial starring, entering the main loop. -/
def initHS (c0 : ℕ → ℕ → ℚ) (n : ℕ) : HS :=
  let c1 := colReduce (rowReduce c0 n) n
  let star0 := initStar c1 n
  { c := c1, rcov := fun _ => false, ccov := coverStarCols star0 n,
    star := star0, prim := fun _ _ => false }

/-- `_hungarian_square`: returns `col_ind` (per row the starred column, `-1`
when a row holds no star). -/
def hungarianSquare (fuel : ℕ) (c0 : ℕ → ℕ → ℚ) (n : ℕ) : Option (List ℤ) :=
  (outerLoop fuel n (initHS c0 n)).map (fun st =>
    (List.range n).map (fun i =>
      match starInRow st.star n i with
      | some j => (j : ℤ)
      | none => -1))

/-- Zero-padding of a rectangular matrix to the square of its larger side. -/
def padC (C : ℕ → ℕ → ℚ) (m s : ℕ) : ℕ → ℕ → ℚ :=
  fun i j => if i < m ∧ j < s then C i j else 0

/-- `linear_sum_assignment`: solve directly when square; otherwise pad, and
keep the pairs with row `< m` and column `< n` (note the source's mask
compares the signed `col_ind`, so a `-1` column would pass it). -/
def linearSumAssignment (fuel : ℕ) (C : ℕ → ℕ → ℚ) (m s : ℕ) :
    Option (List (ℕ × ℤ)) :=
  if m = s then
    (hungarianSquare fuel C m).map (fun ci => (List.range m).zip ci)
  else
    let size := max m s
    (hungarianSquare fuel (padC C m s) size).map (fun ci =>
      ((List.range size).zip ci).filter
        (fun rc => rc.1 < m ∧ rc.2 < (s : ℤ)))

/-- Python list indexing with wrap-around for negative indexes
(`slots[-1]` is the last slot). -/
def pyIdx (len : ℕ) (i : ℤ) : ℕ :=
  if i < 0 then (len + i).toNat else i.toNat

/-- Element at a (possibly negative) Python index. -/
def pyGetSlot (slots : List Slot) (i : ℤ) : Slot :=
  (slots.get? (pyIdx slots.length i)).getD default

/-- Element of the patient frame at `iloc[ri]`. -/
def pyGetPat (pats : List Patient) (i : ℕ) : Patient :=
  (pats.get? i).getD default

/-- The decoding fold of `solve_hungarian_with_capacity`: skip pairs with
cost `≥ INF`, bump the per-facility used count, rebuild distance, and record
`occ_after = (occ0 + used)/cap`. -/
def decodeStep (hav : ℚ → ℚ → ℚ → ℚ → ℚ) (C : ℕ → ℕ → ℚ)
    (pats : List Patient) (slots : List Slot)
    (st : List Asg × (String → ℕ)) (rc : ℕ × ℤ) : List Asg × (String → ℕ) :=
  let cost := C rc.1 (pyIdx slots.length rc.2)
  if INF ≤ cost then st
  else
    let p := pyGetPat pats rc.1
    let s := pyGetSlot slots rc.2
    let used' : String → ℕ := fun h => if h = s.hid then st.2 h + 1 else st.2 h
    let dist := hav p.lat p.lon s.lat s.lon
    (st.1 ++ [{ pid := p.idp, hid := s.hid, dist := dist, occB := s.occB,
                occA := (s.occ0 + (used' s.hid : ℚ)) / s.cap, cost := cost }],
     used')

def decodePairs (hav : ℚ → ℚ → ℚ → ℚ → ℚ) (C : ℕ → ℕ → ℚ)
    (pats : List Patient) (slots : List Slot) (pairs : List (ℕ × ℤ)) :
    List Asg × (String → ℕ) :=
  pairs.foldl (decodeStep hav C pats slots) ([], fun _ => 0)

/-- The facility snapshot of the Hungarian path:
`occ = occupied + used_count`, ratio `occ/cap` when `cap > 0` else `0`. -/
def hungarianSnapshot (facs : List Fac) (used : String → ℕ) : List Snap :=
  facs.map (fun rs =>
    let add : ℚ := (used rs.idr : ℕ)
    let occ : ℚ := rs.occ + add
    { hid := rs.idr, cap := rs.cap, occ := occ,
      occr := some (if (0 : ℚ) < rs.cap then occ / rs.cap else 0),
      wil := rs.wil, kel := rs.kel })

/-- `solve_hungarian_with_capacity`. -/
def solveHungarianWithCapacity (hav : ℚ → ℚ → ℚ → ℚ → ℚ) (fuel : ℕ)
    (pats : List Patient) (facs : List Fac) (w : Wts) (cns : Cons) :
    Option (List Asg × List Snap) :=
  let slots := buildCapacityExpandedSlots facs cns
  if pats.length = 0 ∨ slots = [] then some ([], [])
  else
    let C := costEntry hav w cns pats slots
    (linearSumAssignment fuel C pats.length slots.length).map (fun pairs =>
      let dec := decodePairs hav C pats slots pairs
      (dec.1, hungarianSnapshot facs dec.2))

/-! ### Orchestrator (`run_match`) -/

/-- `run_match`: dispatch on the lowered solver name: `greedy` (also the
fallback) runs the greedy matcher, `hungarian`/`mcmf` the capacity-expanded
solver. -/
def runMatch (hav : ℚ → ℚ → ℚ → ℚ → ℚ) (fuel : ℕ) (pats : List Patient)
    (facs : List Fac) (cfg : Config) : Option Result :=
  if pats = [] ∨ facs = [] then some (emptyResult pats.length)
  else
    let solver := lowerStr cfg.solver
    if solver = "greedy" then some (greedyMatch hav pats facs cfg)
    else if solver = "hungarian" ∨ solver = "mcmf" then
      (solveHungarianWithCapacity hav fuel pats facs cfg.w cfg.cns).map
        (fun res =>
          let totalP : ℤ := pats.length
          let totalA : ℤ := res.1.length
          { summary := { totalP := totalP, totalA := totalA,
                         totalU := totalP - totalA },
            asgs := res.1, facs := res.2 })
    else some (greedyMatch hav pats facs cfg)

/-! ### Metrics (`compute_metrics`) -/

/-- Mean of a rational list (callers guard non-emptiness as the source does). -/
def meanQ (l : List ℚ) : ℚ := l.sum / (l.length : ℚ)

/-- Population variance, so that `numpy.std l = sq (varQ l)`. -/
def varQ (l : List ℚ) : ℚ := meanQ (l.map (fun x => (x - meanQ l) ^ 2))

/-- The KPI record produced by `compute_metrics`. -/
structure Metrics where
  totalP : ℤ
  totalA : ℤ
  totalU : ℤ
  avgDistanceKm : ℚ
  unmetR : ℚ
  loadBalanceIndex : ℚ
  occMean : ℚ
  occMin : ℚ
  occMax : ℚ
  svcCompliance : ℚ
  deriving Repr, DecidableEq, Inhabited

/-- `compute_metrics`, with `numpy.std` expressed through the abstract
square root `sq` applied to the population variance. -/
def computeMetrics (sq : ℚ → ℚ) (res : Result) : Metrics :=
  let asgs := res.asgs
  let facs := res.facs
  let avgDistanceKm := if asgs ≠ [] then meanQ (asgs.map Asg.dist) else 0
  let occRs := facs.filterMap Snap.occr
  let occMean := if occRs ≠ [] then meanQ occRs else 0
  let occMin := if occRs ≠ [] then occRs.foldr min (occRs.headI) else 0
  let occMax := if occRs ≠ [] then occRs.foldr max (occRs.headI) else 0
  let lbi := if occRs ≠ [] ∧ 0 < occMean then sq (varQ occRs) / (occMean + 1/1000000) else 0
  let unmetR := if 0 < res.summary.totalP
    then (res.summary.totalU : ℚ) / (res.summary.totalP : ℚ) else 0
  let svcFlags := asgs.filterMap Asg.svcOk
  let svcCompliance :=
    if svcFlags ≠ [] then meanQ (svcFlags.map (fun b => if b then 1 else 0))
    else if asgs ≠ [] then 1 else 0
  { totalP := res.summary.totalP, totalA := res.summary.totalA,
    totalU := res.summary.totalU, avgDistanceKm := avgDistanceKm,
    unmetR := unmetR, loadBalanceIndex := lbi, occMean := occMean,
    occMin := occMin, occMax := occMax, svcCompliance := svcCompliance }

/-! ### Scenario simulation (`simulate.py`) -/

/-- `numpy.round` / pandas `.round()`: round half to even. -/
def roundQ (q : ℚ) : ℤ :=
  let f := ⌊q⌋
  let r := q - (f : ℚ)
  if r < 1/2 then f
  else if 1/2 < r then f + 1
  else if 2 ∣ f then f else f + 1

/-- Clamp to `[0, 1]` (`max(0.0, min(1.0, x))`). -/
def clamp01 (x : ℚ) : ℚ := max 0 (min 1 x)

/-- The scenario parameter bag (`scenario["params"]`); absent keys are `none`. -/
structure Params where
  dropPct : Option ℚ := none
  wilayah : Option String := none
  kelas : Option String := none
  radiusKm : Option ℚ := none
  maxLoad : Option ℚ := none
  targetOcc : Option ℚ := none
  spikePct : Option ℚ := none
  kasus : Option String := none
  severityShift : Option ℚ := none
  deriving Repr, DecidableEq, Inhabited

/-- A scenario request: `type` string plus parameters. -/
structure Scen where
  stype : String
  params : Params
  deriving Repr, DecidableEq, Inhabited

/-- The row mask of `apply_capacity_drop` (case-insensitive region/class
equality, absent filters select everything). -/
def facMask (wilayah kelas : Option String) (rs : Fac) : Bool :=
  (match wilayah with
   | none => true
   | some w => lowerStr rs.wil = lowerStr w) &&
  (match kelas with
   | none => true
   | some k => lowerStr rs.kel = lowerStr k)

/-- `apply_capacity_drop`: reduce masked capacities by `drop_pct` (clamped to
`[0,1]`), rounding, clipped below at 1; then lift any capacity under its
occupancy back up to the occupancy. -/
def applyCapacityDrop (facs : List Fac) (dropPct : ℚ)
    (wilayah kelas : Option String) : List Fac :=
  let dp := clamp01 dropPct
  let dropped := facs.map (fun rs =>
    if facMask wilayah kelas rs then
      { rs with cap := max 1 ((roundQ (rs.cap * (1 - dp)) : ℤ) : ℚ) }
    else rs)
  dropped.map (fun rs => if rs.cap < rs.occ then { rs with cap := rs.occ } else rs)

/-- `apply_policy_change`: override only the supplied fields. -/
def applyPolicyChange (cfg : Config) (radiusKm maxLoad targetOcc : Option ℚ) :
    Config :=
  { cfg with cns :=
    { radiusKm := radiusKm.getD cfg.cns.radiusKm,
      maxLoad := maxLoad.getD cfg.cns.maxLoad,
      targetOcc := targetOcc.getD cfg.cns.targetOcc } }

/-- The filtered subset of `apply_demand_spike` (case-insensitive region
match; case filter by substring containment, as `.str.contains`). -/
def spikeSubset (pats : List Patient) (wilayah kasus : Option String) :
    List Patient :=
  let s1 := match wilayah with
    | none => pats
    | some w => pats.filter (fun p => lowerStr p.wil = lowerStr w)
  match kasus with
  | none => s1
  | some k => s1.filter (fun p => containsSub (lowerStr p.kasus) (lowerStr k))

/-- The severity update `_safe_float(v) + severity_shift`: `float(nan)`
returns `nan` (no exception), so a missing severity stays missing and only a
present value is shifted. -/
def shiftSev (s : Option ℚ) (severityShift : ℚ) : Option ℚ :=
  s.map (fun v => v + severityShift)

/-- `apply_demand_spike`, with `DataFrame.sample(n, replace=True,
random_state=42)` modelled by the abstract deterministic `sampler`
(hypotheses on its output appear in the theorems). -/
def applyDemandSpike (sampler : ℕ → List Patient → List Patient)
    (pats : List Patient) (spikePct : ℚ) (wilayah kasus : Option String)
    (severityShift : ℚ) : List Patient :=
  let sp := clamp01 spikePct
  let subset := spikeSubset pats wilayah kasus
  if subset = [] ∨ sp ≤ 0 then pats
  else
    let nExtra := max 1 (⌊(subset.length : ℚ) * sp⌋).toNat
    let extra := sampler nExtra subset
    let extra := if 0 < |severityShift|
      then extra.map (fun p => { p with sev := shiftSev p.sev severityShift })
      else extra
    let extra := extra.map (fun p => { p with idp := p.idp ++ "_SPK" })
    pats ++ extra

/-- A row of `summarize_fac_changes`. -/
structure FacChange where
  hid : String
  occBefore : ℚ
  occAfter : ℚ
  deltaOcc : ℚ
  deriving Repr, DecidableEq, Inhabited

/-- The before-map of `summarize_fac_changes` (a Python dict comprehension:
later rows of a duplicated id overwrite earlier ones). -/
def beforeOcc (beforeFac : List Snap) (h : String) : ℚ :=
  ((beforeFac.reverse.find? (fun x => x.hid = h)).map
    (fun x => x.occr.getD 0)).getD 0

/-- `summarize_fac_changes`: per-facility occupancy delta, stably sorted by
absolute delta descending, truncated to `top_k`. -/
def summarizeFacChanges (beforeFac afterFac : List Snap) (topK : ℕ) :
    List FacChange :=
  let rows := afterFac.map (fun f =>
    let a := f.occr.getD 0
    let b := beforeOcc beforeFac f.hid
    { hid := f.hid, occBefore := b, occAfter := a, deltaOcc := a - b })
  (rows.insertionSort (fun x y => |y.deltaOcc| ≤ |x.deltaOcc|)).take topK

/-- The KPI delta block (`after − before` for the ten listed keys). -/
def metricsDelta (before after : Metrics) : Metrics :=
  { totalP := after.totalP - before.totalP,
    totalA := after.totalA - before.totalA,
    totalU := after.totalU - before.totalU,
    avgDistanceKm := after.avgDistanceKm - before.avgDistanceKm,
    unmetR := after.unmetR - before.unmetR,
    loadBalanceIndex := after.loadBalanceIndex - before.loadBalanceIndex,
    occMean := after.occMean - before.occMean,
    occMin := after.occMin - before.occMin,
    occMax := after.occMax - before.occMax,
    svcCompliance := after.svcCompliance - before.svcCompliance }

/-- The record returned by `run_scenario`. -/
structure ScenOut where
  stypeOut : String
  params : Params
  before : Metrics
  after : Metrics
  delta : Metrics
  topFacilityChanges : List FacChange
  deriving Repr, DecidableEq, Inhabited

/-- `run_scenario`: baseline greedy run, perturbation by kind (unknown kinds
raise `ValueError`), perturbed greedy run, per-KPI delta, top-5 occupancy
swings. -/
def runScen (hav : ℚ → ℚ → ℚ → ℚ → ℚ) (sq : ℚ → ℚ)
    (sampler : ℕ → List Patient → List Patient) (scen : Scen)
    (facs : List Fac) (pats : List Patient) (cfg : Config) :
    Except String ScenOut :=
  let sType := lowerStr scen.stype
  let params := scen.params
  let baseResult := greedyMatch hav pats facs cfg
  let baseMetrics := computeMetrics sq baseResult
  let perturbed : Except String (List Fac × List Patient × Config) :=
    if sType = "capacity_drop" then
      Except.ok (applyCapacityDrop facs (params.dropPct.getD 0) params.wilayah
        params.kelas, pats, cfg)
    else if sType = "policy_change" then
      Except.ok (facs, pats, applyPolicyChange cfg params.radiusKm
        params.maxLoad params.targetOcc)
    else if sType = "demand_spike" then
      Except.ok (facs, applyDemandSpike sampler pats (params.spikePct.getD 0)
        params.wilayah params.kasus (params.severityShift.getD 0), cfg)
    else Except.error ("Tipe skenario tidak dikenali: " ++ sType)
  perturbed.map (fun nfp =>
    let afterResult := greedyMatch hav nfp.2.1 nfp.1 nfp.2.2
    let afterMetrics := computeMetrics sq afterResult
    { stypeOut := sType, params := params,
      before := baseMetrics, after := afterMetrics,
      delta := metricsDelta baseMetrics afterMetrics,
      topFacilityChanges :=
        summarizeFacChanges baseResult.facs afterResult.facs 5 })

/-! ### C4: the cost formula and the inert fairness weight -/

/-- C4: for all inputs the cost function returns `wd*d_norm + wo*occ_penalty`
with `d_norm = min(distance,radius)/radius` when `radius > 0` and `1.0`
otherwise, and `occ_penalty = max(0, occ_ratio - target_occupancy)`; the
result does not depend on the fairness weight `wf` (and, being a total
function, raises no error for any `wf`). -/
theorem C4_cost_formula_wf_inert (d occ : ℚ) (w : Wts) (cns : Cons) :
    computeCost d occ w cns =
      w.wd * (if 0 < cns.radiusKm then min d cns.radiusKm / cns.radiusKm else 1)
        + w.wo * max 0 (occ - cns.targetOcc) ∧
    ∀ wf1 wf2 : ℚ,
      computeCost d occ { w with wf := wf1 } cns =
      computeCost d occ { w with wf := wf2 } cns := by
  exact ⟨rfl, fun _ _ => rfl⟩

/-! ### C7: unknown scenario kinds raise, known kinds return -/

/-- C7: `run_scenario` fails exactly when the lowered scenario type is none
of `capacity_drop`, `policy_change`, `demand_spike`; the error message names
the unknown kind.  (In this pure embedding the callers' inputs are values,
so the original patients, facilities and configuration are unchanged by
construction whenever it raises.) -/
theorem C7_unknown_scen_kind (hav : ℚ → ℚ → ℚ → ℚ → ℚ) (sq : ℚ → ℚ)
    (sampler : ℕ → List Patient → List Patient) (scen : Scen)
    (facs : List Fac) (pats : List Patient) (cfg : Config) :
    ((∃ e, runScen hav sq sampler scen facs pats cfg = Except.error e) ↔
      ¬ (lowerStr scen.stype = "capacity_drop" ∨
         lowerStr scen.stype = "policy_change" ∨
         lowerStr scen.stype = "demand_spike")) ∧
    (∀ e, runScen hav sq sampler scen facs pats cfg = Except.error e →
      e = "Tipe skenario tidak dikenali: " ++ lowerStr scen.stype) := by
  by_cases h1 : lowerStr scen.stype = "capacity_drop"
  · simp [runScen, h1, Except.map]
  · by_cases h2 : lowerStr scen.stype = "policy_change"
    · simp [runScen, h1, h2, Except.map]
    · by_cases h3 : lowerStr scen.stype = "demand_spike"
      · simp [runScen, h1, h2, h3, Except.map]
      · simp [runScen, h1, h2, h3, Except.map]

/-! ### C5: slot expansion -/

theorem facSlots_hid {cns : Cons} {rs : Fac} {s : Slot}
    (hs : s ∈ facSlots cns rs) : s.hid = rs.idr := by
  unfold facSlots at hs
  split at hs
  · simp at hs
  · simp only [List.mem_map, List.mem_range] at hs
    obtain ⟨k, -, rfl⟩ := hs
    rfl

theorem mem_buildSlots_hid {facs : List Fac} {cns : Cons} {s : Slot}
    (hs : s ∈ buildCapacityExpandedSlots facs cns) :
    s.hid ∈ facs.map Fac.idr := by
  unfold buildCapacityExpandedSlots at hs
  simp only [List.mem_flatMap] at hs
  obtain ⟨rs, hrs, hmem⟩ := hs
  exact List.mem_map.mpr ⟨rs, hrs, (facSlots_hid hmem).symm⟩

theorem filter_buildSlots (facs : List Fac) (cns : Cons) (f : Fac)
    (hnd : (facs.map Fac.idr).Nodup) (hf : f ∈ facs) :
    (buildCapacityExpandedSlots facs cns).filter
      (fun s => decide (s.hid = f.idr)) = facSlots cns f := by
  induction facs with
  | nil => cases hf
  | cons a l ih =>
    simp only [List.map_cons, List.nodup_cons] at hnd
    have hflt : buildCapacityExpandedSlots (a :: l) cns =
        facSlots cns a ++ buildCapacityExpandedSlots l cns := by
      simp [buildCapacityExpandedSlots]
    rw [hflt, List.filter_append]
    rcases List.mem_cons.mp hf with rfl | hfl
    · have h1 : (facSlots cns f).filter (fun s => decide (s.hid = f.idr)) =
          facSlots cns f := by
        apply List.filter_eq_self.mpr
        intro s hs
        simp [facSlots_hid hs]
      have h2 : (buildCapacityExpandedSlots l cns).filter
          (fun s => decide (s.hid = f.idr)) = [] := by
        apply List.filter_eq_nil_iff.mpr
        intro s hs
        have := mem_buildSlots_hid hs
        simp only [decide_eq_true_eq]
        intro heq
        exact hnd.1 (heq ▸ this)
      rw [h1, h2, List.append_nil]
    · have hne : a.idr ≠ f.idr := by
        intro heq
        exact hnd.1 (heq ▸ List.mem_map.mpr ⟨f, hfl, rfl⟩)
      have h1 : (facSlots cns a).filter (fun s => decide (s.hid = f.idr)) = [] := by
        apply List.filter_eq_nil_iff.mpr
        intro s hs
        simp only [decide_eq_true_eq]
        rw [facSlots_hid hs]
        exact hne
      rw [h1, List.nil_append]
      exact ih hnd.2 hfl

/-- C5: with unique facility ids, the slots a facility of positive capacity
contributes are indexed `0..available-1` for
`available = max(0, floor(max_load*capacity) - floor(occupied))`, slot `k`
carrying pre-fill ratio `(occupied + k)/capacity`; non-positive capacity (or
zero availability) contributes no slots. -/
theorem C5_slot_expansion (facs : List Fac) (cns : Cons) (f : Fac)
    (hnd : (facs.map Fac.idr).Nodup) (hf : f ∈ facs) :
    (computeAvailableSlots f.cap f.occ cns.maxLoad =
      max 0 (⌊cns.maxLoad * f.cap⌋ - ⌊f.occ⌋)) ∧
    (0 < f.cap →
      ((buildCapacityExpandedSlots facs cns).filter
          (fun s => decide (s.hid = f.idr))).map Slot.k =
        List.range (computeAvailableSlots f.cap f.occ cns.maxLoad).toNat ∧
      ∀ s ∈ (buildCapacityExpandedSlots facs cns).filter
          (fun s => decide (s.hid = f.idr)),
        s.occB = (f.occ + (s.k : ℚ)) / f.cap) ∧
    (f.cap ≤ 0 →
      (buildCapacityExpandedSlots facs cns).filter
        (fun s => decide (s.hid = f.idr)) = []) := by
  rw [filter_buildSlots facs cns f hnd hf]
  refine ⟨rfl, fun hpos => ?_, fun hnonpos => ?_⟩
  · have hns : ¬ f.cap ≤ 0 := not_le.mpr hpos
    constructor
    · simp only [facSlots, hns, if_false, List.map_map]
      exact List.map_id _
    · intro s hs
      unfold facSlots at hs
      simp only [hns, if_false, List.mem_map, List.mem_range] at hs
      obtain ⟨k, -, rfl⟩ := hs
      rfl
  · simp [facSlots, hnonpos]

/-- Concrete facility for the C5 witness: capacity 10, occupancy 3. -/
def c5A : Fac :=
  { idr := "A", lat := 0, lon := 0, cap := 10, occ := 3,
    services := "icu", wil := "w", kel := "k" }

/-- Concrete facility list for the C5 witness (the second facility has zero
capacity and must contribute nothing). -/
def c5F : List Fac :=
  [c5A,
   { idr := "B", lat := 0, lon := 0, cap := 0, occ := 0,
     services := "", wil := "w", kel := "k" }]

/-- Concrete constraints for the C5 witness (`max_load = 0.9`). -/
def c5C : Cons := { radiusKm := 50, maxLoad := 9/10, targetOcc := 7/10 }

/-- Witness for C5: at the concrete input, facility `A` receives slots
`0..5` (six slots: `floor(0.9*10) - floor(3) = 6`). -/
theorem C5_slot_expansion_witness :
    ((buildCapacityExpandedSlots c5F c5C).filter
        (fun s => decide (s.hid = c5A.idr))).map Slot.k =
      List.range (computeAvailableSlots c5A.cap c5A.occ c5C.maxLoad).toNat ∧
    (computeAvailableSlots c5A.cap c5A.occ c5C.maxLoad).toNat = 6 :=
  ⟨((C5_slot_expansion c5F c5C c5A (by decide)
      (by unfold c5F; exact List.mem_cons_self _ _)).2.1
      (by norm_num [c5A])).1,
   by norm_num [computeAvailableSlots, c5A, c5C]; rfl⟩

/-! ### C9: load balance index -/

/-- The load-balance index as the spec words it:
`stddev(occ_ratios) / (mean_occ + 1e-6)` over the snapshot's `occ_ratio`
values, `0` when the snapshot carries none (`numpy.std = sq ∘ varQ`). -/
def lbiSpec (sq : ℚ → ℚ) (res : Result) : ℚ :=
  let occRs := res.facs.filterMap Snap.occr
  if occRs = [] then 0 else sq (varQ occRs) / (meanQ occRs + 1/1000000)

theorem sum_nonneg_of_mem {l : List ℚ} (h : ∀ x ∈ l, 0 ≤ x) : 0 ≤ l.sum := by
  induction l with
  | nil => simp
  | cons a t ih =>
    simp only [List.sum_cons]
    have := h a (List.mem_cons_self a t)
    have := ih (fun x hx => h x (List.mem_cons_of_mem a hx))
    linarith

theorem mean_nonneg {l : List ℚ} (h : ∀ x ∈ l, 0 ≤ x) : 0 ≤ meanQ l := by
  unfold meanQ
  rcases l.eq_nil_or_concat with rfl | _
  · simp
  · apply div_nonneg (sum_nonneg_of_mem h)
    positivity

theorem all_zero_of_sum_eq_zero {l : List ℚ} (h : ∀ x ∈ l, 0 ≤ x)
    (hs : l.sum = 0) : ∀ x ∈ l, x = 0 := by
  induction l with
  | nil => simp
  | cons a t ih =>
    simp only [List.sum_cons] at hs
    have ha : 0 ≤ a := h a (List.mem_cons_self a t)
    have ht : ∀ x ∈ t, 0 ≤ x := fun x hx => h x (List.mem_cons_of_mem a hx)
    have hts : 0 ≤ t.sum := sum_nonneg_of_mem ht
    have ha0 : a = 0 := by linarith
    have hts0 : t.sum = 0 := by linarith
    intro x hx
    rcases List.mem_cons.mp hx with rfl | hxt
    · exact ha0
    · exact ih ht hts0 x hxt

theorem varQ_eq_zero_of_all_zero {l : List ℚ} (h : ∀ x ∈ l, x = 0) :
    varQ l = 0 := by
  unfold varQ
  have hm : meanQ l = 0 := by
    unfold meanQ
    have : l.sum = 0 := by
      induction l with
      | nil => simp
      | cons a t ih =>
        simp only [List.sum_cons]
        rw [h a (List.mem_cons_self a t),
          ih (fun x hx => h x (List.mem_cons_of_mem a hx))]
        ring
    simp [this]
  rw [hm]
  have : l.map (fun x => (x - 0) ^ 2) = l.map (fun _ => 0) := by
    apply List.map_congr_left
    intro x hx
    rw [h x hx]
    ring
  unfold meanQ
  rw [this]
  simp

/-- The `load_balance_index` projection of `compute_metrics`, unfolded. -/
theorem computeMetrics_lbi (sq : ℚ → ℚ) (res : Result) :
    (computeMetrics sq res).loadBalanceIndex =
      if res.facs.filterMap Snap.occr ≠ [] ∧
          0 < meanQ (res.facs.filterMap Snap.occr) then
        sq (varQ (res.facs.filterMap Snap.occr)) /
          (meanQ (res.facs.filterMap Snap.occr) + 1/1000000)
      else 0 := by
  by_cases he : res.facs.filterMap Snap.occr = []
  · simp [computeMetrics, he]
  · simp [computeMetrics, he]

/-- C9 (amended): for every result envelope whose `occ_ratio` values are all
non-negative — in particular every envelope the solvers produce from
validated input — `compute_metrics` returns
`load_balance_index = stddev/(mean + 1e-6)` over those values, and `0` when
the snapshot carries none.  (`sq` is `numpy`'s square root, characterised at
the variance of the snapshot.) -/
theorem C9_lbi_amended (sq : ℚ → ℚ) (res : Result)
    (hnn : ∀ r ∈ res.facs.filterMap Snap.occr, 0 ≤ r)
    (hsq : 0 ≤ sq (varQ (res.facs.filterMap Snap.occr)) ∧
      sq (varQ (res.facs.filterMap Snap.occr)) *
        sq (varQ (res.facs.filterMap Snap.occr)) =
        varQ (res.facs.filterMap Snap.occr)) :
    (computeMetrics sq res).loadBalanceIndex = lbiSpec sq res := by
  rw [computeMetrics_lbi]
  unfold lbiSpec
  by_cases he : res.facs.filterMap Snap.occr = []
  · simp [he]
  · by_cases hm : 0 < meanQ (res.facs.filterMap Snap.occr)
    · simp [he, hm]
    · have hm0 : meanQ (res.facs.filterMap Snap.occr) = 0 :=
        le_antisymm (not_lt.mp hm) (mean_nonneg hnn)
      have hlen : ((res.facs.filterMap Snap.occr).length : ℚ) ≠ 0 := by
        simp [List.length_eq_zero, he]
      have hsum : (res.facs.filterMap Snap.occr).sum = 0 := by
        unfold meanQ at hm0
        field_simp at hm0
        exact hm0
      have hvz : varQ (res.facs.filterMap Snap.occr) = 0 :=
        varQ_eq_zero_of_all_zero (all_zero_of_sum_eq_zero hnn hsum)
      have h2 : sq (varQ (res.facs.filterMap Snap.occr)) *
          sq (varQ (res.facs.filterMap Snap.occr)) = 0 := by
        rw [hsq.2, hvz]
      have hsq0 : sq (varQ (res.facs.filterMap Snap.occr)) = 0 :=
        mul_self_eq_zero.mp h2
      simp [he, hm, hsq0]

/-- The envelope of the C9 counterexample: two snapshot rows carrying
`occ_ratio` values `-1` and `1` (mean `0`, standard deviation `1`). -/
def c9res : Result :=
  { summary := { totalP := 2, totalA := 0, totalU := 2 },
    asgs := [],
    facs := [{ hid := "A", cap := 1, occ := -1, occr := some (-1),
               wil := "w", kel := "k" },
             { hid := "B", cap := 1, occ := 1, occr := some 1,
               wil := "w", kel := "k" }] }

/-- A square root correct at the only point the counterexample consults
(`varQ [-1, 1] = 1`, whose non-negative root is `1`). -/
def c9sq : ℚ → ℚ := fun x => if x = 1 then 1 else 0

/-- C9 counterexample: on an envelope whose `occ_ratio` values are `-1` and
`1`, the code returns `load_balance_index = 0` while the claimed formula
`stddev/(mean + 1e-6)` gives `1000000`, so the claim quantified over every
envelope is false. -/
theorem C9_lbi_counterexample :
    (0 ≤ c9sq (varQ (c9res.facs.filterMap Snap.occr)) ∧
      c9sq (varQ (c9res.facs.filterMap Snap.occr)) *
        c9sq (varQ (c9res.facs.filterMap Snap.occr)) =
        varQ (c9res.facs.filterMap Snap.occr)) ∧
    (computeMetrics c9sq c9res).loadBalanceIndex = 0 ∧
    lbiSpec c9sq c9res = 1000000 := by
  have hocc : c9res.facs.filterMap Snap.occr = [(-1 : ℚ), 1] := by
    simp [c9res]
  have hvar : varQ [(-1 : ℚ), 1] = 1 := by
    norm_num [varQ, meanQ]
  have hmean : meanQ [(-1 : ℚ), 1] = 0 := by
    norm_num [meanQ]
  refine ⟨⟨?_, ?_⟩, ?_, ?_⟩
  · rw [hocc, hvar]; norm_num [c9sq]
  · rw [hocc, hvar]; norm_num [c9sq]
  · rw [computeMetrics_lbi, hocc]
    norm_num [hmean]
  · unfold lbiSpec
    rw [hocc]
    simp only [List.cons_ne_nil, if_false, hvar, hmean]
    norm_num [c9sq]

/-- The envelope of the C9 witness: `occ_ratio` values `0` and `1/5`. -/
def c9wres : Result :=
  { summary := { totalP := 0, totalA := 0, totalU := 0 },
    asgs := [],
    facs := [{ hid := "A", cap := 1, occ := 0, occr := some 0,
               wil := "w", kel := "k" },
             { hid := "B", cap := 1, occ := 1/5, occr := some (1/5),
               wil := "w", kel := "k" }] }

/-- A square root correct at the variance of the witness envelope
(`varQ [0, 1/5] = 1/100`). -/
def c9wsq : ℚ → ℚ := fun x => if x = 1/100 then 1/10 else 0

/-- Witness for the amended C9 at a concrete non-negative envelope. -/
theorem C9_lbi_witness :
    (computeMetrics c9wsq c9wres).loadBalanceIndex = lbiSpec c9wsq c9wres ∧
    lbiSpec c9wsq c9wres = (1/10) / (1/10 + 1/1000000) := by
  have hocc : c9wres.facs.filterMap Snap.occr = [(0 : ℚ), 1/5] := by
    simp [c9wres]
  have hvar : varQ [(0 : ℚ), 1/5] = 1/100 := by
    norm_num [varQ, meanQ]
  have hmean : meanQ [(0 : ℚ), 1/5] = 1/10 := by
    norm_num [meanQ]
  constructor
  · apply C9_lbi_amended
    · rw [hocc]; norm_num
    · rw [hocc, hvar]; norm_num [c9wsq]
  · unfold lbiSpec
    rw [hocc]
    simp only [List.cons_ne_nil, if_false, hvar, hmean]
    norm_num [c9wsq]

/-! ### C8: demand spike -/

/-- A concrete patient used by the C8 fixtures. -/
def c8p : Patient :=
  { idp := "P1", lat := 0, lon := 0, kasus := "icu", sev := some 3, wil := "w" }

/-- A concrete deterministic with-replacement sampler (always re-picks the
head of the filtered subset). -/
def c8sampler : ℕ → List Patient → List Patient :=
  fun n l => (List.range n).map (fun _ => l.headI)

/-- C8 counterexample: at `spike_pct = 0` with a non-empty filtered subset,
`apply_demand_spike` appends nothing (it returns the input unchanged), while
the claim's count `max(1, floor(filtered_count*spike_pct)) = 1` demands one
appended row; `0` lies in the claim's range `[0,1]`. -/
theorem C8_demand_spike_counterexample :
    spikeSubset [c8p] none none ≠ [] ∧
    applyDemandSpike c8sampler [c8p] 0 none none 0 = [c8p] ∧
    max 1 (⌊((spikeSubset [c8p] none none).length : ℚ) * 0⌋).toNat = 1 ∧
    (applyDemandSpike c8sampler [c8p] 0 none none 0).length ≠
      [c8p].length +
        max 1 (⌊((spikeSubset [c8p] none none).length : ℚ) * 0⌋).toNat := by
  have hc : clamp01 (0 : ℚ) = 0 := by norm_num [clamp01]
  refine ⟨by simp [spikeSubset], ?_, by norm_num, ?_⟩
  · simp [applyDemandSpike, hc]
  · simp [applyDemandSpike, hc]

/-- C8 (amended): for `spike_pct ∈ (0, 1]` and a non-empty filtered subset,
`apply_demand_spike` appends exactly `max(1, floor(filtered_count*spike_pct))`
rows drawn by the deterministic sampler from the subset, each one a subset
row with its identifier suffixed by `_SPK` and, under a nonzero shift, a
present severity shifted by `severity_shift` while a missing severity stays
missing (`float(nan) + shift = nan`); severity is untouched when the shift
is zero, and the original rows are returned unchanged ahead of the appended
ones.  (At `spike_pct = 0` the source instead returns the input
unchanged.) -/
theorem C8_demand_spike_amended (sampler : ℕ → List Patient → List Patient)
    (pats : List Patient) (spikePct : ℚ) (wilayah kasus : Option String)
    (severityShift : ℚ)
    (hpos : 0 < spikePct) (hle : spikePct ≤ 1)
    (hsub : spikeSubset pats wilayah kasus ≠ [])
    (hlen : (sampler
        (max 1 (⌊((spikeSubset pats wilayah kasus).length : ℚ) * spikePct⌋).toNat)
        (spikeSubset pats wilayah kasus)).length =
      max 1 (⌊((spikeSubset pats wilayah kasus).length : ℚ) * spikePct⌋).toNat)
    (hmem : ∀ p ∈ sampler
        (max 1 (⌊((spikeSubset pats wilayah kasus).length : ℚ) * spikePct⌋).toNat)
        (spikeSubset pats wilayah kasus), p ∈ spikeSubset pats wilayah kasus) :
    (applyDemandSpike sampler pats spikePct wilayah kasus severityShift).length =
      pats.length +
        max 1 (⌊((spikeSubset pats wilayah kasus).length : ℚ) * spikePct⌋).toNat ∧
    (applyDemandSpike sampler pats spikePct wilayah kasus severityShift).take
      pats.length = pats ∧
    ∀ q ∈ (applyDemandSpike sampler pats spikePct wilayah kasus
        severityShift).drop pats.length,
      ∃ p ∈ spikeSubset pats wilayah kasus,
        q.idp = p.idp ++ "_SPK" ∧
        q.sev = (if 0 < |severityShift|
          then p.sev.map (fun v => v + severityShift) else p.sev) ∧
        q.lat = p.lat ∧ q.lon = p.lon ∧ q.kasus = p.kasus ∧ q.wil = p.wil := by
  have hcl : clamp01 spikePct = spikePct := by
    unfold clamp01
    rw [min_eq_right hle]
    exact max_eq_right hpos.le
  have hnot : ¬ (spikeSubset pats wilayah kasus = [] ∨ spikePct ≤ 0) := by
    push_neg
    exact ⟨hsub, hpos⟩
  unfold applyDemandSpike
  rw [hcl]
  simp only [hnot, if_false]
  set nE := max 1 (⌊((spikeSubset pats wilayah kasus).length : ℚ) * spikePct⌋).toNat
    with hnE
  set extra0 := sampler nE (spikeSubset pats wilayah kasus) with hex
  set extra1 := if 0 < |severityShift|
    then extra0.map (fun p => { p with sev := shiftSev p.sev severityShift })
    else extra0 with hex1
  have hlen1 : extra1.length = nE := by
    rw [hex1]
    split
    · rw [List.length_map]; exact hlen
    · exact hlen
  refine ⟨?_, ?_, ?_⟩
  · rw [List.length_append, List.length_map, hlen1]
  · rw [List.take_left]
  · rw [List.drop_left]
    intro q hq
    simp only [List.mem_map] at hq
    obtain ⟨p1, hp1, rfl⟩ := hq
    rw [hex1] at hp1
    by_cases hsh : 0 < |severityShift|
    · simp only [hsh, if_true, List.mem_map] at hp1
      obtain ⟨p0, hp0, rfl⟩ := hp1
      exact ⟨p0, hmem p0 hp0, rfl, by simp [hsh, shiftSev], rfl, rfl, rfl, rfl⟩
    · simp only [hsh, if_false] at hp1
      exact ⟨p1, hmem p1 hp1, rfl, by simp [hsh], rfl, rfl, rfl, rfl⟩

/-- A patient with a missing (`NaN`) severity for the C8 witness. -/
def c8q : Patient :=
  { idp := "Q1", lat := 0, lon := 0, kasus := "icu", sev := none, wil := "w" }

/-- Witness for the amended C8: one patient, `spike_pct = 1/2`, the
deterministic head sampler; exactly one suffixed copy is appended — with a
zero shift on a present severity, and with a nonzero shift on a missing
severity, which stays missing. -/
theorem C8_demand_spike_witness :
    applyDemandSpike c8sampler [c8p] (1/2) none none 0 =
      [c8p, { c8p with idp := "P1_SPK" }] ∧
    (applyDemandSpike c8sampler [c8p] (1/2) none none 0).length =
      [c8p].length + 1 ∧
    applyDemandSpike c8sampler [c8q] (1/2) none none 2 =
      [c8q, { c8q with idp := "Q1_SPK" }] ∧
    (applyDemandSpike c8sampler [c8q] (1/2) none none 2).length =
      [c8q].length + 1 := by
  have h := C8_demand_spike_amended c8sampler [c8p] (1/2) none none 0
    (by norm_num) (by norm_num) (by simp [spikeSubset])
    (by simp [spikeSubset, c8sampler])
    (by simp [spikeSubset, c8sampler])
  have h2 := C8_demand_spike_amended c8sampler [c8q] (1/2) none none 2
    (by norm_num) (by norm_num) (by simp [spikeSubset])
    (by simp [spikeSubset, c8sampler])
    (by simp [spikeSubset, c8sampler])
  refine ⟨?_, ?_, ?_, ?_⟩
  · simp [applyDemandSpike, clamp01, spikeSubset, c8sampler]
    norm_num
    rfl
  · have h1 := h.1
    have e : max 1 (⌊((spikeSubset [c8p] none none).length : ℚ) * (1/2)⌋).toNat = 1 := by
      simp [spikeSubset]
      norm_num
    rw [e] at h1
    exact h1
  · simp [applyDemandSpike, clamp01, spikeSubset, c8sampler, shiftSev]
    norm_num
    exact ⟨by decide, rfl⟩
  · have h1 := h2.1
    have e : max 1 (⌊((spikeSubset [c8q] none none).length : ℚ) * (1/2)⌋).toNat = 1 := by
      simp [spikeSubset]
      norm_num
    rw [e] at h1
    exact h1

/-! ### C6: neutral capacity drop -/

/-- The haversine instance of the all-points-coincide layout (where the real
haversine is exactly `0`). -/
def hav0 : ℚ → ℚ → ℚ → ℚ → ℚ := fun _ _ _ _ => 0

/-- A square root correct at `0` (the only point the C6 runs consult). -/
def sq0 : ℚ → ℚ := fun _ => 0

/-- A placeholder sampler (never consulted by a capacity-drop scenario). -/
def samp0 : ℕ → List Patient → List Patient := fun _ l => l

/-- `numpy.round` is the identity on integers. -/
theorem roundQ_intCast (z : ℤ) : roundQ (z : ℚ) = z := by
  unfold roundQ
  have hf : ⌊(z : ℚ)⌋ = z := Int.floor_intCast z
  rw [hf]
  norm_num

theorem map_id_of_mem {α : Type} (l : List α) (f : α → α)
    (h : ∀ x ∈ l, f x = x) : l.map f = l := by
  conv_rhs => rw [← List.map_id l]
  exact List.map_congr_left h

/-- With `drop_pct = 0`, no filters, integer capacities `≥ 1` and occupancy
bounded by capacity, `apply_capacity_drop` is the identity. -/
theorem applyCapacityDrop_zero_id (facs : List Fac)
    (hint : ∀ f ∈ facs, ∃ z : ℤ, f.cap = (z : ℚ) ∧ 1 ≤ z)
    (hocc : ∀ f ∈ facs, f.occ ≤ f.cap) :
    applyCapacityDrop facs 0 none none = facs := by
  have hdp : clamp01 (0 : ℚ) = 0 := by norm_num [clamp01]
  have h1 : facs.map (fun rs =>
      if facMask none none rs then
        { rs with cap := max 1 ((roundQ (rs.cap * (1 - clamp01 0)) : ℤ) : ℚ) }
      else rs) = facs := by
    apply map_id_of_mem
    intro f hf
    obtain ⟨z, hz, hz1⟩ := hint f hf
    have hmask : facMask none none f = true := rfl
    rw [hmask, if_pos rfl]
    have hrz : roundQ (f.cap * (1 - clamp01 0)) = z := by
      rw [hdp]
      rw [show f.cap * (1 - (0 : ℚ)) = f.cap by ring, hz]
      exact roundQ_intCast z
    rw [hrz]
    have hmax : max (1 : ℚ) (z : ℚ) = (z : ℚ) := by
      apply max_eq_right
      exact_mod_cast hz1
    cases f
    simp_all
  have h2 : facs.map (fun rs =>
      if rs.cap < rs.occ then { rs with cap := rs.occ } else rs) = facs := by
    apply map_id_of_mem
    intro f hf
    rw [if_neg (not_lt.mpr (hocc f hf))]
  calc applyCapacityDrop facs 0 none none
      = (facs.map (fun rs =>
          if facMask none none rs then
            { rs with cap := max 1 ((roundQ (rs.cap * (1 - clamp01 0)) : ℤ) : ℚ) }
          else rs)).map (fun rs =>
          if rs.cap < rs.occ then { rs with cap := rs.occ } else rs) := rfl
    _ = facs.map (fun rs =>
          if rs.cap < rs.occ then { rs with cap := rs.occ } else rs) := by rw [h1]
    _ = facs := h2

/-- The all-zero KPI delta. -/
def zeroDelta : Metrics :=
  { totalP := 0, totalA := 0, totalU := 0, avgDistanceKm := 0, unmetR := 0,
    loadBalanceIndex := 0, occMean := 0, occMin := 0, occMax := 0,
    svcCompliance := 0 }

theorem metricsDelta_self (m : Metrics) : metricsDelta m m = zeroDelta := by
  simp [metricsDelta, zeroDelta]

/-- C6 (amended): on validated inputs whose capacities are integers (so that
the rounding inside `apply_capacity_drop` is neutral), a `capacity_drop`
scenario with `drop_pct = 0` and no region/class filter yields a delta of
exactly `0` for every KPI.  (Non-integer capacities are changed by the
round/clip step even at `drop_pct = 0`, breaking the round trip.) -/
theorem C6_capacity_drop_zero_amended (hav : ℚ → ℚ → ℚ → ℚ → ℚ) (sq : ℚ → ℚ)
    (sampler : ℕ → List Patient → List Patient) (scen : Scen)
    (facs : List Fac) (pats : List Patient) (cfg : Config)
    (hst : lowerStr scen.stype = "capacity_drop")
    (hdp : scen.params.dropPct = some 0)
    (hw : scen.params.wilayah = none) (hk : scen.params.kelas = none)
    (hint : ∀ f ∈ facs, ∃ z : ℤ, f.cap = (z : ℚ) ∧ 1 ≤ z)
    (hocc : ∀ f ∈ facs, f.occ ≤ f.cap) :
    ∃ out, runScen hav sq sampler scen facs pats cfg = Except.ok out ∧
      out.delta = zeroDelta := by
  simp only [runScen, hst, hdp, hw, hk, Option.getD_some, if_pos rfl,
    Except.map, applyCapacityDrop_zero_id facs hint hocc]
  exact ⟨_, rfl, metricsDelta_self _⟩

/-- The facility of the C6 counterexample: validated
(`0 < capacity`, `occupied ≤ capacity`) but with the non-integer capacity
`0.4`. -/
def c6F : Fac := { idr := "F", lat := 0, lon := 0, cap := 2/5, occ := 2/5,
                   services := "", wil := "w", kel := "k" }

/-- The patient of the C6 counterexample (service `icu`, which facility `F`
does not offer, so it stays unassigned in both runs). -/
def c6P : Patient := { idp := "P", lat := 0, lon := 0, kasus := "icu",
                       sev := some 1, wil := "w" }

/-- The default configuration (greedy solver). -/
def c6cfg : Config :=
  { w := ⟨6/10, 3/10, 1/10⟩, cns := ⟨50, 1, 7/10⟩, solver := "greedy" }

/-- The neutral capacity-drop scenario request of C6. -/
def c6scen : Scen :=
  { stype := "capacity_drop", params := { dropPct := some 0 } }

/-- A facility with integer capacity for the C6 witness. -/
def c6G : Fac := { idr := "G", lat := 0, lon := 0, cap := 2, occ := 1,
                   services := "", wil := "w", kel := "k" }

/-- Witness for the amended C6 at a concrete integer-capacity input. -/
theorem C6_capacity_drop_zero_witness :
    ∃ out, runScen hav0 sq0 samp0 c6scen [c6G]
      [{ idp := "P", lat := 0, lon := 0, kasus := "icu", sev := some 1,
         wil := "w" }] c6cfg = Except.ok out ∧ out.delta = zeroDelta := by
  apply C6_capacity_drop_zero_amended
  · decide
  · rfl
  · rfl
  · rfl
  · intro f hf
    simp only [List.mem_singleton] at hf
    subst hf
    exact ⟨2, by norm_num [c6G], by norm_num⟩
  · intro f hf
    simp only [List.mem_singleton] at hf
    subst hf
    norm_num [c6G]

/-- C6 counterexample: on the validated facility with capacity `0.4` and
occupancy `0.4`, the `drop_pct = 0` capacity drop still rounds/clips the
capacity up to `1`, so the occupancy-mean KPI delta is `-3/5`, not `0`. -/
theorem C6_capacity_drop_zero_counterexample :
    (0 < c6F.cap ∧ c6F.occ ≤ c6F.cap) ∧
    Except.map (fun o => o.delta.occMean)
      (runScen hav0 sq0 samp0 c6scen [c6F] [c6P] c6cfg) =
      Except.ok (-3/5) ∧ (-3/5 : ℚ) ≠ 0 := by
  refine ⟨⟨by norm_num [c6F], by norm_num [c6F]⟩, ?_, by norm_num⟩
  have hls : lowerStr "capacity_drop" = "capacity_drop" := by decide
  have hicu : lowerStr "icu" = "icu" := by decide
  have hemp : lowerStr "" = "" := by decide
  have hr1 : roundQ (2/5) = 0 := by norm_num [roundQ]
  have hdrop : applyCapacityDrop [c6F] 0 none none = [{ c6F with cap := 1 }] := by
    norm_num [applyCapacityDrop, clamp01, facMask, hr1, c6F]
  have hbase : greedyMatch hav0 [c6P] [c6F] c6cfg =
      { summary := { totalP := 1, totalA := 0, totalU := 1 },
        asgs := [],
        facs := [{ hid := "F", cap := 2/5, occ := 2/5, occr := some 1,
                   wil := "w", kel := "k" }] } := by
    norm_num [greedyMatch, sortPatients, List.insertionSort, greedyStep,
      greedyScan, findFac, initOcc, greedySnapshot, servicesMatch, hicu, hemp,
      containsSub, containsChars, startsWithChars, String.toList, c6P, c6F,
      c6cfg, hav0, List.filterMap_cons, Option.getD]
  have hsm : servicesMatch "" "icu" = false := by decide
  have hafter : greedyMatch hav0 [c6P] [{ c6F with cap := 1 }] c6cfg =
      { summary := { totalP := 1, totalA := 0, totalU := 1 },
        asgs := [],
        facs := [{ hid := "F", cap := 1, occ := 2/5, occr := some (2/5),
                   wil := "w", kel := "k" }] } := by
    norm_num [greedyMatch, sortPatients, List.insertionSort, greedyStep,
      greedyScan, findFac, initOcc, greedySnapshot, hicu, hsm, c6P, c6F,
      c6cfg, hav0, List.filterMap_cons, Option.getD]
  norm_num [runScen, c6scen, hls, hdrop, hbase, hafter, computeMetrics,
    meanQ, metricsDelta, Except.map, sq0, List.filterMap_cons,
    List.filterMap_nil]

/-! ### C3: what `run_scenario` actually runs -/

/-- The descending-absolute-delta order used to rank facility changes. -/
def facChangeGe (x y : FacChange) : Prop := |y.deltaOcc| ≤ |x.deltaOcc|

instance : DecidableRel facChangeGe := fun x y => by
  unfold facChangeGe; infer_instance

instance : IsTotal FacChange facChangeGe :=
  ⟨fun x y => le_total |y.deltaOcc| |x.deltaOcc|⟩

instance : IsTrans FacChange facChangeGe :=
  ⟨fun _ _ _ h1 h2 => le_trans h2 h1⟩

/-- The unsorted change rows of `summarize_fac_changes`. -/
def facChangeRows (beforeFac afterFac : List Snap) : List FacChange :=
  afterFac.map (fun f =>
    let a := f.occr.getD 0
    let b := beforeOcc beforeFac f.hid
    { hid := f.hid, occBefore := b, occAfter := a, deltaOcc := a - b })

theorem summarizeFacChanges_spec (beforeFac afterFac : List Snap) (topK : ℕ) :
    ∃ sorted : List FacChange,
      List.Sorted facChangeGe sorted ∧
      sorted.Perm (facChangeRows beforeFac afterFac) ∧
      summarizeFacChanges beforeFac afterFac topK = sorted.take topK := by
  refine ⟨(facChangeRows beforeFac afterFac).insertionSort facChangeGe,
    List.sorted_insertionSort facChangeGe _,
    List.perm_insertionSort facChangeGe _, rfl⟩

/-- C3 (amended): whenever `run_scenario` succeeds, its baseline envelope is
the GREEDY matcher's envelope on the unmodified inputs and its after
envelope the greedy matcher's on the perturbed inputs — the configured
solver selector (e.g. `"hungarian"`/`"mcmf"`) is ignored, `run_scenario`
never dispatches through `run_match`.  The per-KPI delta is `after − before`
and the top changes are a 5-prefix of the facility-change rows sorted by
descending absolute occupancy-ratio change. -/
theorem C3_scenario_runs_greedy_amended (hav : ℚ → ℚ → ℚ → ℚ → ℚ)
    (sq : ℚ → ℚ) (sampler : ℕ → List Patient → List Patient) (scen : Scen)
    (facs : List Fac) (pats : List Patient) (cfg : Config) (out : ScenOut)
    (hok : runScen hav sq sampler scen facs pats cfg = Except.ok out) :
    ∃ nf np ncfg,
      ((lowerStr scen.stype = "capacity_drop" ∧
          nf = applyCapacityDrop facs (scen.params.dropPct.getD 0)
            scen.params.wilayah scen.params.kelas ∧ np = pats ∧ ncfg = cfg) ∨
       (lowerStr scen.stype = "policy_change" ∧ nf = facs ∧ np = pats ∧
          ncfg = applyPolicyChange cfg scen.params.radiusKm
            scen.params.maxLoad scen.params.targetOcc) ∨
       (lowerStr scen.stype = "demand_spike" ∧ nf = facs ∧
          np = applyDemandSpike sampler pats (scen.params.spikePct.getD 0)
            scen.params.wilayah scen.params.kasus
            (scen.params.severityShift.getD 0) ∧ ncfg = cfg)) ∧
      out.before = computeMetrics sq (greedyMatch hav pats facs cfg) ∧
      out.after = computeMetrics sq (greedyMatch hav np nf ncfg) ∧
      out.delta = metricsDelta out.before out.after ∧
      ∃ sorted : List FacChange,
        List.Sorted facChangeGe sorted ∧
        sorted.Perm (facChangeRows (greedyMatch hav pats facs cfg).facs
          (greedyMatch hav np nf ncfg).facs) ∧
        out.topFacilityChanges = sorted.take 5 := by
  by_cases h1 : lowerStr scen.stype = "capacity_drop"
  · simp only [runScen, h1, reduceIte, if_true, eq_self_iff_true, Except.map,
      Except.ok.injEq] at hok
    subst hok
    refine ⟨_, pats, cfg, Or.inl ⟨h1, rfl, rfl, rfl⟩, rfl, rfl, rfl, ?_⟩
    exact (summarizeFacChanges_spec _ _ 5).imp (fun s hs => hs)
  · by_cases h2 : lowerStr scen.stype = "policy_change"
    · simp only [runScen, h1, h2, reduceIte, if_true, if_false,
        eq_self_iff_true,
        show ¬("policy_change" : String) = "capacity_drop" from by decide,
        Except.map, Except.ok.injEq] at hok
      subst hok
      refine ⟨facs, pats, _, Or.inr (Or.inl ⟨h2, rfl, rfl, rfl⟩), rfl, rfl, rfl, ?_⟩
      exact (summarizeFacChanges_spec _ _ 5).imp (fun s hs => hs)
    · by_cases h3 : lowerStr scen.stype = "demand_spike"
      · simp only [runScen, h1, h2, h3, reduceIte, if_true, if_false,
          eq_self_iff_true,
          show ¬("demand_spike" : String) = "capacity_drop" from by decide,
          show ¬("demand_spike" : String) = "policy_change" from by decide,
          Except.map, Except.ok.injEq] at hok
        subst hok
        refine ⟨facs, _, cfg, Or.inr (Or.inr ⟨h3, rfl, rfl, rfl⟩), rfl, rfl, rfl, ?_⟩
        exact (summarizeFacChanges_spec _ _ 5).imp (fun s hs => hs)
      · exfalso
        simp only [runScen, h1, h2, h3, Except.map, reduceIte] at hok
        exact Except.noConfusion hok

/-! #### Closed-form runs of the Hungarian path on 1×1 instances -/

/-- On a 1×1 matrix the Hungarian square solver immediately stars the single
(reduced-to-zero) cell: `col_ind = [0]`. -/
theorem hungarianSquare_one (fuel : ℕ) (h : 1 ≤ fuel) (c : ℕ → ℕ → ℚ) :
    hungarianSquare fuel c 1 = some [(0 : ℤ)] := by
  obtain ⟨f, rfl⟩ : ∃ f, fuel = f + 1 := ⟨fuel - 1, by omega⟩
  have hc1 : colReduce (rowReduce c 1) 1 0 0 = 0 := by
    simp [colReduce, rowReduce, rowMin, colMin, List.range_succ]
  simp [hungarianSquare, initHS, outerLoop, initStar, initStarStep,
    coverStarCols, colCount, starInRow, List.range_succ, hc1]

/-- Decoding a single feasible pair `(0, 0)`. -/
theorem decodePairs_single (hav : ℚ → ℚ → ℚ → ℚ → ℚ) (C : ℕ → ℕ → ℚ)
    (pats : List Patient) (slots : List Slot) (hc : ¬ INF ≤ C 0 0) :
    decodePairs hav C pats slots [(0, (0 : ℤ))] =
      ([{ pid := (pyGetPat pats 0).idp, hid := (pyGetSlot slots 0).hid,
          dist := hav (pyGetPat pats 0).lat (pyGetPat pats 0).lon
            (pyGetSlot slots 0).lat (pyGetSlot slots 0).lon,
          occB := (pyGetSlot slots 0).occB,
          occA := ((pyGetSlot slots 0).occ0 + 1) / (pyGetSlot slots 0).cap,
          cost := C 0 0 }],
       fun h => if h = (pyGetSlot slots 0).hid then 1 else 0) := by
  have hp : pyIdx slots.length (0 : ℤ) = 0 := rfl
  simp [decodePairs, decodeStep, hp, hc]

/-- The Hungarian path on one patient and one produced slot with feasible
cost: the patient takes that slot. -/
theorem solveHWC_single (hav : ℚ → ℚ → ℚ → ℚ → ℚ) (fuel : ℕ) (hf : 1 ≤ fuel)
    (p : Patient) (s : Slot) (facs : List Fac) (w : Wts) (cns : Cons)
    (hslots : buildCapacityExpandedSlots facs cns = [s])
    (hc : ¬ INF ≤ costEntry hav w cns [p] [s] 0 0) :
    solveHungarianWithCapacity hav fuel [p] facs w cns = some
      ([{ pid := p.idp, hid := s.hid, dist := hav p.lat p.lon s.lat s.lon,
          occB := s.occB, occA := (s.occ0 + 1) / s.cap,
          cost := costEntry hav w cns [p] [s] 0 0 }],
       hungarianSnapshot facs (fun h => if h = s.hid then 1 else 0)) := by
  have h1 : hungarianSquare fuel (costEntry hav w cns [p] [s]) 1 =
      some [(0 : ℤ)] := hungarianSquare_one fuel hf _
  simp [solveHungarianWithCapacity, hslots, linearSumAssignment,
    List.length_singleton, h1, List.range_succ, decodePairs, decodeStep,
    pyIdx, hc, pyGetPat, pyGetSlot]

/-! #### C3 fixtures and counterexample -/

/-- Facility `A`: greedy-feasible (ratio `1/3 < 0.6`) but contributing no
slots (`floor(0.6*3) - floor(1) = 0`). -/
def c3A : Fac := { idr := "A", lat := 0, lon := 0, cap := 3, occ := 1,
                   services := "", wil := "w", kel := "k" }

/-- Facility `B`: ratio `2/5`, one slot. -/
def c3B : Fac := { idr := "B", lat := 0, lon := 0, cap := 5, occ := 2,
                   services := "", wil := "w", kel := "k" }

/-- The single patient (any service, colocated with both facilities). -/
def c3P : Patient := { idp := "P", lat := 0, lon := 0, kasus := "",
                       sev := some 1, wil := "w" }

/-- Configuration selecting the `hungarian` solver
(`max_load = 0.6`, `target_occupancy = 0`). -/
def c3cfgH : Config :=
  { w := ⟨6/10, 3/10, 1/10⟩, cns := ⟨50, 6/10, 0⟩, solver := "hungarian" }

/-- The only slot of the C3 instance (facility `B`, index 0). -/
def c3slot : Slot :=
  { hid := "B", k := 0, occB := 2/5, lat := 0, lon := 0, services := "",
    cap := 5, occ0 := 2, kel := "k", wil := "w" }

/-- A no-op scenario request of a known kind. -/
def c3scen : Scen := { stype := "policy_change", params := {} }

theorem c3slots_eq : buildCapacityExpandedSlots [c3A, c3B] c3cfgH.cns = [c3slot] := by
  norm_num [buildCapacityExpandedSlots, facSlots, computeAvailableSlots,
    c3A, c3B, c3cfgH, lowerStr, List.range_succ, c3slot]

theorem c3cost_eq : costEntry hav0 c3cfgH.w c3cfgH.cns [c3P] [c3slot] 0 0 = 3/25 := by
  norm_num [costEntry, computeCost, lowerStr, c3P, c3slot, c3cfgH, hav0]

theorem c3hung_eq : solveHungarianWithCapacity hav0 5 [c3P] [c3A, c3B]
    c3cfgH.w c3cfgH.cns = some
      ([{ pid := "P", hid := "B", dist := 0, occB := 2/5, occA := 3/5,
          cost := 3/25 }],
       [{ hid := "A", cap := 3, occ := 1, occr := some (1/3), wil := "w",
          kel := "k" },
        { hid := "B", cap := 5, occ := 3, occr := some (3/5), wil := "w",
          kel := "k" }]) := by
  have h := solveHWC_single hav0 5 (by norm_num) c3P c3slot [c3A, c3B]
    c3cfgH.w c3cfgH.cns c3slots_eq (by rw [c3cost_eq]; norm_num [INF])
  rw [h, c3cost_eq]
  norm_num [hungarianSnapshot, c3A, c3B, c3P, c3slot, hav0,
    show ¬("A" : String) = "B" from by decide]

theorem c3greedy_eq : greedyMatch hav0 [c3P] [c3A, c3B] c3cfgH =
    { summary := { totalP := 1, totalA := 1, totalU := 0 },
      asgs := [{ pid := "P", hid := "A", dist := 0, occB := 1/3,
                 occA := 2/3, cost := 1/10 }],
      facs := [{ hid := "A", cap := 3, occ := 2, occr := some (2/3),
                 wil := "w", kel := "k" },
               { hid := "B", cap := 5, occ := 2, occr := some (2/5),
                 wil := "w", kel := "k" }] } := by
  have hemp : lowerStr "" = "" := by decide
  norm_num [greedyMatch, sortPatients, List.insertionSort, greedyStep,
    greedyScan, findFac, initOcc, greedySnapshot, servicesMatch, hemp,
    computeCost, c3P, c3A, c3B, c3cfgH, hav0, List.filterMap_cons,
    Option.getD, List.find?_cons, List.find?_nil,
    show ¬("A" : String) = "B" from by decide,
    show ¬("B" : String) = "A" from by decide]
  intro h
  simp at h

/-- C3 counterexample: with the configured solver `"hungarian"`,
`run_scenario`'s baseline envelope (it always calls the greedy matcher) has
occupancy mean `8/15`, while the orchestrator `run_match` — which the claim
says it runs — produces the Hungarian envelope with occupancy mean `7/15`. -/
theorem C3_scenario_runs_greedy_counterexample :
    Except.map (fun o => o.before.occMean)
      (runScen hav0 sq0 samp0 c3scen [c3A, c3B] [c3P] c3cfgH) =
      Except.ok (8/15) ∧
    Option.map (fun r => (computeMetrics sq0 r).occMean)
      (runMatch hav0 5 [c3P] [c3A, c3B] c3cfgH) = some (7/15) ∧
    (8/15 : ℚ) ≠ 7/15 := by
  refine ⟨?_, ?_, by norm_num⟩
  · have hpc : lowerStr "policy_change" = "policy_change" := by decide
    norm_num [runScen, c3scen, hpc, c3greedy_eq, computeMetrics, meanQ,
      Except.map, List.filterMap_cons, List.filterMap_nil,
      show ¬("policy_change" : String) = "capacity_drop" from by decide]
    norm_num [show ([(2:ℚ)/3, 2/5] : List ℚ) ≠ [] from by simp]
  · norm_num [runMatch, c3hung_eq, computeMetrics, meanQ, Option.map,
      List.filterMap_cons, List.filterMap_nil,
      show lowerStr c3cfgH.solver = "hungarian" from by decide,
      show ¬([c3A, c3B] : List Fac) = [] from by simp,
      show ¬("hungarian" : String) = "greedy" from by decide]
    norm_num [show ([(1:ℚ)/3, 3/5] : List ℚ) ≠ [] from by simp]

/-- The output record of the C3 witness run (empty frames, no-op policy
change). -/
def c3wout : ScenOut :=
  { stypeOut := "policy_change", params := {}, before := zeroDelta,
    after := zeroDelta, delta := zeroDelta, topFacilityChanges := [] }

theorem c3wout_run : runScen hav0 sq0 samp0 c3scen [] [] c6cfg =
    Except.ok c3wout := by
  have hpc : lowerStr "policy_change" = "policy_change" := by decide
  norm_num [runScen, c3scen, hpc, greedyMatch, emptyResult, computeMetrics,
    metricsDelta, summarizeFacChanges, List.insertionSort, Except.map,
    c3wout, zeroDelta,
    show ¬("policy_change" : String) = "capacity_drop" from by decide]

/-- Witness for the amended C3 at a concrete input (empty frames, `policy_change`). -/
theorem C3_scenario_runs_greedy_witness :
    ∃ nf np ncfg,
      ((lowerStr c3scen.stype = "capacity_drop" ∧
          nf = applyCapacityDrop [] (c3scen.params.dropPct.getD 0)
            c3scen.params.wilayah c3scen.params.kelas ∧
          np = ([] : List Patient) ∧ ncfg = c6cfg) ∨
       (lowerStr c3scen.stype = "policy_change" ∧ nf = ([] : List Fac) ∧
          np = ([] : List Patient) ∧
          ncfg = applyPolicyChange c6cfg c3scen.params.radiusKm
            c3scen.params.maxLoad c3scen.params.targetOcc) ∨
       (lowerStr c3scen.stype = "demand_spike" ∧ nf = ([] : List Fac) ∧
          np = applyDemandSpike samp0 [] (c3scen.params.spikePct.getD 0)
            c3scen.params.wilayah c3scen.params.kasus
            (c3scen.params.severityShift.getD 0) ∧ ncfg = c6cfg)) ∧
      c3wout.before = computeMetrics sq0 (greedyMatch hav0 [] [] c6cfg) ∧
      c3wout.after = computeMetrics sq0 (greedyMatch hav0 np nf ncfg) ∧
      c3wout.delta = metricsDelta c3wout.before c3wout.after ∧
      ∃ sorted : List FacChange,
        List.Sorted facChangeGe sorted ∧
        sorted.Perm (facChangeRows (greedyMatch hav0 [] [] c6cfg).facs
          (greedyMatch hav0 np nf ncfg).facs) ∧
        c3wout.topFacilityChanges = sorted.take 5 :=
  C3_scenario_runs_greedy_amended hav0 sq0 samp0 c3scen [] [] c6cfg c3wout
    c3wout_run

/-! ### C10: each patient is assigned at most once -/

/-- One greedy step appends at most one assignment, whose `patient_id` is
the processed row's identifier. -/
theorem greedyStep_cases (hav : ℚ → ℚ → ℚ → ℚ → ℚ) (w : Wts) (cns : Cons)
    (facs : List Fac) (st : (String → ℚ) × List Asg) (p : Patient) :
    (greedyStep hav w cns facs st p).2 = st.2 ∨
    ∃ a, a.pid = p.idp ∧ (greedyStep hav w cns facs st p).2 = st.2 ++ [a] := by
  unfold greedyStep
  rcases greedyScan hav w cns facs st.1 p with - | ⟨rsId, d, ob, c⟩
  · exact Or.inl rfl
  · exact Or.inr ⟨_, rfl, rfl⟩

/-- The greedy fold: assignment count per identifier is bounded by the
number of processed rows carrying that identifier, total count by the number
of rows, and every assignment's identifier stems from a processed row. -/
theorem greedy_fold_bounds (hav : ℚ → ℚ → ℚ → ℚ → ℚ) (w : Wts) (cns : Cons)
    (facs : List Fac) (ps : List Patient) :
    ∀ st : (String → ℚ) × List Asg,
      (ps.foldl (greedyStep hav w cns facs) st).2.length ≤
        st.2.length + ps.length ∧
      (∀ x : String,
        (ps.foldl (greedyStep hav w cns facs) st).2.countP
            (fun a => a.pid = x) ≤
          st.2.countP (fun a => a.pid = x) +
            ps.countP (fun p => p.idp = x)) ∧
      (∀ a ∈ (ps.foldl (greedyStep hav w cns facs) st).2,
        a ∈ st.2 ∨ ∃ p ∈ ps, a.pid = p.idp) := by
  induction ps with
  | nil => intro st; simp
  | cons p rest ih =>
    intro st
    simp only [List.foldl_cons]
    obtain ⟨ih1, ih2, ih3⟩ := ih (greedyStep hav w cns facs st p)
    rcases greedyStep_cases hav w cns facs st p with heq | ⟨a, ha, heq⟩
    · refine ⟨?_, ?_, ?_⟩
      · rw [heq] at ih1
        simp only [List.length_cons]
        omega
      · intro x
        have := ih2 x
        rw [heq] at this
        refine le_trans this ?_
        simp only [List.countP_cons]
        omega
      · intro b hb
        rcases ih3 b hb with hmem | ⟨q, hq, hbq⟩
        · rw [heq] at hmem
          exact Or.inl hmem
        · exact Or.inr ⟨q, List.mem_cons_of_mem p hq, hbq⟩
    · refine ⟨?_, ?_, ?_⟩
      · rw [heq] at ih1
        rw [List.length_append] at ih1
        simp only [List.length_cons, List.length_singleton,
          List.length_nil] at ih1 ⊢
        omega
      · intro x
        have hc := ih2 x
        rw [heq, List.countP_append] at hc
        have h1 : List.countP (fun b => decide (b.pid = x)) [a] ≤
            (if p.idp = x then 1 else 0 : ℕ) := by
          by_cases hx : a.pid = x
          · have hpx : p.idp = x := ha ▸ hx
            simp [List.countP_cons, hx, hpx]
          · simp [List.countP_cons, hx]
        have h2 : List.countP (fun q => decide (q.idp = x)) (p :: rest) =
            List.countP (fun q => decide (q.idp = x)) rest +
              (if p.idp = x then 1 else 0) := by
          by_cases hx : p.idp = x
          · simp [List.countP_cons, hx]
          · simp [List.countP_cons, hx]
        rw [h2]
        omega
      · intro b hb
        rcases ih3 b hb with hmem | ⟨q, hq, hbq⟩
        · rw [heq] at hmem
          rcases List.mem_append.mp hmem with hm | hm
          · exact Or.inl hm
          · simp only [List.mem_singleton] at hm
            exact Or.inr ⟨p, List.mem_cons_self p rest, hm ▸ ha⟩
        · exact Or.inr ⟨q, List.mem_cons_of_mem p hq, hbq⟩

/-- `hungarianSquare` always returns a `col_ind` with one entry per row. -/
theorem hungarianSquare_length {fuel : ℕ} {c : ℕ → ℕ → ℚ} {n : ℕ} {ci : List ℤ}
    (h : hungarianSquare fuel c n = some ci) : ci.length = n := by
  unfold hungarianSquare at h
  rcases Option.map_eq_some'.mp h with ⟨st, -, rfl⟩
  simp

/-- The pairs reported by `linear_sum_assignment` carry pairwise-distinct
row indices, all below the patient count. -/
theorem lsa_rows {fuel : ℕ} {C : ℕ → ℕ → ℚ} {m s : ℕ} {pairs : List (ℕ × ℤ)}
    (h : linearSumAssignment fuel C m s = some pairs) :
    (pairs.map Prod.fst).Nodup ∧ ∀ rc ∈ pairs, rc.1 < m := by
  unfold linearSumAssignment at h
  split at h
  · rcases Option.map_eq_some'.mp h with ⟨ci, hci, rfl⟩
    have hlen : ci.length = m := hungarianSquare_length hci
    have hfst : ((List.range m).zip ci).map Prod.fst = List.range m := by
      apply List.map_fst_zip
      simp [hlen]
    constructor
    · rw [hfst]; exact List.nodup_range m
    · intro rc hrc
      have : rc.1 ∈ ((List.range m).zip ci).map Prod.fst :=
        List.mem_map.mpr ⟨rc, hrc, rfl⟩
      rw [hfst] at this
      exact List.mem_range.mp this
  · rcases Option.map_eq_some'.mp h with ⟨ci, hci, rfl⟩
    have hlen : ci.length = max m s := hungarianSquare_length hci
    have hfst : ((List.range (max m s)).zip ci).map Prod.fst =
        List.range (max m s) := by
      apply List.map_fst_zip
      simp [hlen]
    constructor
    · have hsub : ((((List.range (max m s)).zip ci).filter
          (fun rc => rc.1 < m ∧ rc.2 < (s : ℤ))).map Prod.fst).Sublist
          (((List.range (max m s)).zip ci).map Prod.fst) :=
        (List.filter_sublist _).map Prod.fst
      exact (hfst ▸ hsub).nodup (List.nodup_range _)
    · intro rc hrc
      have := (List.mem_filter.mp hrc).2
      simp only [decide_eq_true_eq] at this
      exact this.1

/-- The assignment identifiers decoded from a pair list are the identifiers
of the feasible pairs' patient rows, in order. -/
theorem decodePairs_pids (hav : ℚ → ℚ → ℚ → ℚ → ℚ) (C : ℕ → ℕ → ℚ)
    (pats : List Patient) (slots : List Slot) :
    ∀ (pairs : List (ℕ × ℤ)) (st : List Asg × (String → ℕ)),
      ((pairs.foldl (decodeStep hav C pats slots) st).1).map Asg.pid =
        st.1.map Asg.pid ++
          (pairs.filter
            (fun rc => ¬ INF ≤ C rc.1 (pyIdx slots.length rc.2))).map
            (fun rc => (pyGetPat pats rc.1).idp) := by
  intro pairs
  induction pairs with
  | nil => intro st; simp
  | cons rc rest ih =>
    intro st
    simp only [List.foldl_cons]
    by_cases hc : INF ≤ C rc.1 (pyIdx slots.length rc.2)
    · have hstep : decodeStep hav C pats slots st rc = st := by
        simp [decodeStep, hc]
      rw [hstep, ih st]
      have : (rc :: rest).filter
          (fun rc => ¬ INF ≤ C rc.1 (pyIdx slots.length rc.2)) =
          rest.filter (fun rc => ¬ INF ≤ C rc.1 (pyIdx slots.length rc.2)) := by
        simp [List.filter_cons, hc]
      rw [this]
    · have hstep : (decodeStep hav C pats slots st rc).1 =
          st.1 ++ [{ pid := (pyGetPat pats rc.1).idp,
                     hid := (pyGetSlot slots rc.2).hid,
                     dist := hav (pyGetPat pats rc.1).lat (pyGetPat pats rc.1).lon
                       (pyGetSlot slots rc.2).lat (pyGetSlot slots rc.2).lon,
                     occB := (pyGetSlot slots rc.2).occB,
                     occA := ((pyGetSlot slots rc.2).occ0 +
                       ((if (pyGetSlot slots rc.2).hid = (pyGetSlot slots rc.2).hid
                         then st.2 (pyGetSlot slots rc.2).hid + 1
                         else st.2 (pyGetSlot slots rc.2).hid) : ℕ)) /
                       (pyGetSlot slots rc.2).cap,
                     cost := C rc.1 (pyIdx slots.length rc.2) }] := by
        simp [decodeStep, hc]
      have hrec := ih (decodeStep hav C pats slots st rc)
      rw [hrec, hstep]
      have : (rc :: rest).filter
          (fun rc => ¬ INF ≤ C rc.1 (pyIdx slots.length rc.2)) =
          rc :: rest.filter
            (fun rc => ¬ INF ≤ C rc.1 (pyIdx slots.length rc.2)) := by
        simp [List.filter_cons, hc]
      rw [this]
      simp

/-- `pyGetPat` over the full index range reproduces the patient list. -/
theorem map_pyGetPat_range : ∀ pats : List Patient,
    (List.range pats.length).map (fun i => pyGetPat pats i) = pats := by
  intro pats
  induction pats with
  | nil => simp
  | cons a t ih =>
    rw [List.length_cons, List.range_succ_eq_map]
    simp only [List.map_cons, List.map_map]
    have h2 : (List.range t.length).map
        ((fun i => pyGetPat (a :: t) i) ∘ Nat.succ) = t := by
      calc (List.range t.length).map ((fun i => pyGetPat (a :: t) i) ∘ Nat.succ)
          = (List.range t.length).map (fun i => pyGetPat t i) := by
            apply List.map_congr_left
            intro i _
            rfl
        _ = t := ih
    rw [h2]
    rfl

/-- Counting over identifiers drawn through pairwise-distinct valid indices
is bounded by the source row counts. -/
theorem countP_pyGetPat_le (pats : List Patient) (idx : List ℕ)
    (hnd : idx.Nodup) (hlt : ∀ i ∈ idx, i < pats.length)
    (pr : Patient → Bool) :
    (idx.map (fun i => pyGetPat pats i)).countP pr ≤ pats.countP pr := by
  have hsub : idx.Subperm (List.range pats.length) :=
    List.subperm_of_subset hnd (fun i hi => List.mem_range.mpr (hlt i hi))
  obtain ⟨l, hperm, hsl⟩ := hsub
  have hmap : (idx.map (fun i => pyGetPat pats i)).Subperm
      ((List.range pats.length).map (fun i => pyGetPat pats i)) :=
    ⟨l.map (fun i => pyGetPat pats i), hperm.map _, hsl.map _⟩
  rw [map_pyGetPat_range] at hmap
  exact hmap.countP_le pr

theorem pyGetPat_mem {pats : List Patient} {i : ℕ} (h : i < pats.length) :
    pyGetPat pats i ∈ pats := by
  unfold pyGetPat
  rw [List.get?_eq_get h]
  exact List.get_mem pats i h

/-- The Hungarian path assigns every patient position at most once. -/
theorem solveHWC_unique (hav : ℚ → ℚ → ℚ → ℚ → ℚ) (fuel : ℕ)
    (pats : List Patient) (facs : List Fac) (w : Wts) (cns : Cons)
    (asgs : List Asg) (snap : List Snap)
    (h : solveHungarianWithCapacity hav fuel pats facs w cns =
      some (asgs, snap)) :
    asgs.length ≤ pats.length ∧
    (∀ x, asgs.countP (fun a => a.pid = x) ≤
      pats.countP (fun p => p.idp = x)) ∧
    (∀ a ∈ asgs, ∃ p ∈ pats, a.pid = p.idp) := by
  simp only [solveHungarianWithCapacity] at h
  split at h
  · simp only [Option.some.injEq, Prod.mk.injEq] at h
    rw [← h.1]
    simp
  · rcases Option.map_eq_some'.mp h with ⟨pairs, hp, heq⟩
    simp only [Prod.mk.injEq] at heq
    obtain ⟨hnd, hlt⟩ := lsa_rows hp
    set slots := buildCapacityExpandedSlots facs cns with hslots
    set C := costEntry hav w cns pats slots with hC
    have hasgs : asgs = (decodePairs hav C pats slots pairs).1 := heq.1.symm
    have hpids : asgs.map Asg.pid =
        (pairs.filter (fun rc => ¬ INF ≤ C rc.1 (pyIdx slots.length rc.2))).map
          (fun rc => (pyGetPat pats rc.1).idp) := by
      rw [hasgs]
      have := decodePairs_pids hav C pats slots pairs ([], fun _ => 0)
      simpa [decodePairs] using this
    set flt := pairs.filter (fun rc => ¬ INF ≤ C rc.1 (pyIdx slots.length rc.2))
      with hflt
    set idx := flt.map Prod.fst with hidx
    have hidxnd : idx.Nodup := by
      have hsub : idx.Sublist (pairs.map Prod.fst) :=
        (List.filter_sublist pairs).map Prod.fst
      exact hsub.nodup hnd
    have hidxlt : ∀ i ∈ idx, i < pats.length := by
      intro i hi
      rcases List.mem_map.mp hi with ⟨rc, hrc, rfl⟩
      exact hlt rc (List.mem_of_mem_filter hrc)
    have hmapmap : flt.map (fun rc => (pyGetPat pats rc.1).idp) =
        idx.map (fun i => (pyGetPat pats i).idp) := by
      rw [hidx, List.map_map]
      rfl
    refine ⟨?_, ?_, ?_⟩
    · have h1 : asgs.length = idx.length := by
        have := congrArg List.length hpids
        simpa [hidx] using this
      rw [h1]
      have hsub : idx.Subperm (List.range pats.length) :=
        List.subperm_of_subset hidxnd
          (fun i hi => List.mem_range.mpr (hidxlt i hi))
      simpa using hsub.length_le
    · intro x
      have h1 : asgs.countP (fun a => a.pid = x) =
          (asgs.map Asg.pid).countP (fun y => y = x) := by
        rw [List.countP_map]
        rfl
      rw [h1, hpids, hmapmap]
      have h3 : idx.map (fun i => (pyGetPat pats i).idp) =
          (idx.map (fun i => pyGetPat pats i)).map Patient.idp := by
        conv_rhs => rw [List.map_map]
        rfl
      rw [h3, List.countP_map]
      exact countP_pyGetPat_le pats idx hidxnd hidxlt _
    · intro a ha
      have : a.pid ∈ asgs.map Asg.pid := List.mem_map.mpr ⟨a, ha, rfl⟩
      rw [hpids] at this
      rcases List.mem_map.mp this with ⟨rc, hrc, hpid⟩
      have hrcm : rc.1 < pats.length := hlt rc (List.mem_of_mem_filter hrc)
      exact ⟨pyGetPat pats rc.1, pyGetPat_mem hrcm, hpid.symm⟩

/-- C10: each input patient yields at most one assignment in either solver
(per-identifier assignment counts are bounded by the input row counts),
every assignment's `patient_id` stems from an input row, and
`total_assigned ≤ total_patients` in every envelope `run_match` returns. -/
theorem C10_patient_assigned_at_most_once (hav : ℚ → ℚ → ℚ → ℚ → ℚ)
    (fuel : ℕ) (pats : List Patient) (facs : List Fac) (cfg : Config)
    (w : Wts) (cns : Cons) :
    ((greedyMatch hav pats facs cfg).asgs.length ≤ pats.length ∧
     (∀ x, (greedyMatch hav pats facs cfg).asgs.countP
         (fun a => a.pid = x) ≤ pats.countP (fun p => p.idp = x)) ∧
     (∀ a ∈ (greedyMatch hav pats facs cfg).asgs, ∃ p ∈ pats, a.pid = p.idp) ∧
     (greedyMatch hav pats facs cfg).summary.totalA ≤
       (greedyMatch hav pats facs cfg).summary.totalP) ∧
    (∀ asgs snap,
      solveHungarianWithCapacity hav fuel pats facs w cns =
        some (asgs, snap) →
      asgs.length ≤ pats.length ∧
      (∀ x, asgs.countP (fun a => a.pid = x) ≤
        pats.countP (fun p => p.idp = x)) ∧
      (∀ a ∈ asgs, ∃ p ∈ pats, a.pid = p.idp)) ∧
    (∀ res, runMatch hav fuel pats facs cfg = some res →
      res.summary.totalA ≤ res.summary.totalP) := by
  have hperm : (sortPatients pats).Perm pats :=
    List.perm_insertionSort _ pats
  have hgreedy : (greedyMatch hav pats facs cfg).asgs.length ≤ pats.length ∧
      (∀ x, (greedyMatch hav pats facs cfg).asgs.countP
          (fun a => a.pid = x) ≤ pats.countP (fun p => p.idp = x)) ∧
      (∀ a ∈ (greedyMatch hav pats facs cfg).asgs,
        ∃ p ∈ pats, a.pid = p.idp) := by
    unfold greedyMatch
    split
    · simp [emptyResult]
    · obtain ⟨hb1, hb2, hb3⟩ := greedy_fold_bounds hav cfg.w cfg.cns facs
        (sortPatients pats) (initOcc facs, [])
      refine ⟨?_, ?_, ?_⟩
      · simpa [hperm.length_eq] using hb1
      · intro x
        have := hb2 x
        simpa [hperm.countP_eq] using this
      · intro a ha
        rcases hb3 a ha with hmem | ⟨p, hp, hap⟩
        · simp at hmem
        · exact ⟨p, hperm.mem_iff.mp hp, hap⟩
  have hgP : (greedyMatch hav pats facs cfg).summary.totalP =
      (pats.length : ℤ) := by
    unfold greedyMatch
    split
    · rfl
    · rfl
  have hgA : (greedyMatch hav pats facs cfg).summary.totalA =
      ((greedyMatch hav pats facs cfg).asgs.length : ℤ) := by
    unfold greedyMatch
    split
    · rfl
    · rfl
  have hgTot : (greedyMatch hav pats facs cfg).summary.totalA ≤
      (greedyMatch hav pats facs cfg).summary.totalP := by
    rw [hgP, hgA]
    exact_mod_cast hgreedy.1
  refine ⟨⟨hgreedy.1, hgreedy.2.1, hgreedy.2.2, hgTot⟩,
    fun asgs snap h => solveHWC_unique hav fuel pats facs w cns asgs snap h,
    ?_⟩
  intro res hres
  simp only [runMatch] at hres
  split at hres
  · simp only [Option.some.injEq] at hres
    rw [← hres]
    simp [emptyResult]
  · split at hres
    · simp only [Option.some.injEq] at hres
      rw [← hres]
      exact hgTot
    · split at hres
      · rcases Option.map_eq_some'.mp hres with ⟨pr, hpr, rfl⟩
        have := (solveHWC_unique hav fuel pats facs cfg.w cfg.cns pr.1 pr.2
          (by rw [← hpr])).1
        simpa using this
      · simp only [Option.some.injEq] at hres
        rw [← hres]
        exact hgTot

/-- The envelope `run_match` produces on the C3/C10 concrete instance. -/
theorem c3runMatch_eq : runMatch hav0 5 [c3P] [c3A, c3B] c3cfgH = some
    { summary := { totalP := 1, totalA := 1, totalU := 0 },
      asgs := [{ pid := "P", hid := "B", dist := 0, occB := 2/5,
                 occA := 3/5, cost := 3/25 }],
      facs := [{ hid := "A", cap := 3, occ := 1, occr := some (1/3),
                 wil := "w", kel := "k" },
               { hid := "B", cap := 5, occ := 3, occr := some (3/5),
                 wil := "w", kel := "k" }] } := by
  norm_num [runMatch, c3hung_eq,
    show lowerStr c3cfgH.solver = "hungarian" from by decide,
    show ¬([c3A, c3B] : List Fac) = [] from by simp,
    show ¬("hungarian" : String) = "greedy" from by decide]

/-- Witness for C10 at the concrete one-patient instance, covering the
greedy bound, the Hungarian-path hypothesis (via the computed solver run)
and the `run_match` envelope hypothesis. -/
theorem C10_patient_assigned_at_most_once_witness :
    (greedyMatch hav0 [c3P] [c3A, c3B] c3cfgH).asgs.length ≤ [c3P].length ∧
    ([{ pid := "P", hid := "B", dist := 0, occB := 2/5, occA := 3/5,
        cost := 3/25 }] : List Asg).length ≤ [c3P].length ∧
    (1 : ℤ) ≤ (1 : ℤ) := by
  have h := C10_patient_assigned_at_most_once hav0 5 [c3P] [c3A, c3B] c3cfgH
    c3cfgH.w c3cfgH.cns
  exact ⟨h.1.1, (h.2.1 _ _ c3hung_eq).1, h.2.2 _ c3runMatch_eq⟩

/-! ### Hungarian solver invariants

The remaining claims need structural facts about `_hungarian_square`: the
starred zeros always form a partial permutation matrix, the matrix stays
non-negative and differs from the input by row/column potentials, and at
termination the stars form a minimum-cost perfect matching. -/

theorem foldl_min_le_init (l : List ℚ) (a : ℚ) : l.foldl min a ≤ a := by
  induction l generalizing a with
  | nil => simp
  | cons x t ih => exact le_trans (ih (min a x)) (min_le_left a x)

theorem foldl_min_le_mem {l : List ℚ} {x : ℚ} (hx : x ∈ l) (a : ℚ) :
    l.foldl min a ≤ x := by
  induction l generalizing a with
  | nil => cases hx
  | cons y t ih =>
    rcases List.mem_cons.mp hx with rfl | hxt
    · exact le_trans (foldl_min_le_init t (min a x)) (min_le_right a x)
    · exact ih hxt (min a y)

theorem le_foldl_min {l : List ℚ} {a m : ℚ} (ha : m ≤ a)
    (hl : ∀ x ∈ l, m ≤ x) : m ≤ l.foldl min a := by
  induction l generalizing a with
  | nil => simpa using ha
  | cons y t ih =>
    exact ih (le_min ha (hl y (List.mem_cons_self y t)))
      (fun x hx => hl x (List.mem_cons_of_mem y hx))

/-- The invariants of the zero-covering loop. -/
structure Inv (n : ℕ) (c0 : ℕ → ℕ → ℚ) (st : HS) : Prop where
  starW : ∀ i j, st.star i j = true → i < n ∧ j < n
  primW : ∀ i j, st.prim i j = true → i < n ∧ j < n
  starRowU : ∀ i j j', st.star i j = true → st.star i j' = true → j = j'
  starColU : ∀ i i' j, st.star i j = true → st.star i' j = true → i = i'
  primRowU : ∀ i j j', st.prim i j = true → st.prim i j' = true → j = j'
  primNotStar : ∀ i j, st.prim i j = true → st.star i j = false
  primCov : ∀ i j, st.prim i j = true → st.rcov i = true
  covPrim : ∀ i, i < n → st.rcov i = true → ∃ j, st.prim i j = true
  primColUncov : ∀ i j, st.prim i j = true → st.ccov j = false
  starCovSplit : ∀ i j, st.star i j = true →
    (st.rcov i = true ∧ st.ccov j = false) ∨
    (st.rcov i = false ∧ st.ccov j = true)
  starZero : ∀ i j, st.star i j = true → st.c i j = 0
  primZero : ∀ i j, st.prim i j = true → st.c i j = 0
  cNonneg : ∀ i j, i < n → j < n → 0 ≤ st.c i j
  pot : ∃ u v : ℕ → ℚ, ∀ i j, i < n → j < n → c0 i j - st.c i j = u i + v j
  covStar : ∀ j, st.ccov j = true → j < n ∧ ∃ i, st.star i j = true

/-! #### Initial state -/

theorem rowReduce_nonneg (c0 : ℕ → ℕ → ℚ) (n i j : ℕ) (hj : j < n) :
    0 ≤ rowReduce c0 n i j := by
  unfold rowReduce rowMin
  have hmem : c0 i j ∈ (List.range n).map (fun j => c0 i j) :=
    List.mem_map.mpr ⟨j, List.mem_range.mpr hj, rfl⟩
  have := foldl_min_le_mem hmem (c0 i 0)
  linarith

theorem colReduce_nonneg (c : ℕ → ℕ → ℚ) (n i j : ℕ) (hi : i < n) :
    0 ≤ colReduce c n i j := by
  unfold colReduce colMin
  have hmem : c i j ∈ (List.range n).map (fun i => c i j) :=
    List.mem_map.mpr ⟨i, List.mem_range.mpr hi, rfl⟩
  have := foldl_min_le_mem hmem (c 0 j)
  linarith

/-- The accumulated properties of the initial-starring fold. -/
theorem initStar_fold (c : ℕ → ℕ → ℚ) (n : ℕ) :
    ∀ (l : List ℕ) (acc : ℕ → ℕ → Bool),
      l.Nodup → (∀ i ∈ l, i < n) →
      (∀ a b, acc a b = true → a < n ∧ b < n ∧ c a b = 0) →
      (∀ a j j', acc a j = true → acc a j' = true → j = j') →
      (∀ a a' j, acc a j = true → acc a' j = true → a = a') →
      (∀ i ∈ l, ∀ j, acc i j = false) →
      (∀ a b, (l.foldl (initStarStep c n) acc) a b = true →
        a < n ∧ b < n ∧ c a b = 0) ∧
      (∀ a j j', (l.foldl (initStarStep c n) acc) a j = true →
        (l.foldl (initStarStep c n) acc) a j' = true → j = j') ∧
      (∀ a a' j, (l.foldl (initStarStep c n) acc) a j = true →
        (l.foldl (initStarStep c n) acc) a' j = true → a = a') := by
  intro l
  induction l with
  | nil => intro acc _ _ hW hA1 hA2 _; exact ⟨hW, hA1, hA2⟩
  | cons i t ih =>
    intro acc hnd hlt hW hA1 hA2 hempty
    simp only [List.foldl_cons]
    have hndt := (List.nodup_cons.mp hnd).2
    have hmemt : i ∉ t := (List.nodup_cons.mp hnd).1
    have hltt : ∀ x ∈ t, x < n := fun x hx => hlt x (List.mem_cons_of_mem i hx)
    unfold initStarStep
    rcases hfind : (List.range n).find? (fun j =>
        c i j = 0 ∧ ((List.range n).all (fun i' => !acc i' j))) with - | j
    · exact ih acc hndt hltt hW hA1 hA2
        (fun x hx => hempty x (List.mem_cons_of_mem i hx))
    · have hj : j ∈ List.range n := List.mem_of_find?_eq_some hfind
      have hp := List.find?_some hfind
      simp only [decide_eq_true_eq, Bool.decide_and, Bool.and_eq_true,
        List.all_eq_true, Bool.not_eq_true'] at hp
      obtain ⟨hcij, hcol⟩ := hp
      have hjn : j < n := List.mem_range.mp hj
      have hin : i < n := hlt i (List.mem_cons_self i t)
      set acc' : ℕ → ℕ → Bool :=
        fun a b => if a = i ∧ b = j then true else acc a b with hacc'
      have happ : ∀ a b, acc' a b = if a = i ∧ b = j then true else acc a b :=
        fun _ _ => rfl
      apply ih acc' hndt hltt
      · intro a b hab
        rw [happ] at hab
        by_cases hcase : a = i ∧ b = j
        · obtain ⟨rfl, rfl⟩ := hcase
          exact ⟨hin, hjn, hcij⟩
        · rw [if_neg hcase] at hab
          exact hW a b hab
      · intro a b b' hb hb'
        rw [happ] at hb hb'
        by_cases h1 : a = i ∧ b = j
        · by_cases h2 : a = i ∧ b' = j
          · rw [h1.2, h2.2]
          · rw [if_neg h2] at hb'
            obtain ⟨rfl, rfl⟩ := h1
            have := hempty a (List.mem_cons_self a t) b'
            rw [this] at hb'
            cases hb'
        · rw [if_neg h1] at hb
          by_cases h2 : a = i ∧ b' = j
          · obtain ⟨rfl, rfl⟩ := h2
            have := hempty a (List.mem_cons_self a t) b
            rw [this] at hb
            cases hb
          · rw [if_neg h2] at hb'
            exact hA1 a b b' hb hb'
      · intro a a' b ha ha'
        rw [happ] at ha ha'
        by_cases h1 : a = i ∧ b = j
        · by_cases h2 : a' = i ∧ b = j
          · rw [h1.1, h2.1]
          · rw [if_neg h2] at ha'
            obtain ⟨rfl, rfl⟩ := h1
            have hlt' := (hW a' b ha').1
            have := hcol a' (List.mem_range.mpr hlt')
            rw [this] at ha'
            cases ha'
        · rw [if_neg h1] at ha
          by_cases h2 : a' = i ∧ b = j
          · obtain ⟨rfl, rfl⟩ := h2
            have hlt' := (hW a b ha).1
            have := hcol a (List.mem_range.mpr hlt')
            rw [this] at ha
            cases ha
          · rw [if_neg h2] at ha'
            exact hA2 a a' b ha ha'
      · intro x hx b
        rw [happ]
        have hne : ¬ (x = i ∧ b = j) := by
          intro hcase
          exact hmemt (hcase.1 ▸ hx)
        rw [if_neg hne]
        exact hempty x (List.mem_cons_of_mem i hx) b

/-- The starting state of the main loop satisfies the invariants. -/
theorem initHS_inv (c0 : ℕ → ℕ → ℚ) (n : ℕ) : Inv n c0 (initHS c0 n) := by
  set c1 := colReduce (rowReduce c0 n) n with hc1
  have hstar := initStar_fold c1 n (List.range n) (fun _ _ => false)
    (List.nodup_range n) (fun i hi => List.mem_range.mp hi)
    (fun a b h => by cases h) (fun a j j' h => by cases h)
    (fun a a' j h => by cases h) (fun i _ j => rfl)
  have hW := hstar.1
  have hA1 := hstar.2.1
  have hA2 := hstar.2.2
  refine ⟨?_, ?_, ?_, ?_, ?_, ?_, ?_, ?_, ?_, ?_, ?_, ?_, ?_, ?_, ?_⟩
  · intro i j h
    exact ⟨(hW i j h).1, (hW i j h).2.1⟩
  · intro i j h
    cases h
  · exact fun i j j' h h' => hA1 i j j' h h'
  · exact fun i i' j h h' => hA2 i i' j h h'
  · intro i j j' h
    cases h
  · intro i j h
    cases h
  · intro i j h
    cases h
  · intro i hi h
    cases h
  · intro i j h
    cases h
  · intro i j h
    right
    refine ⟨rfl, ?_⟩
    unfold initHS coverStarCols
    simp only [Bool.and_eq_true, List.any_eq_true, decide_eq_true_eq]
    exact ⟨(hW i j h).2.1, ⟨i, List.mem_range.mpr (hW i j h).1, h⟩⟩
  · intro i j h
    exact (hW i j h).2.2
  · intro i j h
    cases h
  · intro i j hi hj
    exact colReduce_nonneg (rowReduce c0 n) n i j hi
  · refine ⟨fun i => rowMin c0 n i, fun j => colMin (rowReduce c0 n) n j,
      fun i j hi hj => ?_⟩
    show c0 i j - colReduce (rowReduce c0 n) n i j = _
    unfold colReduce rowReduce
    ring
  · intro j hj
    unfold initHS coverStarCols at hj
    simp only [Bool.and_eq_true, List.any_eq_true, decide_eq_true_eq] at hj
    obtain ⟨hjn, i, hi, hstar⟩ := hj
    exact ⟨hjn, i, hstar⟩

/-! #### Finder specifications -/

theorem findSome_mem {α β : Type} {f : α → Option β} :
    ∀ {l : List α} {b : β}, l.findSome? f = some b → ∃ a ∈ l, f a = some b := by
  intro l
  induction l with
  | nil => intro b h; simp [List.findSome?_nil] at h
  | cons x t ih =>
    intro b h
    rw [List.findSome?_cons] at h
    cases hfx : f x with
    | none =>
      rw [hfx] at h
      rcases ih h with ⟨a, ha, hfa⟩
      exact ⟨a, List.mem_cons_of_mem x ha, hfa⟩
    | some c =>
      rw [hfx] at h
      exact ⟨x, List.mem_cons_self x t, hfx.trans h⟩

theorem findZero_spec {st : HS} {n r s : ℕ}
    (h : findZero st n = some (r, s)) :
    r < n ∧ st.rcov r = false ∧ s < n ∧ st.ccov s = false ∧ st.c r s = 0 := by
  unfold findZero at h
  rcases findSome_mem h with ⟨i, hi, hfi⟩
  by_cases hrc : st.rcov i
  · rw [if_pos hrc] at hfi; cases hfi
  · rw [if_neg hrc] at hfi
    rcases Option.map_eq_some'.mp hfi with ⟨j, hfind, hpair⟩
    injection hpair with h1 h2
    subst h1; subst h2
    have hp := List.find?_some hfind
    have hmem := List.mem_of_find?_eq_some hfind
    simp only [decide_eq_true_eq] at hp
    have hr : st.rcov i = false := by
      cases hcase : st.rcov i
      · rfl
      · exact absurd hcase hrc
    have hc : st.ccov j = false := by
      cases hcase : st.ccov j
      · rfl
      · exact absurd hcase hp.1
    exact ⟨List.mem_range.mp hi, hr, List.mem_range.mp hmem, hc, hp.2⟩

theorem starInRow_some {star : ℕ → ℕ → Bool} {n r j : ℕ}
    (h : starInRow star n r = some j) : star r j = true ∧ j < n := by
  unfold starInRow at h
  have h1 := List.find?_some h
  exact ⟨h1, List.mem_range.mp (List.mem_of_find?_eq_some h)⟩

theorem starInRow_none {star : ℕ → ℕ → Bool} {n r : ℕ}
    (h : starInRow star n r = none)
    (hW : ∀ i j, star i j = true → i < n ∧ j < n) :
    ∀ j, star r j = false := by
  intro j
  cases hs : star r j
  · rfl
  · have hjn : j < n := (hW r j hs).2
    have := List.find?_eq_none.mp h j (List.mem_range.mpr hjn)
    simp [hs] at this

theorem starInCol_some {star : ℕ → ℕ → Bool} {n b i : ℕ}
    (h : starInCol star n b = some i) : star i b = true ∧ i < n := by
  unfold starInCol at h
  have h1 := List.find?_some h
  exact ⟨h1, List.mem_range.mp (List.mem_of_find?_eq_some h)⟩

theorem starInCol_none {star : ℕ → ℕ → Bool} {n b : ℕ}
    (h : starInCol star n b = none)
    (hW : ∀ i j, star i j = true → i < n ∧ j < n) :
    ∀ i, star i b = false := by
  intro i
  cases hs : star i b
  · rfl
  · have hin : i < n := (hW i b hs).1
    have := List.find?_eq_none.mp h i (List.mem_range.mpr hin)
    simp [hs] at this

theorem primeInRow_some {prim : ℕ → ℕ → Bool} {n r j : ℕ}
    (h : primeInRow prim n r = some j) : prim r j = true ∧ j < n := by
  unfold primeInRow at h
  have h1 := List.find?_some h
  exact ⟨h1, List.mem_range.mp (List.mem_of_find?_eq_some h)⟩

theorem primeInRow_isSome {prim : ℕ → ℕ → Bool} {n r j : ℕ}
    (hp : prim r j = true) (hj : j < n) :
    ∃ j', primeInRow prim n r = some j' := by
  cases hfind : primeInRow prim n r with
  | none =>
    unfold primeInRow at hfind
    have := List.find?_eq_none.mp hfind j (List.mem_range.mpr hj)
    simp [hp] at this
  | some j' => exact ⟨j', rfl⟩

/-! #### The adjust step -/

theorem ite_bool_false {α : Type} (b : Bool) (x y : α) (hb : b = false) :
    (if b = true then x else y) = y := by rw [hb]; simp

theorem ite_bool_true {α : Type} (b : Bool) (x y : α) (hb : b = true) :
    (if b = true then x else y) = x := by rw [hb]; simp

theorem adjust_inv {n : ℕ} {c0 : ℕ → ℕ → ℚ} {st st' : HS}
    (hI : Inv n c0 st) (h : adjust st n = some st') :
    Inv n c0 st' ∧ st'.star = st.star ∧ st'.prim = st.prim ∧
    st'.rcov = st.rcov ∧ st'.ccov = st.ccov := by
  simp only [adjust] at h
  set rowsU := (List.range n).filter (fun i => !st.rcov i) with hrowsU
  set colsU := (List.range n).filter (fun j => !st.ccov j) with hcolsU
  rcases hflat : rowsU.flatMap (fun i => colsU.map (fun j => st.c i j)) with
    - | ⟨v, vs⟩
  · rw [hflat] at h; simp at h
  · rw [hflat] at h
    simp only [Option.some.injEq] at h
    set m := vs.foldl min v with hm
    have hmemc : ∀ x ∈ v :: vs, ∃ i ∈ rowsU, ∃ j ∈ colsU, x = st.c i j := by
      intro x hx
      rw [← hflat] at hx
      rcases List.mem_flatMap.mp hx with ⟨i, hi, hxi⟩
      rcases List.mem_map.mp hxi with ⟨j, hj, hxij⟩
      exact ⟨i, hi, j, hj, hxij.symm⟩
    have hnn : ∀ x ∈ v :: vs, 0 ≤ x := by
      intro x hx
      rcases hmemc x hx with ⟨i, hi, j, hj, rfl⟩
      exact hI.cNonneg i j (List.mem_range.mp (List.mem_of_mem_filter hi))
        (List.mem_range.mp (List.mem_of_mem_filter hj))
    have hm0 : 0 ≤ m :=
      le_foldl_min (hnn v (List.mem_cons_self v vs))
        (fun x hx => hnn x (List.mem_cons_of_mem v hx))
    have hmle : ∀ i j, st.rcov i = false → st.ccov j = false →
        i < n → j < n → m ≤ st.c i j := by
      intro i j hri hcj hin hjn
      have hiu : i ∈ rowsU := by
        rw [hrowsU]
        exact List.mem_filter.mpr ⟨List.mem_range.mpr hin, by simp [hri]⟩
      have hju : j ∈ colsU := by
        rw [hcolsU]
        exact List.mem_filter.mpr ⟨List.mem_range.mpr hjn, by simp [hcj]⟩
      have hmem : st.c i j ∈ v :: vs := by
        rw [← hflat]
        exact List.mem_flatMap.mpr ⟨i, hiu, List.mem_map.mpr ⟨j, hju, rfl⟩⟩
      rcases List.mem_cons.mp hmem with heq | hmemvs
      · rw [heq, hm]; exact foldl_min_le_init vs v
      · exact foldl_min_le_mem hmemvs v
    have hc' : st'.c = fun i j =>
        st.c i j - (if st.rcov i then 0 else m) +
          (if st.ccov j then m else 0) := by rw [← h]
    have hstar : st'.star = st.star := by rw [← h]
    have hprim : st'.prim = st.prim := by rw [← h]
    have hrcov : st'.rcov = st.rcov := by rw [← h]
    have hccov : st'.ccov = st.ccov := by rw [← h]
    refine ⟨⟨?_, ?_, ?_, ?_, ?_, ?_, ?_, ?_, ?_, ?_, ?_, ?_, ?_, ?_, ?_⟩,
      hstar, hprim, hrcov, hccov⟩
    · rw [hstar]; exact hI.starW
    · rw [hprim]; exact hI.primW
    · rw [hstar]; exact hI.starRowU
    · rw [hstar]; exact hI.starColU
    · rw [hprim]; exact hI.primRowU
    · rw [hprim, hstar]; exact hI.primNotStar
    · rw [hprim, hrcov]; exact hI.primCov
    · rw [hrcov, hprim]; exact hI.covPrim
    · rw [hprim, hccov]; exact hI.primColUncov
    · rw [hstar, hrcov, hccov]; exact hI.starCovSplit
    · rw [hstar, hc']
      intro i j hs
      have hz := hI.starZero i j hs
      rcases hI.starCovSplit i j hs with ⟨hr, hc⟩ | ⟨hr, hc⟩ <;>
        simp [hr, hc, hz]
    · rw [hprim, hc']
      intro i j hp
      have hz := hI.primZero i j hp
      have hr := hI.primCov i j hp
      have hc := hI.primColUncov i j hp
      simp [hr, hc, hz]
    · rw [hc']
      intro i j hin hjn
      have h0 := hI.cNonneg i j hin hjn
      show 0 ≤ (st.c i j - if st.rcov i = true then 0 else m) +
        if st.ccov j = true then m else 0
      cases hri : st.rcov i <;> cases hcj : st.ccov j
      · have h1 := hmle i j hri hcj hin hjn
        simp only [Bool.false_eq_true, eq_self_iff_true, if_true, if_false]
        linarith
      · simp only [Bool.false_eq_true, eq_self_iff_true, if_true, if_false]
        linarith
      · simp only [Bool.false_eq_true, eq_self_iff_true, if_true, if_false]
        linarith
      · simp only [Bool.false_eq_true, eq_self_iff_true, if_true, if_false]
        linarith
    · rcases hI.pot with ⟨u, w, hpot⟩
      rw [hc']
      refine ⟨fun i => u i + (if st.rcov i then 0 else m),
        fun j => w j - (if st.ccov j then m else 0), fun i j hin hjn => ?_⟩
      have hpij := hpot i j hin hjn
      show c0 i j - ((st.c i j - if st.rcov i = true then 0 else m) +
        if st.ccov j = true then m else 0) =
        (u i + if st.rcov i = true then 0 else m) +
        (w j - if st.ccov j = true then m else 0)
      cases hri : st.rcov i <;> cases hcj : st.ccov j <;>
        simp only [Bool.false_eq_true, eq_self_iff_true, if_true, if_false] <;>
        linarith
    · rw [hccov, hstar]; exact hI.covStar

/-! #### Augmenting-path combinatorics -/

/-- The interleaved path generated from the chain of primed zeros: between
two consecutive primes `(r,j)` and `(r',j')` the starred zero `(r',j)` is
inserted. -/
def chainPath : List (ℕ × ℕ) → List (ℕ × ℕ)
  | [] => []
  | [q] => [q]
  | q :: q' :: rest => q :: (q'.1, q.2) :: chainPath (q' :: rest)

/-- The starred entries interleaved by `chainPath`. -/
def zipStars : List (ℕ × ℕ) → List (ℕ × ℕ)
  | [] => []
  | [_] => []
  | q :: q' :: rest => (q'.1, q.2) :: zipStars (q' :: rest)

theorem chainPath_cons_cons (q q' : ℕ × ℕ) (rest : List (ℕ × ℕ)) :
    chainPath (q :: q' :: rest) = q :: (q'.1, q.2) :: chainPath (q' :: rest) :=
  rfl

theorem zipStars_cons_cons (q q' : ℕ × ℕ) (rest : List (ℕ × ℕ)) :
    zipStars (q :: q' :: rest) = (q'.1, q.2) :: zipStars (q' :: rest) :=
  rfl

theorem chainPath_length : ∀ (t : List (ℕ × ℕ)) (q : ℕ × ℕ),
    (chainPath (q :: t)).length = 2 * t.length + 1 := by
  intro t
  induction t with
  | nil => intro q; rfl
  | cons q' t' ih =>
    intro q
    rw [chainPath_cons_cons]
    simp only [List.length_cons, ih q']
    omega

theorem chainPath_perm : ∀ qs : List (ℕ × ℕ),
    List.Perm (chainPath qs) (qs ++ zipStars qs) := by
  intro qs
  induction qs with
  | nil => simp [chainPath, zipStars]
  | cons q t ih =>
    cases t with
    | nil => simp [chainPath, zipStars]
    | cons q' rest =>
      rw [chainPath_cons_cons, zipStars_cons_cons]
      refine List.Perm.trans
        (List.Perm.cons q (List.Perm.cons (q'.1, q.2) ih)) ?_
      exact List.Perm.cons q (List.perm_middle).symm

theorem mem_zipStars : ∀ {qs : List (ℕ × ℕ)} {x : ℕ × ℕ}, x ∈ zipStars qs →
    ∃ u q q' v, qs = u ++ q :: q' :: v ∧ x = (q'.1, q.2) := by
  intro qs
  induction qs with
  | nil => intro x hx; cases hx
  | cons q t ih =>
    cases t with
    | nil => intro x hx; cases hx
    | cons q' rest =>
      intro x hx
      rw [zipStars_cons_cons] at hx
      rcases List.mem_cons.mp hx with rfl | hx'
      · exact ⟨[], q, q', rest, rfl, rfl⟩
      · rcases ih hx' with ⟨u, a, a', v, heq, hxv⟩
        exact ⟨q :: u, a, a', v, by rw [List.cons_append, heq], hxv⟩

theorem zipStars_mem_of_decomp : ∀ (u : List (ℕ × ℕ)) (q q' : ℕ × ℕ)
    (v qs : List (ℕ × ℕ)), qs = u ++ q :: q' :: v →
    (q'.1, q.2) ∈ zipStars qs := by
  intro u
  induction u with
  | nil =>
    intro q q' v qs h
    subst h
    rw [List.nil_append, zipStars_cons_cons]
    exact List.mem_cons_self _ _
  | cons x u' ih =>
    intro q q' v qs h
    subst h
    rcases hu : u' ++ q :: q' :: v with - | ⟨y, t'⟩
    · exact absurd hu (by simp)
    · rw [List.cons_append, hu, zipStars_cons_cons]
      have hmem := ih q q' v (u' ++ q :: q' :: v) rfl
      rw [hu] at hmem
      exact List.mem_cons_of_mem _ hmem

theorem zipStars_snd_sublist : ∀ qs : List (ℕ × ℕ),
    List.Sublist ((zipStars qs).map Prod.snd) (qs.map Prod.snd) := by
  intro qs
  induction qs with
  | nil => simp [zipStars]
  | cons q t ih =>
    cases t with
    | nil => simp [zipStars]
    | cons q' rest =>
      rw [zipStars_cons_cons]
      simp only [List.map_cons]
      exact List.Sublist.cons₂ q.2 ih

theorem sublist_pair_decomp {α : Type} {a : α} : ∀ {l : List α},
    List.Sublist [a, a] l → ∃ l₁ l₂ l₃, l = l₁ ++ a :: l₂ ++ a :: l₃ := by
  intro l
  induction l with
  | nil => intro hsl; cases hsl
  | cons x t ih =>
    intro hsl
    cases hsl with
    | cons b h =>
      rcases ih h with ⟨l₁, l₂, l₃, heq⟩
      exact ⟨x :: l₁, l₂, l₃, by rw [heq]; simp⟩
    | cons₂ b h =>
      rcases List.append_of_mem (List.singleton_sublist.mp h) with ⟨s, u, rfl⟩
      exact ⟨[], s, u, rfl⟩

theorem nodup_two_decomp {α : Type} {l : List α} (h : ¬ l.Nodup) :
    ∃ a l₁ l₂ l₃, l = l₁ ++ a :: l₂ ++ a :: l₃ := by
  rw [List.nodup_iff_sublist] at h
  push_neg at h
  obtain ⟨a, ha⟩ := h
  obtain ⟨l₁, l₂, l₃, heq⟩ := sublist_pair_decomp ha
  exact ⟨a, l₁, l₂, l₃, heq⟩

theorem two_mem_decomp {α : Type} {l : List α} {x y : α} (hx : x ∈ l)
    (hy : y ∈ l) (hne : x ≠ y) :
    ∃ u v w, l = u ++ x :: v ++ y :: w ∨ l = u ++ y :: v ++ x :: w := by
  obtain ⟨u, t, rfl⟩ := List.append_of_mem hx
  rcases List.mem_append.mp hy with hyu | hyt
  · obtain ⟨u', v', rfl⟩ := List.append_of_mem hyu
    exact ⟨u', v', t, Or.inr (by simp)⟩
  · rcases List.mem_cons.mp hyt with rfl | hmem
    · exact absurd rfl hne
    · obtain ⟨v, w, rfl⟩ := List.append_of_mem hmem
      exact ⟨u, v, w, Or.inl (by simp)⟩

/-- In a duplicate-free list an element determines its predecessor. -/
theorem pred_unique {α : Type} : ∀ (u₁ : List α) {u₂ : List α} {a b x : α}
    {v₁ v₂ : List α}, (u₁ ++ a :: x :: v₁).Nodup →
    u₁ ++ a :: x :: v₁ = u₂ ++ b :: x :: v₂ → a = b := by
  intro u₁
  induction u₁ with
  | nil =>
    intro u₂ a b x v₁ v₂ hnd heq
    cases u₂ with
    | nil =>
      rw [List.nil_append, List.nil_append] at heq
      injection heq
    | cons c u₂' =>
      rw [List.nil_append, List.cons_append] at heq
      injection heq with h1 h2
      rw [List.nil_append] at hnd
      have hx : x ∉ v₁ := (List.nodup_cons.mp (List.nodup_cons.mp hnd).2).1
      cases u₂' with
      | nil =>
        rw [List.nil_append] at h2
        injection h2 with h3 h4
        exact absurd (h4 ▸ List.mem_cons_self x v₂) hx
      | cons d u₂'' =>
        rw [List.cons_append] at h2
        injection h2 with h3 h4
        have : x ∈ v₁ := by
          rw [h4]
          exact List.mem_append_right _
            (List.mem_cons_of_mem _ (List.mem_cons_self _ _))
        exact absurd this hx
  | cons e u₁' ih =>
    intro u₂ a b x v₁ v₂ hnd heq
    rw [List.cons_append] at hnd heq
    have hnd' : (u₁' ++ a :: x :: v₁).Nodup := (List.nodup_cons.mp hnd).2
    have hemem : e ∉ u₁' ++ a :: x :: v₁ := (List.nodup_cons.mp hnd).1
    cases u₂ with
    | nil =>
      rw [List.nil_append] at heq
      injection heq with h1 h2
      cases u₁' with
      | nil =>
        rw [List.nil_append] at h2
        injection h2 with h3 h4
        rw [List.nil_append] at hnd'
        have := (List.nodup_cons.mp hnd').1
        rw [h3] at this
        exact absurd (List.mem_cons_self x v₁) this
      | cons g u₁'' =>
        rw [List.cons_append] at h2
        injection h2 with h3 h4
        have : g ∈ u₁'' ++ a :: x :: v₁ := by
          rw [h3]
          exact List.mem_append_right _
            (List.mem_cons_of_mem _ (List.mem_cons_self _ _))
        rw [List.cons_append] at hnd'
        exact absurd this (List.nodup_cons.mp hnd').1
    | cons f u₂' =>
      rw [List.cons_append] at heq
      injection heq with h1 h2
      exact ih hnd' h2

/-! #### Fuel monotonicity of the augmenting path -/

theorem buildPath_zero (star prim : ℕ → ℕ → Bool) (n : ℕ) (p : ℕ × ℕ) :
    buildPath 0 star prim n p = none := rfl

theorem buildPath_succ (fuel : ℕ) (star prim : ℕ → ℕ → Bool) (n : ℕ)
    (p : ℕ × ℕ) :
    buildPath (fuel + 1) star prim n p =
      match starInCol star n p.2 with
      | none => some [p]
      | some r2 =>
        match primeInRow prim n r2 with
        | none => some [p, (r2, p.2)]
        | some j2 =>
          (buildPath fuel star prim n (r2, j2)).map
            (fun rest => p :: (r2, p.2) :: rest) := rfl

theorem buildPath_mono {star prim : ℕ → ℕ → Bool} {n : ℕ} :
    ∀ {fuel : ℕ} {p : ℕ × ℕ} {l : List (ℕ × ℕ)},
      buildPath fuel star prim n p = some l →
      buildPath (fuel + 1) star prim n p = some l := by
  intro fuel
  induction fuel with
  | zero =>
    intro p l h
    rw [buildPath_zero] at h
    cases h
  | succ f ih =>
    intro p l h
    rw [buildPath_succ] at h
    rw [buildPath_succ]
    cases hsc : starInCol star n p.2 with
    | none => simp only [hsc] at h ⊢; exact h
    | some r2 =>
      simp only [hsc] at h ⊢
      cases hpr : primeInRow prim n r2 with
      | none => simp only [hpr] at h ⊢; exact h
      | some j2 =>
        simp only [hpr] at h ⊢
        rcases Option.map_eq_some'.mp h with ⟨rest, hrest, rfl⟩
        rw [ih hrest]
        rfl

theorem buildPath_mono_le {star prim : ℕ → ℕ → Bool} {n : ℕ}
    {f f' : ℕ} (hle : f ≤ f') {p : ℕ × ℕ} {l : List (ℕ × ℕ)}
    (h : buildPath f star prim n p = some l) :
    buildPath f' star prim n p = some l := by
  induction hle with
  | refl => exact h
  | step h' ih => exact buildPath_mono ih

/-- Chain extraction: a successful `buildPath` run from a primed zero yields
the interleaving of a chain of primes, adjacent primes linked through the
first starred zero of the previous column, ending in a star-free column;
every suffix of the chain is itself a `buildPath` run at no more fuel. -/
theorem buildPath_chain {star prim : ℕ → ℕ → Bool} {n : ℕ} {ccov : ℕ → Bool}
    (hPW : ∀ i j, prim i j = true → i < n ∧ j < n)
    (hPU : ∀ i j, prim i j = true → ccov j = false)
    (hSP : ∀ i b, star i b = true → ccov b = false →
      ∃ j', prim i j' = true) :
    ∀ (fuel : ℕ) (p : ℕ × ℕ) (l : List (ℕ × ℕ)),
      prim p.1 p.2 = true →
      buildPath fuel star prim n p = some l →
      ∃ qs : List (ℕ × ℕ),
        l = chainPath qs ∧
        qs.head? = some p ∧
        (∀ q ∈ qs, prim q.1 q.2 = true) ∧
        (∀ u q q' v, qs = u ++ q :: q' :: v →
          starInCol star n q.2 = some q'.1 ∧
          primeInRow prim n q'.1 = some q'.2) ∧
        (∀ q, qs.getLast? = some q → starInCol star n q.2 = none) ∧
        (∀ u q v, qs = u ++ q :: v →
          ∃ f, f ≤ fuel ∧
            buildPath f star prim n q = some (chainPath (q :: v))) := by
  intro fuel
  induction fuel with
  | zero =>
    intro p l hp h
    rw [buildPath_zero] at h
    cases h
  | succ f ih =>
    intro p l hp h
    rw [buildPath_succ] at h
    cases hsc : starInCol star n p.2 with
    | none =>
      simp only [hsc] at h
      injection h with h'
      refine ⟨[p], ?_, rfl, ?_, ?_, ?_, ?_⟩
      · rw [← h']; rfl
      · intro q hq
        rw [List.mem_singleton.mp hq]
        exact hp
      · intro u q q' v heq
        exfalso
        have hlen := congrArg List.length heq
        simp only [List.length_singleton, List.length_append,
          List.length_cons, List.length_nil] at hlen
        omega
      · intro q hq
        rw [List.getLast?_singleton] at hq
        injection hq with h1
        rw [← h1]
        exact hsc
      · intro u q v heq
        cases u with
        | nil =>
          rw [List.nil_append] at heq
          injection heq with h1 h2
          refine ⟨f + 1, le_refl _, ?_⟩
          rw [← h1, ← h2, buildPath_succ]
          simp only [hsc]
          rfl
        | cons x u' =>
          exfalso
          have hlen := congrArg List.length heq
          simp only [List.length_singleton, List.length_append,
            List.length_cons, List.length_nil] at hlen
          omega
    | some r2 =>
      simp only [hsc] at h
      have hstar2 := starInCol_some hsc
      have hccov : ccov p.2 = false := hPU p.1 p.2 hp
      obtain ⟨j', hj'⟩ := hSP r2 p.2 hstar2.1 hccov
      obtain ⟨j2, hj2⟩ := primeInRow_isSome hj' (hPW r2 j' hj').2
      simp only [hj2] at h
      rcases Option.map_eq_some'.mp h with ⟨rest, hrest, hlr⟩
      have hlrest : p :: (r2, p.2) :: rest = l := hlr
      have hprim2 : prim r2 j2 = true := (primeInRow_some hj2).1
      obtain ⟨qs', hl', hhead', hprim', hadj', hlast', hsfx'⟩ :=
        ih (r2, j2) rest hprim2 hrest
      cases qs' with
      | nil => simp at hhead'
      | cons q0 t' =>
        have hq0 : q0 = (r2, j2) := by
          simp only [List.head?_cons] at hhead'
          injection hhead' with h1
        subst hq0
        refine ⟨p :: (r2, j2) :: t', ?_, rfl, ?_, ?_, ?_, ?_⟩
        · rw [← hlrest, hl', chainPath_cons_cons]
        · intro q hq
          rcases List.mem_cons.mp hq with rfl | hq'
          · exact hp
          · exact hprim' q hq'
        · intro u q q' v heq
          cases u with
          | nil =>
            rw [List.nil_append] at heq
            injection heq with h1 h2
            injection h2 with h3 h4
            rw [← h1, ← h3]
            exact ⟨hsc, hj2⟩
          | cons x u' =>
            rw [List.cons_append] at heq
            injection heq with h1 h2
            exact hadj' u' q q' v h2
        · intro q hq
          rw [List.getLast?_cons_cons] at hq
          exact hlast' q hq
        · intro u q v heq
          cases u with
          | nil =>
            rw [List.nil_append] at heq
            injection heq with h1 h2
            refine ⟨f + 1, le_refl _, ?_⟩
            rw [← h1, buildPath_succ]
            simp only [hsc, hj2]
            rw [← h2, chainPath_cons_cons, ← hl', hrest]
            rfl
          | cons x u' =>
            rw [List.cons_append] at heq
            injection heq with h1 h2
            obtain ⟨f0, hf0, hbp⟩ := hsfx' u' q v h2
            exact ⟨f0, le_trans hf0 (Nat.le_succ f), hbp⟩

/-- The chain of primes never repeats: a repetition would make the same
deterministic `buildPath` run return interleavings of two different
lengths. -/
theorem chain_nodup {star prim : ℕ → ℕ → Bool} {n fuel : ℕ}
    {qs : List (ℕ × ℕ)}
    (hsfx : ∀ u q v, qs = u ++ q :: v →
      ∃ f, f ≤ fuel ∧ buildPath f star prim n q = some (chainPath (q :: v))) :
    qs.Nodup := by
  by_contra hnd
  obtain ⟨a, l₁, l₂, l₃, heq⟩ := nodup_two_decomp hnd
  obtain ⟨f₁, hf₁, hb₁⟩ := hsfx l₁ a (l₂ ++ a :: l₃) (by rw [heq]; simp)
  obtain ⟨f₂, hf₂, hb₂⟩ := hsfx (l₁ ++ a :: l₂) a l₃ (by rw [heq])
  have h₁ := buildPath_mono_le hf₁ hb₁
  have h₂ := buildPath_mono_le hf₂ hb₂
  rw [h₁] at h₂
  injection h₂ with h3
  have hlen := congrArg List.length h3
  rw [chainPath_length, chainPath_length] at hlen
  simp only [List.length_append, List.length_cons] at hlen
  omega

theorem pair_eq {α β : Type} {p q : α × β} (h1 : p.1 = q.1)
    (h2 : p.2 = q.2) : p = q := by
  obtain ⟨a, b⟩ := p
  obtain ⟨c, d⟩ := q
  simp only at h1 h2
  rw [h1, h2]

/-- Over a duplicate-free path the sequential toggles amount to a pointwise
complement on the path's entries. -/
theorem flipPath_eq_of_nodup :
    ∀ (path : List (ℕ × ℕ)) (star : ℕ → ℕ → Bool), path.Nodup → ∀ a b,
      flipPath star path a b =
        if (a, b) ∈ path then !star a b else star a b := by
  intro path
  induction path with
  | nil => intro star hnd a b; simp [flipPath]
  | cons p rest ih =>
    intro star hnd a b
    have hp : p ∉ rest := (List.nodup_cons.mp hnd).1
    have hrest : rest.Nodup := (List.nodup_cons.mp hnd).2
    have hstep : flipPath star (p :: rest) =
        flipPath (fun i j => if i = p.1 ∧ j = p.2 then !star i j else star i j)
          rest := rfl
    rw [hstep, ih _ hrest a b]
    by_cases hmem : (a, b) ∈ rest
    · rw [if_pos hmem, if_pos (List.mem_cons_of_mem p hmem)]
      have hne : ¬ (a = p.1 ∧ b = p.2) := by
        intro hcase
        exact hp ((pair_eq (p := (a, b)) hcase.1 hcase.2) ▸ hmem)
      rw [if_neg hne]
    · rw [if_neg hmem]
      by_cases hab : (a, b) = p
      · have h1 : a = p.1 ∧ b = p.2 := ⟨by rw [← hab], by rw [← hab]⟩
        rw [if_pos h1, if_pos (List.mem_cons.mpr (Or.inl hab))]
      · have h1 : ¬ (a = p.1 ∧ b = p.2) :=
          fun hc => hab (pair_eq (p := (a, b)) hc.1 hc.2)
        have h2 : (a, b) ∉ p :: rest := by
          intro hc
          rcases List.mem_cons.mp hc with hc' | hc'
          · exact hab hc'
          · exact hmem hc'
        rw [if_neg h1, if_neg h2]

/-- The flipped starring after an augmenting run: well-boundedness, row and
column uniqueness and the zero property are preserved. -/
theorem flip_star_props {star prim1 : ℕ → ℕ → Bool} {n : ℕ}
    {c : ℕ → ℕ → ℚ} {ccov : ℕ → Bool}
    (hSW : ∀ i j, star i j = true → i < n ∧ j < n)
    (hSRU : ∀ i j j', star i j = true → star i j' = true → j = j')
    (hSCU : ∀ i i' j, star i j = true → star i' j = true → i = i')
    (hPW : ∀ i j, prim1 i j = true → i < n ∧ j < n)
    (hPRU : ∀ i j j', prim1 i j = true → prim1 i j' = true → j = j')
    (hPNS : ∀ i j, prim1 i j = true → star i j = false)
    (hPU : ∀ i j, prim1 i j = true → ccov j = false)
    (hSP : ∀ i b, star i b = true → ccov b = false →
      ∃ j', prim1 i j' = true)
    (hSZ : ∀ i j, star i j = true → c i j = 0)
    (hPZ : ∀ i j, prim1 i j = true → c i j = 0)
    {fuel : ℕ} {p : ℕ × ℕ} {path : List (ℕ × ℕ)}
    (hp : prim1 p.1 p.2 = true)
    (hrowfree : ∀ b, star p.1 b = false)
    (hbp : buildPath fuel star prim1 n p = some path) :
    (∀ a b, flipPath star path a b = true → a < n ∧ b < n) ∧
    (∀ a b b', flipPath star path a b = true →
      flipPath star path a b' = true → b = b') ∧
    (∀ a a' b, flipPath star path a b = true →
      flipPath star path a' b = true → a = a') ∧
    (∀ a b, flipPath star path a b = true → c a b = 0) := by
  obtain ⟨qs, hpath, hhead, hqprim, hadj, hlast, hsfx⟩ :=
    buildPath_chain hPW hPU hSP fuel p path hp hbp
  subst hpath
  have hqnd : qs.Nodup := chain_nodup hsfx
  have hzip_star : ∀ x ∈ zipStars qs, star x.1 x.2 = true := by
    intro x hx
    obtain ⟨u, q, q', v, hdecomp, rfl⟩ := mem_zipStars hx
    exact (starInCol_some (hadj u q q' v hdecomp).1).1
  have hqs_nostar : ∀ x ∈ qs, star x.1 x.2 = false :=
    fun x hx => hPNS x.1 x.2 (hqprim x hx)
  have hkey : ∀ (u v w : List (ℕ × ℕ)) (x y : ℕ × ℕ),
      qs = u ++ x :: v ++ y :: w → x.2 = y.2 → x = y := by
    intro u v w x y hdecomp hcol
    rcases hv : v ++ y :: w with - | ⟨x', rest'⟩
    · exact absurd hv (by simp)
    · have hdecomp' : qs = u ++ x :: x' :: rest' := by
        rw [hdecomp, ← hv]
        simp
      have hadj1 := hadj u x x' rest' hdecomp'
      cases w with
      | nil =>
        have hlasty : qs.getLast? = some y := by
          rw [hdecomp, show u ++ x :: v ++ y :: ([] : List (ℕ × ℕ)) =
            (u ++ x :: v) ++ [y] from by simp]
          exact List.getLast?_concat _
        have hnone := hlast y hlasty
        have h1 := hadj1.1
        rw [hcol, hnone] at h1
        cases h1
      | cons w0 w' =>
        have hadj2 := hadj (u ++ x :: v) y w0 w' (by rw [hdecomp]; try simp)
        have h1 := hadj1.1
        rw [hcol, hadj2.1] at h1
        injection h1 with hr
        have h2 := hadj2.2
        rw [hr, hadj1.2] at h2
        injection h2 with hc2
        have hxw : w0 = x' := pair_eq hr hc2.symm
        have hdecomp2 : qs = (u ++ x :: v) ++ y :: x' :: w' := by
          rw [hdecomp, hxw]
          try simp
        have hndfull : (u ++ x :: x' :: rest').Nodup := by
          rw [← hdecomp']; exact hqnd
        exact pred_unique u hndfull (hdecomp'.symm.trans hdecomp2)
  have hrow_inj : ∀ x ∈ qs, ∀ y ∈ qs, x.1 = y.1 → x = y := by
    intro x hx y hy hxy
    have h1 := hqprim x hx
    have h2 := hqprim y hy
    rw [hxy] at h1
    exact pair_eq hxy (hPRU y.1 x.2 y.2 h1 h2)
  have hcol_inj : ∀ x ∈ qs, ∀ y ∈ qs, x.2 = y.2 → x = y := by
    intro x hx y hy hxy
    by_contra hne
    obtain ⟨u, v, w, hcase | hcase⟩ := two_mem_decomp hx hy hne
    · exact hne (hkey u v w x y hcase hxy)
    · exact hne ((hkey u v w y x hcase hxy.symm).symm)
  have hcolsNd : (qs.map Prod.snd).Nodup := List.Nodup.map_on hcol_inj hqnd
  have hdisj : ∀ x ∈ qs, x ∉ zipStars qs := by
    intro x hx hz
    have h1 := hzip_star x hz
    rw [hqs_nostar x hx] at h1
    cases h1
  have hzipnd : (zipStars qs).Nodup :=
    List.Nodup.of_map Prod.snd ((zipStars_snd_sublist qs).nodup hcolsNd)
  have hpathnd : (chainPath qs).Nodup := by
    rw [List.Perm.nodup_iff (chainPath_perm qs)]
    exact List.Nodup.append hqnd hzipnd (fun x hx hz => hdisj x hx hz)
  have hflip := flipPath_eq_of_nodup (chainPath qs) star hpathnd
  have hmem_path : ∀ x : ℕ × ℕ, x ∈ chainPath qs ↔
      x ∈ qs ∨ x ∈ zipStars qs := by
    intro x
    rw [(chainPath_perm qs).mem_iff, List.mem_append]
  have hstar2 : ∀ a b, flipPath star (chainPath qs) a b = true ↔
      ((a, b) ∈ qs ∨ ((a, b) ∉ chainPath qs ∧ star a b = true)) := by
    intro a b
    rw [hflip a b]
    by_cases hm : (a, b) ∈ chainPath qs
    · rw [if_pos hm]
      constructor
      · intro hnb
        rcases (hmem_path (a, b)).mp hm with hq | hz
        · exact Or.inl hq
        · have h1 := hzip_star _ hz
          simp [h1] at hnb
      · intro hcase
        rcases hcase with hq | ⟨hnm, -⟩
        · simp [hqs_nostar _ hq]
        · exact absurd hm hnm
    · rw [if_neg hm]
      constructor
      · intro hs
        exact Or.inr ⟨hm, hs⟩
      · intro hcase
        rcases hcase with hq | ⟨-, hs⟩
        · exact absurd ((hmem_path (a, b)).mpr (Or.inl hq)) hm
        · exact hs
  have hkeyrow : ∀ a b b', (a, b) ∈ qs → (a, b') ∉ chainPath qs →
      star a b' = true → False := by
    intro a b b' hq hnm hs
    obtain ⟨u, t, hdecomp⟩ := List.append_of_mem hq
    cases u with
    | nil =>
      rw [List.nil_append] at hdecomp
      rw [hdecomp] at hhead
      simp only [List.head?_cons] at hhead
      injection hhead with hap
      have hz : star a b' = false := by
        rw [show a = p.1 from by rw [← hap]]
        exact hrowfree b'
      rw [hz] at hs
      cases hs
    | cons x u' =>
      rcases (x :: u').eq_nil_or_concat with h1 | ⟨u'', q₀, hconcat⟩
      · exact absurd h1 (by simp)
      · rw [hconcat] at hdecomp
        have hdecomp2 : qs = u'' ++ q₀ :: (a, b) :: t := by
          rw [hdecomp]; simp
        have hadj0 := hadj u'' q₀ (a, b) t hdecomp2
        have hstar0 : star a q₀.2 = true := (starInCol_some hadj0.1).1
        have hb' : b' = q₀.2 := hSRU a b' q₀.2 hs hstar0
        have hmemz : ((a, b).1, q₀.2) ∈ zipStars qs :=
          zipStars_mem_of_decomp u'' q₀ (a, b) t qs hdecomp2
        apply hnm
        apply (hmem_path (a, b')).mpr
        right
        rw [hb']
        exact hmemz
  have hkeycol : ∀ x ∈ qs, ∀ a', (a', x.2) ∉ chainPath qs →
      star a' x.2 = true → False := by
    intro x hx a' hnm hs
    obtain ⟨u, t, hdecomp⟩ := List.append_of_mem hx
    cases t with
    | nil =>
      have hlastx : qs.getLast? = some x := by
        rw [hdecomp]
        exact List.getLast?_concat u
      have hz := starInCol_none (hlast x hlastx) hSW a'
      rw [hz] at hs
      cases hs
    | cons x' t' =>
      have hadj0 := hadj u x x' t' hdecomp
      have hstar' : star x'.1 x.2 = true := (starInCol_some hadj0.1).1
      have ha' : a' = x'.1 := hSCU a' x'.1 x.2 hs hstar'
      have hmemz : (x'.1, x.2) ∈ zipStars qs :=
        zipStars_mem_of_decomp u x x' t' qs hdecomp
      apply hnm
      apply (hmem_path (a', x.2)).mpr
      right
      rw [ha']
      exact hmemz
  refine ⟨?_, ?_, ?_, ?_⟩
  · intro a b h
    rcases (hstar2 a b).mp h with hq | ⟨-, hs⟩
    · exact hPW a b (hqprim _ hq)
    · exact hSW a b hs
  · intro a b b' h h'
    rcases (hstar2 a b).mp h with hq | ⟨hnm, hs⟩ <;>
      rcases (hstar2 a b').mp h' with hq' | ⟨hnm', hs'⟩
    · exact congrArg Prod.snd (hrow_inj (a, b) hq (a, b') hq' rfl)
    · exact (hkeyrow a b b' hq hnm' hs').elim
    · exact (hkeyrow a b' b hq' hnm hs).elim
    · exact hSRU a b b' hs hs'
  · intro a a' b h h'
    rcases (hstar2 a b).mp h with hq | ⟨hnm, hs⟩ <;>
      rcases (hstar2 a' b).mp h' with hq' | ⟨hnm', hs'⟩
    · exact congrArg Prod.fst (hcol_inj (a, b) hq (a', b) hq' rfl)
    · exact (hkeycol (a, b) hq a' hnm' hs').elim
    · exact (hkeycol (a', b) hq' a hnm hs).elim
    · exact hSCU a a' b hs hs'
  · intro a b h
    rcases (hstar2 a b).mp h with hq | ⟨-, hs⟩
    · exact hPZ a b (hqprim _ hq)
    · exact hSZ a b hs

/-! #### The prime/cover-swap and augment steps -/

theorem coverSwap_inv {n : ℕ} {c0 : ℕ → ℕ → ℚ} {st : HS} (hI : Inv n c0 st)
    {r s jstar : ℕ}
    (hrn : r < n) (hrcov : st.rcov r = false) (hsn : s < n)
    (hccov : st.ccov s = false) (hzero : st.c r s = 0)
    (hsir : starInRow st.star n r = some jstar) :
    Inv n c0 (HS.mk st.c
      (fun i => if i = r then true else st.rcov i)
      (fun j => if j = jstar then false else st.ccov j)
      st.star
      (fun a b => if a = r ∧ b = s then true else st.prim a b)) := by
  have hsr := starInRow_some hsir
  have hstar_rs : st.star r s = false := by
    cases hcs : st.star r s
    · rfl
    · rcases hI.starCovSplit r s hcs with ⟨h1, -⟩ | ⟨-, h2⟩
      · rw [hrcov] at h1; cases h1
      · rw [hccov] at h2; cases h2
  refine ⟨hI.starW, ?_, hI.starRowU, hI.starColU, ?_, ?_, ?_, ?_, ?_, ?_,
    hI.starZero, ?_, hI.cNonneg, hI.pot, ?_⟩
  · intro a b h
    have h' : (if a = r ∧ b = s then true else st.prim a b) = true := h
    by_cases hc : a = r ∧ b = s
    · obtain ⟨rfl, rfl⟩ := hc; exact ⟨hrn, hsn⟩
    · rw [if_neg hc] at h'; exact hI.primW a b h'
  · intro a j j' hj hj'
    have h1 : (if a = r ∧ j = s then true else st.prim a j) = true := hj
    have h2 : (if a = r ∧ j' = s then true else st.prim a j') = true := hj'
    by_cases hc1 : a = r ∧ j = s
    · by_cases hc2 : a = r ∧ j' = s
      · rw [hc1.2, hc2.2]
      · rw [if_neg hc2] at h2
        obtain ⟨rfl, rfl⟩ := hc1
        have := hI.primCov a j' h2
        rw [hrcov] at this; cases this
    · rw [if_neg hc1] at h1
      by_cases hc2 : a = r ∧ j' = s
      · obtain ⟨rfl, rfl⟩ := hc2
        have := hI.primCov a j h1
        rw [hrcov] at this; cases this
      · rw [if_neg hc2] at h2
        exact hI.primRowU a j j' h1 h2
  · intro a b h
    have h' : (if a = r ∧ b = s then true else st.prim a b) = true := h
    by_cases hc : a = r ∧ b = s
    · obtain ⟨rfl, rfl⟩ := hc
      exact hstar_rs
    · rw [if_neg hc] at h'
      exact hI.primNotStar a b h'
  · intro a b h
    have h' : (if a = r ∧ b = s then true else st.prim a b) = true := h
    show (if a = r then true else st.rcov a) = true
    by_cases hc : a = r ∧ b = s
    · rw [if_pos hc.1]
    · rw [if_neg hc] at h'
      by_cases har : a = r
      · rw [if_pos har]
      · rw [if_neg har]
        exact hI.primCov a b h'
  · intro a han h
    have h' : (if a = r then true else st.rcov a) = true := h
    by_cases har : a = r
    · exact ⟨s, show (if a = r ∧ s = s then true else st.prim a s) = true from
        by rw [if_pos ⟨har, rfl⟩]⟩
    · rw [if_neg har] at h'
      obtain ⟨j, hj⟩ := hI.covPrim a han h'
      refine ⟨j, ?_⟩
      show (if a = r ∧ j = s then true else st.prim a j) = true
      by_cases hc : a = r ∧ j = s
      · rw [if_pos hc]
      · rw [if_neg hc]; exact hj
  · intro a b h
    have h' : (if a = r ∧ b = s then true else st.prim a b) = true := h
    show (if b = jstar then false else st.ccov b) = false
    by_cases hc : a = r ∧ b = s
    · obtain ⟨rfl, rfl⟩ := hc
      by_cases hbj : b = jstar
      · rw [if_pos hbj]
      · rw [if_neg hbj]; exact hccov
    · rw [if_neg hc] at h'
      have hold := hI.primColUncov a b h'
      by_cases hbj : b = jstar
      · rw [if_pos hbj]
      · rw [if_neg hbj]; exact hold
  · intro a b h
    by_cases har : a = r
    · have hbj : b = jstar :=
        hI.starRowU a b jstar h (by rw [har]; exact hsr.1)
      left
      constructor
      · show (if a = r then true else st.rcov a) = true
        rw [if_pos har]
      · show (if b = jstar then false else st.ccov b) = false
        rw [if_pos hbj]
    · by_cases hbj : b = jstar
      · exact absurd (hI.starColU a r b h (by rw [hbj]; exact hsr.1)) har
      · rcases hI.starCovSplit a b h with ⟨h1, h2⟩ | ⟨h1, h2⟩
        · left
          constructor
          · show (if a = r then true else st.rcov a) = true
            rw [if_neg har]; exact h1
          · show (if b = jstar then false else st.ccov b) = false
            rw [if_neg hbj]; exact h2
        · right
          constructor
          · show (if a = r then true else st.rcov a) = false
            rw [if_neg har]; exact h1
          · show (if b = jstar then false else st.ccov b) = true
            rw [if_neg hbj]; exact h2
  · intro a b h
    have h' : (if a = r ∧ b = s then true else st.prim a b) = true := h
    by_cases hc : a = r ∧ b = s
    · obtain ⟨rfl, rfl⟩ := hc; exact hzero
    · rw [if_neg hc] at h'; exact hI.primZero a b h'
  · intro j h
    have h' : (if j = jstar then false else st.ccov j) = true := h
    by_cases hbj : j = jstar
    · rw [if_pos hbj] at h'; cases h'
    · rw [if_neg hbj] at h'
      exact hI.covStar j h'

theorem augment_inv {n : ℕ} {c0 : ℕ → ℕ → ℚ} {st : HS} (hI : Inv n c0 st)
    {r s : ℕ} (hrn : r < n) (hrcov : st.rcov r = false) (hsn : s < n)
    (hccov : st.ccov s = false) (hzero : st.c r s = 0)
    (hsir : starInRow st.star n r = none)
    {fuel : ℕ} {path : List (ℕ × ℕ)}
    (hbp : buildPath fuel st.star
      (fun a b => if a = r ∧ b = s then true else st.prim a b) n (r, s) =
      some path) :
    Inv n c0 (HS.mk st.c
      (fun _ => false)
      (coverStarCols (flipPath st.star path) n)
      (flipPath st.star path)
      (fun _ _ => false)) := by
  have hstar_rs : st.star r s = false := by
    cases hcs : st.star r s
    · rfl
    · rcases hI.starCovSplit r s hcs with ⟨h1, -⟩ | ⟨-, h2⟩
      · rw [hrcov] at h1; cases h1
      · rw [hccov] at h2; cases h2
  have hPW1 : ∀ i j,
      (if i = r ∧ j = s then true else st.prim i j) = true →
      i < n ∧ j < n := by
    intro i j h
    by_cases hc : i = r ∧ j = s
    · obtain ⟨rfl, rfl⟩ := hc; exact ⟨hrn, hsn⟩
    · rw [if_neg hc] at h; exact hI.primW i j h
  have hPRU1 : ∀ i j j',
      (if i = r ∧ j = s then true else st.prim i j) = true →
      (if i = r ∧ j' = s then true else st.prim i j') = true → j = j' := by
    intro i j j' h1 h2
    by_cases hc1 : i = r ∧ j = s
    · by_cases hc2 : i = r ∧ j' = s
      · rw [hc1.2, hc2.2]
      · rw [if_neg hc2] at h2
        obtain ⟨rfl, rfl⟩ := hc1
        have := hI.primCov i j' h2
        rw [hrcov] at this; cases this
    · rw [if_neg hc1] at h1
      by_cases hc2 : i = r ∧ j' = s
      · obtain ⟨rfl, rfl⟩ := hc2
        have := hI.primCov i j h1
        rw [hrcov] at this; cases this
      · rw [if_neg hc2] at h2
        exact hI.primRowU i j j' h1 h2
  have hPNS1 : ∀ i j,
      (if i = r ∧ j = s then true else st.prim i j) = true →
      st.star i j = false := by
    intro i j h
    by_cases hc : i = r ∧ j = s
    · obtain ⟨rfl, rfl⟩ := hc; exact hstar_rs
    · rw [if_neg hc] at h; exact hI.primNotStar i j h
  have hPU1 : ∀ i j,
      (if i = r ∧ j = s then true else st.prim i j) = true →
      st.ccov j = false := by
    intro i j h
    by_cases hc : i = r ∧ j = s
    · obtain ⟨rfl, rfl⟩ := hc; exact hccov
    · rw [if_neg hc] at h; exact hI.primColUncov i j h
  have hSP1 : ∀ i b, st.star i b = true → st.ccov b = false →
      ∃ j', (if i = r ∧ j' = s then true else st.prim i j') = true := by
    intro i b hstar hcb
    rcases hI.starCovSplit i b hstar with ⟨h1, -⟩ | ⟨-, h2⟩
    · obtain ⟨j, hj⟩ := hI.covPrim i (hI.starW i b hstar).1 h1
      refine ⟨j, ?_⟩
      by_cases hc : i = r ∧ j = s
      · rw [if_pos hc]
      · rw [if_neg hc]; exact hj
    · rw [hcb] at h2; cases h2
  have hPZ1 : ∀ i j,
      (if i = r ∧ j = s then true else st.prim i j) = true →
      st.c i j = 0 := by
    intro i j h
    by_cases hc : i = r ∧ j = s
    · obtain ⟨rfl, rfl⟩ := hc; exact hzero
    · rw [if_neg hc] at h; exact hI.primZero i j h
  obtain ⟨hW2, hRU2, hCU2, hZ2⟩ := flip_star_props hI.starW hI.starRowU
    hI.starColU hPW1 hPRU1 hPNS1 hPU1 hSP1 hI.starZero hPZ1
    (show (if r = r ∧ s = s then true else st.prim r s) = true from
      by rw [if_pos ⟨rfl, rfl⟩])
    (starInRow_none hsir hI.starW) hbp
  refine ⟨?_, ?_, ?_, ?_, ?_, ?_, ?_, ?_, ?_, ?_, ?_, ?_, hI.cNonneg,
    hI.pot, ?_⟩
  · exact hW2
  · intro i j h; exact Bool.noConfusion h
  · exact hRU2
  · exact hCU2
  · intro i j j' h; exact Bool.noConfusion h
  · intro i j h; exact Bool.noConfusion h
  · intro i j h; exact Bool.noConfusion h
  · intro i hin h; exact Bool.noConfusion h
  · intro i j h; exact Bool.noConfusion h
  · intro i j h
    right
    refine ⟨rfl, ?_⟩
    show coverStarCols (flipPath st.star path) n j = true
    unfold coverStarCols
    simp only [Bool.and_eq_true, List.any_eq_true, decide_eq_true_eq]
    exact ⟨(hW2 i j h).2, ⟨i, List.mem_range.mpr (hW2 i j h).1, h⟩⟩
  · exact hZ2
  · intro i j h; exact Bool.noConfusion h
  · intro j h
    have h' : coverStarCols (flipPath st.star path) n j = true := h
    unfold coverStarCols at h'
    simp only [Bool.and_eq_true, List.any_eq_true, decide_eq_true_eq] at h'
    obtain ⟨hjn, i, hi, hstar⟩ := h'
    exact ⟨hjn, i, hstar⟩

/-- The inner loop preserves the invariants; the state it returns has all
rows non-covered and no primes. -/
theorem phase_inv : ∀ (fuel : ℕ) {n : ℕ} {c0 : ℕ → ℕ → ℚ} {st st' : HS},
    Inv n c0 st → phase fuel n st = some st' →
    Inv n c0 st' ∧ st'.rcov = (fun _ => false) ∧
    st'.prim = (fun _ _ => false) := by
  intro fuel
  induction fuel with
  | zero =>
    intro n c0 st st' hI h
    rw [show phase 0 n st = none from rfl] at h
    cases h
  | succ f ih =>
    intro n c0 st st' hI h
    simp only [phase] at h
    rcases hfz : findZero st n with - | ⟨r, s⟩
    · rw [hfz] at h
      rcases Option.bind_eq_some.mp h with ⟨stA, hA, hrec⟩
      obtain ⟨hIA, -, -, -, -⟩ := adjust_inv hI hA
      exact ih hIA hrec
    · obtain ⟨hrn, hrcov, hsn, hccov, hzero⟩ := findZero_spec hfz
      simp only [hfz] at h
      rcases hsir : starInRow st.star n r with - | ⟨jstar⟩
      · simp only [hsir] at h
        rcases Option.map_eq_some'.mp h with ⟨path, hbp, hst'⟩
        refine ⟨?_, ?_, ?_⟩
        · rw [← hst']
          exact augment_inv hI hrn hrcov hsn hccov hzero hsir hbp
        · rw [← hst']
        · rw [← hst']
      · simp only [hsir] at h
        exact ih (coverSwap_inv hI hrn hrcov hsn hccov hzero hsir) h

/-- The outer loop preserves the invariants and terminates with all `n`
columns covered. -/
theorem outerLoop_inv : ∀ (fuel : ℕ) {n : ℕ} {c0 : ℕ → ℕ → ℚ} {st st' : HS},
    Inv n c0 st → st.rcov = (fun _ => false) →
    outerLoop fuel n st = some st' →
    Inv n c0 st' ∧ n ≤ colCount st'.ccov n := by
  intro fuel
  induction fuel with
  | zero =>
    intro n c0 st st' hI hrc h
    rw [show outerLoop 0 n st = none from rfl] at h
    cases h
  | succ f ih =>
    intro n c0 st st' hI hrc h
    simp only [outerLoop] at h
    by_cases hcc : n ≤ colCount st.ccov n
    · rw [if_pos hcc] at h
      injection h with h'
      rw [← h']
      exact ⟨hI, hcc⟩
    · rw [if_neg hcc] at h
      rcases Option.bind_eq_some.mp h with ⟨stP, hP, hrec⟩
      have hIe : Inv n c0
          (HS.mk st.c st.rcov st.ccov st.star (fun _ _ => false)) := by
        refine ⟨hI.starW, ?_, hI.starRowU, hI.starColU, ?_, ?_, ?_, ?_, ?_,
          hI.starCovSplit, hI.starZero, ?_, hI.cNonneg, hI.pot, hI.covStar⟩
        · intro i j hx; exact Bool.noConfusion hx
        · intro i j j' hx; exact Bool.noConfusion hx
        · intro i j hx; exact Bool.noConfusion hx
        · intro i j hx; exact Bool.noConfusion hx
        · intro i hin hcov
          rw [hrc] at hcov
          exact Bool.noConfusion hcov
        · intro i j hx; exact Bool.noConfusion hx
        · intro i j hx; exact Bool.noConfusion hx
      obtain ⟨hIP, hrcP, -⟩ := phase_inv f hIe hP
      exact ih hIP hrcP hrec

/-! #### Termination: the final starring is a permutation -/

theorem colCount_full {ccov : ℕ → Bool} {n : ℕ} (h : n ≤ colCount ccov n) :
    ∀ j, j < n → ccov j = true := by
  intro j hj
  unfold colCount at h
  have hsub : ((List.range n).filter (fun j => ccov j)).Sublist
      (List.range n) := List.filter_sublist _
  have hlen : ((List.range n).filter (fun j => ccov j)).length ≤ n := by
    have := hsub.length_le
    simpa using this
  have heq : (List.range n).filter (fun j => ccov j) = List.range n :=
    hsub.eq_of_length (by simp only [List.length_range]; omega)
  have hmem : j ∈ (List.range n).filter (fun j => ccov j) := by
    rw [heq]
    exact List.mem_range.mpr hj
  exact (List.mem_filter.mp hmem).2

/-- With all columns covered, every row holds a (unique) star: the stars
form a perfect matching. -/
theorem full_cover_perm {n : ℕ} {c0 : ℕ → ℕ → ℚ} {st : HS} (hI : Inv n c0 st)
    (hfull : n ≤ colCount st.ccov n) :
    ∀ i, i < n → ∃ j, starInRow st.star n i = some j ∧ j < n ∧
      st.star i j = true := by
  have hcol : ∀ j, j < n → ∃ i, st.star i j = true := by
    intro j hj
    exact (hI.covStar j (colCount_full hfull j hj)).2
  have hf : ∀ j, j < n → ∃ i, starInCol st.star n j = some i := by
    intro j hj
    obtain ⟨i, hi⟩ := hcol j hj
    cases hfind : starInCol st.star n j with
    | none =>
      have hz := starInCol_none hfind hI.starW i
      rw [hz] at hi
      cases hi
    | some i' => exact ⟨i', rfl⟩
  set g : ℕ → ℕ := fun j => (starInCol st.star n j).getD 0 with hg
  have hgstar : ∀ j, j < n → st.star (g j) j = true ∧ g j < n := by
    intro j hj
    obtain ⟨i0, hi0⟩ := hf j hj
    have h1 := starInCol_some hi0
    have h2 : g j = i0 := by
      show (starInCol st.star n j).getD 0 = i0
      rw [hi0]
      rfl
    rw [h2]
    exact ⟨h1.1, h1.2⟩
  have hinj : Set.InjOn g (Finset.range n) := by
    intro a ha b hb hab
    have ha' := Finset.mem_range.mp (Finset.mem_coe.mp ha)
    have hb' := Finset.mem_range.mp (Finset.mem_coe.mp hb)
    have h1 := (hgstar a ha').1
    have h2 := (hgstar b hb').1
    rw [hab] at h1
    exact hI.starRowU (g b) a b h1 h2
  have himg : (Finset.range n).image g = Finset.range n := by
    apply Finset.eq_of_subset_of_card_le
    · intro x hx
      rcases Finset.mem_image.mp hx with ⟨j, hj, rfl⟩
      exact Finset.mem_range.mpr (hgstar j (Finset.mem_range.mp hj)).2
    · rw [Finset.card_image_of_injOn hinj]
  intro i hin
  have hmem : i ∈ (Finset.range n).image g := by
    rw [himg]
    exact Finset.mem_range.mpr hin
  rcases Finset.mem_image.mp hmem with ⟨j, hj, hgj⟩
  have hstar_ij : st.star i j = true := by
    have := (hgstar j (Finset.mem_range.mp hj)).1
    rw [hgj] at this
    exact this
  cases hfind : starInRow st.star n i with
  | none =>
    have hz := starInRow_none hfind hI.starW j
    rw [hz] at hstar_ij
    cases hstar_ij
  | some j' =>
    have h2 := starInRow_some hfind
    exact ⟨j', rfl, h2.2, h2.1⟩

/-- The decoded starred column of row `i` in the result of
`_hungarian_square`. -/
def hungCol (ci : List ℤ) (i : ℕ) : ℕ := ((ci.get? i).getD 0).toNat

/-- A successful `_hungarian_square` run returns one entry per row; the
entries name the starred columns of a final state satisfying the loop
invariants with all columns covered. -/
theorem hungarianSquare_stars {fuel : ℕ} {c0 : ℕ → ℕ → ℚ} {n : ℕ}
    {ci : List ℤ} (h : hungarianSquare fuel c0 n = some ci) :
    ci.length = n ∧
    ∃ st : HS, Inv n c0 st ∧
      ∀ i, i < n → ∃ j, j < n ∧ st.star i j = true ∧
        ci.get? i = some ((j : ℕ) : ℤ) ∧ hungCol ci i = j := by
  unfold hungarianSquare at h
  rcases Option.map_eq_some'.mp h with ⟨stF, hloop, hci⟩
  obtain ⟨hIF, hfull⟩ := outerLoop_inv fuel (initHS_inv c0 n) rfl hloop
  constructor
  · rw [← hci]
    simp
  · refine ⟨stF, hIF, ?_⟩
    intro i hin
    obtain ⟨j, hfind, hjn, hstar⟩ := full_cover_perm hIF hfull i hin
    have hget : ci.get? i = some ((j : ℕ) : ℤ) := by
      rw [← hci, List.get?_map, List.get?_range hin]
      simp [hfind]
    refine ⟨j, hjn, hstar, hget, ?_⟩
    rw [hungCol, hget]
    rfl

/-! #### Optimality of the final matching -/

theorem sum_map_range_eq (f : ℕ → ℚ) (n : ℕ) :
    ((List.range n).map f).sum = ∑ i in Finset.range n, f i := by
  induction n with
  | zero => simp
  | succ m ih =>
    rw [List.range_succ, List.map_append, List.sum_append,
      Finset.sum_range_succ, ih]
    simp

theorem sum_comp_injOn (v : ℕ → ℚ) (n : ℕ) (σg : ℕ → ℕ)
    (hb : ∀ i, i < n → σg i < n)
    (hinj : ∀ i i', i < n → i' < n → σg i = σg i' → i = i') :
    ∑ i in Finset.range n, v (σg i) = ∑ j in Finset.range n, v j := by
  have hinj' : Set.InjOn σg (Finset.range n) := by
    intro a ha b hb' hab
    exact hinj a b (Finset.mem_range.mp (Finset.mem_coe.mp ha))
      (Finset.mem_range.mp (Finset.mem_coe.mp hb')) hab
  have himg : (Finset.range n).image σg = Finset.range n := by
    apply Finset.eq_of_subset_of_card_le
    · intro x hx
      rcases Finset.mem_image.mp hx with ⟨i, hi, rfl⟩
      exact Finset.mem_range.mpr (hb i (Finset.mem_range.mp hi))
    · rw [Finset.card_image_of_injOn hinj']
  calc ∑ i in Finset.range n, v (σg i)
      = ∑ j in (Finset.range n).image σg, v j :=
        (Finset.sum_image
          (fun a ha b hb' hab => hinj a b (Finset.mem_range.mp ha)
            (Finset.mem_range.mp hb') hab)).symm
    _ = ∑ j in Finset.range n, v j := by rw [himg]

/-- C2 counterexample: on one patient against facilities `A` (greedy-feasible
but zero capacity-expanded slots) and `B`, the greedy matcher's total cost is
`1/10` while the Hungarian path's total cost is `3/25 > 1/10`, with both
assignment sets non-empty — the claimed comparative bound fails because the
two solvers feasibility-restrict differently (strict ratio test versus floor
slot expansion). -/
theorem C2_hungarian_min_total_counterexample :
    (greedyMatch hav0 [c3P] [c3A, c3B] c3cfgH).asgs.map Asg.cost =
      [1/10] ∧
    Option.map (fun res => res.1.map Asg.cost)
      (solveHungarianWithCapacity hav0 5 [c3P] [c3A, c3B] c3cfgH.w
        c3cfgH.cns) = some [3/25] ∧
    ¬ ((3/25 : ℚ) ≤ 1/10) := by
  refine ⟨?_, ?_, by norm_num⟩
  · rw [c3greedy_eq]
    rfl
  · rw [c3hung_eq]
    rfl

/-- Whenever `_hungarian_square` returns, the induced assignment
`i ↦ hungCol ci i` has minimum total cost among all bounded injective
assignments of the square matrix. -/
theorem hungarianSquare_min (fuel n : ℕ) (c0 : ℕ → ℕ → ℚ) (ci : List ℤ)
    (h : hungarianSquare fuel c0 n = some ci) :
    ∀ τ : ℕ → ℕ, (∀ i, i < n → τ i < n) →
      (∀ i i', i < n → i' < n → τ i = τ i' → i = i') →
      ((List.range n).map (fun i => c0 i (hungCol ci i))).sum ≤
        ((List.range n).map (fun i => c0 i (τ i))).sum := by
  obtain ⟨hlen, st, hI, hstars⟩ := hungarianSquare_stars h
  have hσb : ∀ i, i < n → hungCol ci i < n := by
    intro i hin
    obtain ⟨j, hjn, -, -, hcolv⟩ := hstars i hin
    rw [hcolv]
    exact hjn
  have hσstar : ∀ i, i < n → st.star i (hungCol ci i) = true := by
    intro i hin
    obtain ⟨j, hjn, hstar, -, hcolv⟩ := hstars i hin
    rw [hcolv]
    exact hstar
  have hσinj : ∀ i i', i < n → i' < n →
      hungCol ci i = hungCol ci i' → i = i' := by
    intro i i' hin hin' heq
    have h1 := hσstar i hin
    have h2 := hσstar i' hin'
    rw [heq] at h1
    exact hI.starColU i i' (hungCol ci i') h1 h2
  intro τ hτb hτinj
  obtain ⟨u, v, hpot⟩ := hI.pot
  have hL : ∀ i, i < n → c0 i (hungCol ci i) = u i + v (hungCol ci i) := by
    intro i hin
    have hz := hI.starZero i (hungCol ci i) (hσstar i hin)
    have hp := hpot i (hungCol ci i) hin (hσb i hin)
    linarith
  have hR : ∀ i, i < n → u i + v (τ i) ≤ c0 i (τ i) := by
    intro i hin
    have hp := hpot i (τ i) hin (hτb i hin)
    have h0 := hI.cNonneg i (τ i) hin (hτb i hin)
    linarith
  rw [sum_map_range_eq, sum_map_range_eq]
  have e1 : ∑ i in Finset.range n, c0 i (hungCol ci i) =
      (∑ i in Finset.range n, u i) + (∑ j in Finset.range n, v j) := by
    rw [← sum_comp_injOn v n (hungCol ci) hσb hσinj,
      ← Finset.sum_add_distrib]
    apply Finset.sum_congr rfl
    intro i hi
    exact hL i (Finset.mem_range.mp hi)
  have e2 : (∑ i in Finset.range n, u i) + (∑ j in Finset.range n, v j) ≤
      ∑ i in Finset.range n, c0 i (τ i) := by
    rw [← sum_comp_injOn v n τ hτb hτinj, ← Finset.sum_add_distrib]
    apply Finset.sum_le_sum
    intro i hi
    exact hR i (Finset.mem_range.mp hi)
  linarith

/-! ### C1: no solver-caused overload -/

theorem foldl_preserve {α β : Type} (P : β → Prop) (f : β → α → β)
    (hstep : ∀ b a, P b → P (f b a)) :
    ∀ (l : List α) (b : β), P b → P (l.foldl f b) := by
  intro l
  induction l with
  | nil => intro b hb; exact hb
  | cons x t ih => intro b hb; exact ih (f b x) (hstep b x hb)

/-- Every candidate the greedy facility scan emits was screened by the
strict occupancy test: its ratio is `< max_load`. -/
theorem greedyScan_occB (hav : ℚ → ℚ → ℚ → ℚ → ℚ) (w : Wts) (cns : Cons)
    (facs : List Fac) (occm : String → ℚ) (p : Patient) :
    ∀ out, greedyScan hav w cns facs occm p = some out →
      out.2.2.1 < cns.maxLoad := by
  intro out hout
  simp only [greedyScan] at hout
  refine foldl_preserve
    (fun best : Option (String × ℚ × ℚ × ℚ) =>
      ∀ o, best = some o → o.2.2.1 < cns.maxLoad)
    _ ?_ facs none (fun o ho => by cases ho) out hout
  intro best rs hP o ho
  cases hff : findFac facs rs.idr with
  | none =>
    simp only [hff] at ho
    exact hP o ho
  | some capInfo =>
    simp only [hff] at ho
    by_cases hcap : capInfo.cap ≤ 0
    · rw [if_pos hcap] at ho
      exact hP o ho
    · rw [if_neg hcap] at ho
      by_cases hml : cns.maxLoad ≤ occm rs.idr / capInfo.cap
      · rw [if_pos hml] at ho
        exact hP o ho
      · rw [if_neg hml] at ho
        by_cases hsm : ¬ servicesMatch rs.services (lowerStr p.kasus) = true
        · rw [if_pos hsm] at ho
          exact hP o ho
        · rw [if_neg hsm] at ho
          by_cases hrad : cns.radiusKm < hav p.lat p.lon rs.lat rs.lon
          · rw [if_pos hrad] at ho
            exact hP o ho
          · rw [if_neg hrad] at ho
            cases hbest : best with
            | none =>
              simp only [hbest] at ho
              injection ho with h'
              rw [← h']
              exact not_le.mp hml
            | some prev =>
              obtain ⟨pid0, pd, pob, pc⟩ := prev
              simp only [hbest] at ho
              split at ho
              · injection ho with h'
                rw [← h']
                exact not_le.mp hml
              · exact hP o (hbest.trans ho)

/-- With unique identifiers, looking a facility's own identifier up returns
that facility. -/
theorem findFac_self {facs : List Fac} {f : Fac}
    (hnd : (facs.map Fac.idr).Nodup) (hf : f ∈ facs) :
    findFac facs f.idr = some f := by
  cases hfind : findFac facs f.idr with
  | none =>
    unfold findFac at hfind
    have := List.find?_eq_none.mp hfind f hf
    simp at this
  | some g =>
    unfold findFac at hfind
    have hg := List.find?_some hfind
    have hgm := List.mem_of_find?_eq_some hfind
    simp only [decide_eq_true_eq] at hg
    have := List.inj_on_of_nodup_map hnd hgm hf hg
    rw [this]

theorem initOcc_self {facs : List Fac} {f : Fac}
    (hnd : (facs.map Fac.idr).Nodup) (hf : f ∈ facs) :
    initOcc facs f.idr = f.occ := by
  unfold initOcc
  rw [findFac_self hnd hf]
  rfl

/-- The greedy occupancy counters never decrease below their initial
values. -/
theorem greedy_occm_mono (hav : ℚ → ℚ → ℚ → ℚ → ℚ) (w : Wts) (cns : Cons)
    (facs : List Fac) (ps : List Patient) (st0 : (String → ℚ) × List Asg)
    (h0 : ∀ x, initOcc facs x ≤ st0.1 x) :
    ∀ x, initOcc facs x ≤ (ps.foldl (greedyStep hav w cns facs) st0).1 x := by
  refine foldl_preserve
    (fun st : (String → ℚ) × List Asg => ∀ x, initOcc facs x ≤ st.1 x)
    _ ?_ ps st0 h0
  intro st p hP x
  unfold greedyStep
  cases hscan : greedyScan hav w cns facs st.1 p with
  | none => exact hP x
  | some out =>
    obtain ⟨rsId, d, ob, c⟩ := out
    show initOcc facs x ≤ (if x = rsId then st.1 rsId + 1 else st.1 x)
    by_cases hx : x = rsId
    · rw [if_pos hx, hx]
      have := hP rsId
      linarith
    · rw [if_neg hx]
      exact hP x

/-- Greedy never admits above the limit: every recorded `occ_before` ratio
is strictly below `max_load`. -/
theorem greedy_occB_all (hav : ℚ → ℚ → ℚ → ℚ → ℚ) (pats : List Patient)
    (facs : List Fac) (cfg : Config) :
    ∀ a ∈ (greedyMatch hav pats facs cfg).asgs, a.occB < cfg.cns.maxLoad := by
  intro a ha
  by_cases hc : pats = [] ∨ facs = []
  · simp only [greedyMatch, if_pos hc, emptyResult] at ha
    cases ha
  · simp only [greedyMatch, if_neg hc] at ha
    refine foldl_preserve
      (fun st : (String → ℚ) × List Asg =>
        ∀ b ∈ st.2, b.occB < cfg.cns.maxLoad)
      (greedyStep hav cfg.w cfg.cns facs) ?_ (sortPatients pats)
      (initOcc facs, []) (by intro b hb; cases hb) a ha
    intro st p hP b hb
    unfold greedyStep at hb
    cases hscan : greedyScan hav cfg.w cfg.cns facs st.1 p with
    | none =>
      simp only [hscan] at hb
      exact hP b hb
    | some out =>
      obtain ⟨rsId, d, ob, c⟩ := out
      simp only [hscan] at hb
      rcases List.mem_append.mp hb with h1 | h1
      · exact hP b h1
      · simp only [List.mem_singleton] at h1
        rw [h1]
        exact greedyScan_occB hav cfg.w cfg.cns facs st.1 p (rsId, d, ob, c)
          hscan

/-- The greedy snapshot never reports occupancy below the input value. -/
theorem greedy_snap_mono (hav : ℚ → ℚ → ℚ → ℚ → ℚ) (pats : List Patient)
    (facs : List Fac) (cfg : Config) (hnd : (facs.map Fac.idr).Nodup) :
    ∀ f ∈ facs, ∀ s ∈ (greedyMatch hav pats facs cfg).facs,
      s.hid = f.idr → f.occ ≤ s.occ := by
  intro f hf s hs hhid
  by_cases hc : pats = [] ∨ facs = []
  · simp only [greedyMatch, if_pos hc, emptyResult] at hs
    cases hs
  · simp only [greedyMatch, if_neg hc] at hs
    unfold greedySnapshot at hs
    rcases List.mem_filterMap.mp hs with ⟨rs, hrs, hmap⟩
    rcases Option.map_eq_some'.mp hmap with ⟨capInfo, hfind, hrec⟩
    have hshid : s.hid = rs.idr := by rw [← hrec]
    have hsocc : s.occ =
        ((sortPatients pats).foldl (greedyStep hav cfg.w cfg.cns facs)
          (initOcc facs, [])).1 rs.idr := by rw [← hrec]
    have hrsf : rs = f :=
      List.inj_on_of_nodup_map hnd hrs hf (hshid ▸ hhid)
    have hmono := greedy_occm_mono hav cfg.w cfg.cns facs (sortPatients pats)
      (initOcc facs, []) (fun x => le_refl _) f.idr
    rw [initOcc_self hnd hf] at hmono
    rw [hsocc, hrsf]
    exact hmono

/-! #### Hungarian side: distinct slot columns -/

theorem mem_zip_range_pairs {n : ℕ} {ci : List ℤ} {rc : ℕ × ℤ}
    (h : rc ∈ (List.range n).zip ci) :
    rc.1 < n ∧ ci.get? rc.1 = some rc.2 := by
  rcases List.mem_iff_get?.mp h with ⟨k, hk⟩
  rw [List.get?_zip_eq_some] at hk
  obtain ⟨h1, h2⟩ := hk
  obtain ⟨hlt, hval⟩ := List.get?_eq_some.mp h1
  simp only [List.length_range] at hlt
  have hval' : rc.1 = k := by
    rw [← hval]
    simp [List.getElem_range]
  rw [hval']
  exact ⟨hlt, h2⟩

/-- The rows of `_hungarian_square`'s output name pairwise distinct columns
of the square matrix. -/
theorem hungarianSquare_perm {fuel : ℕ} {c0 : ℕ → ℕ → ℚ} {n : ℕ}
    {ci : List ℤ} (h : hungarianSquare fuel c0 n = some ci) :
    ci.length = n ∧
    (∀ i, i < n → ∃ j : ℕ, j < n ∧ ci.get? i = some ((j : ℕ) : ℤ)) ∧
    (∀ i i', i < n → i' < n → ci.get? i = ci.get? i' → i = i') := by
  obtain ⟨hlen, st, hI, hstars⟩ := hungarianSquare_stars h
  refine ⟨hlen, ?_, ?_⟩
  · intro i hin
    obtain ⟨j, hjn, -, hget, -⟩ := hstars i hin
    exact ⟨j, hjn, hget⟩
  · intro i i' hin hin' heq
    obtain ⟨j, hjn, hstar, hget, -⟩ := hstars i hin
    obtain ⟨j', hjn', hstar', hget', -⟩ := hstars i' hin'
    rw [hget, hget'] at heq
    injection heq with h2
    have hjj : j = j' := by exact_mod_cast h2
    rw [hjj] at hstar
    exact hI.starColU i i' j' hstar hstar'

/-- The pairs `linear_sum_assignment` reports carry pairwise distinct
non-negative column indices below the slot count. -/
theorem lsa_cols {fuel : ℕ} {C : ℕ → ℕ → ℚ} {m s : ℕ}
    {pairs : List (ℕ × ℤ)}
    (h : linearSumAssignment fuel C m s = some pairs) :
    (∀ rc ∈ pairs, ∃ j : ℕ, rc.2 = (j : ℤ) ∧ j < s) ∧
    (pairs.map Prod.snd).Nodup := by
  unfold linearSumAssignment at h
  split at h
  · next hms =>
    rcases Option.map_eq_some'.mp h with ⟨ci, hci, rfl⟩
    obtain ⟨hlen, hvals, hinj⟩ := hungarianSquare_perm hci
    constructor
    · intro rc hrc
      obtain ⟨hr1, hr2⟩ := mem_zip_range_pairs hrc
      obtain ⟨j, hjn, hget⟩ := hvals rc.1 hr1
      rw [hget] at hr2
      injection hr2 with h2
      exact ⟨j, h2.symm, hms ▸ hjn⟩
    · have hmapfst : ((List.range m).zip ci).map Prod.fst = List.range m :=
        List.map_fst_zip _ _ (by simp [hlen])
      have hpnd : ((List.range m).zip ci).Nodup :=
        List.Nodup.of_map Prod.fst
          (by rw [hmapfst]; exact List.nodup_range m)
      refine List.Nodup.map_on ?_ hpnd
      intro x hx y hy hxy
      obtain ⟨hx1, hx2⟩ := mem_zip_range_pairs hx
      obtain ⟨hy1, hy2⟩ := mem_zip_range_pairs hy
      have hgg : ci.get? x.1 = ci.get? y.1 := by rw [hx2, hy2, hxy]
      exact pair_eq (hinj x.1 y.1 hx1 hy1 hgg) hxy
  · next hms =>
    rcases Option.map_eq_some'.mp h with ⟨ci, hci, rfl⟩
    obtain ⟨hlen, hvals, hinj⟩ := hungarianSquare_perm hci
    constructor
    · intro rc hrc
      have hmem := List.mem_of_mem_filter hrc
      have hcond := (List.mem_filter.mp hrc).2
      simp only [decide_eq_true_eq] at hcond
      obtain ⟨hr1, hr2⟩ := mem_zip_range_pairs hmem
      obtain ⟨j, hjn, hget⟩ := hvals rc.1 hr1
      rw [hget] at hr2
      injection hr2 with h2
      refine ⟨j, h2.symm, ?_⟩
      rw [← h2] at hcond
      exact_mod_cast hcond.2
    · have hmapfst : ((List.range (max m s)).zip ci).map Prod.fst =
          List.range (max m s) :=
        List.map_fst_zip _ _ (by simp [hlen])
      have hpnd : ((List.range (max m s)).zip ci).Nodup :=
        List.Nodup.of_map Prod.fst
          (by rw [hmapfst]; exact List.nodup_range _)
      have hzipnd :
          (((List.range (max m s)).zip ci).map Prod.snd).Nodup := by
        refine List.Nodup.map_on ?_ hpnd
        intro x hx y hy hxy
        obtain ⟨hx1, hx2⟩ := mem_zip_range_pairs hx
        obtain ⟨hy1, hy2⟩ := mem_zip_range_pairs hy
        have hgg : ci.get? x.1 = ci.get? y.1 := by rw [hx2, hy2, hxy]
        exact pair_eq (hinj x.1 y.1 hx1 hy1 hgg) hxy
      exact ((List.filter_sublist _).map Prod.snd).nodup hzipnd

/-- The assignment facility identifiers decoded from a pair list are the
slot identifiers of the feasible pairs, in order. -/
theorem decodePairs_hids (hav : ℚ → ℚ → ℚ → ℚ → ℚ) (C : ℕ → ℕ → ℚ)
    (pats : List Patient) (slots : List Slot) :
    ∀ (pairs : List (ℕ × ℤ)) (st : List Asg × (String → ℕ)),
      ((pairs.foldl (decodeStep hav C pats slots) st).1).map Asg.hid =
        st.1.map Asg.hid ++
          (pairs.filter
            (fun rc => ¬ INF ≤ C rc.1 (pyIdx slots.length rc.2))).map
            (fun rc => (pyGetSlot slots rc.2).hid) := by
  intro pairs
  induction pairs with
  | nil => intro st; simp
  | cons rc rest ih =>
    intro st
    simp only [List.foldl_cons]
    by_cases hc : INF ≤ C rc.1 (pyIdx slots.length rc.2)
    · have hstep : decodeStep hav C pats slots st rc = st := by
        simp [decodeStep, hc]
      rw [hstep, ih st]
      have hf : (rc :: rest).filter
          (fun rc => ¬ INF ≤ C rc.1 (pyIdx slots.length rc.2)) =
          rest.filter
            (fun rc => ¬ INF ≤ C rc.1 (pyIdx slots.length rc.2)) := by
        simp [List.filter_cons, hc]
      rw [hf]
    · have hstep : (decodeStep hav C pats slots st rc).1 =
          st.1 ++ [{ pid := (pyGetPat pats rc.1).idp,
                     hid := (pyGetSlot slots rc.2).hid,
                     dist := hav (pyGetPat pats rc.1).lat
                       (pyGetPat pats rc.1).lon
                       (pyGetSlot slots rc.2).lat (pyGetSlot slots rc.2).lon,
                     occB := (pyGetSlot slots rc.2).occB,
                     occA := ((pyGetSlot slots rc.2).occ0 +
                       ((if (pyGetSlot slots rc.2).hid =
                           (pyGetSlot slots rc.2).hid
                         then st.2 (pyGetSlot slots rc.2).hid + 1
                         else st.2 (pyGetSlot slots rc.2).hid) : ℕ)) /
                       (pyGetSlot slots rc.2).cap,
                     cost := C rc.1 (pyIdx slots.length rc.2) }] := by
        simp [decodeStep, hc]
      have hrec := ih (decodeStep hav C pats slots st rc)
      rw [hrec, hstep]
      have hf : (rc :: rest).filter
          (fun rc => ¬ INF ≤ C rc.1 (pyIdx slots.length rc.2)) =
          rc :: rest.filter
            (fun rc => ¬ INF ≤ C rc.1 (pyIdx slots.length rc.2)) := by
        simp [List.filter_cons, hc]
      rw [hf]
      simp

/-- Reading every index of a list back yields the list. -/
theorem map_getD_range {α : Type} [Inhabited α] : ∀ l : List α,
    (List.range l.length).map (fun i => (l.get? i).getD default) = l := by
  intro l
  induction l with
  | nil => simp
  | cons a t ih =>
    rw [List.length_cons, List.range_succ_eq_map]
    simp only [List.map_cons, List.map_map]
    have h2 : (List.range t.length).map
        ((fun i => ((a :: t).get? i).getD default) ∘ Nat.succ) = t := by
      have h3 : ∀ i ∈ List.range t.length,
          ((fun i => ((a :: t).get? i).getD default) ∘ Nat.succ) i =
            (fun i => (t.get? i).getD default) i := by
        intro i _
        rfl
      rw [List.map_congr_left h3]
      exact ih
    rw [h2]
    rfl

/-- Counting over pairwise-distinct valid indices is bounded by the source
counts. -/
theorem countP_getD_le {α : Type} [Inhabited α] (l : List α) (idx : List ℕ)
    (hnd : idx.Nodup) (hlt : ∀ i ∈ idx, i < l.length) (pr : α → Bool) :
    (idx.map (fun i => (l.get? i).getD default)).countP pr ≤ l.countP pr := by
  have hsub : idx.Subperm (List.range l.length) :=
    List.subperm_of_subset hnd (fun i hi => List.mem_range.mpr (hlt i hi))
  obtain ⟨l', hperm, hsl⟩ := hsub
  have hmap : (idx.map (fun i => (l.get? i).getD default)).Subperm
      ((List.range l.length).map (fun i => (l.get? i).getD default)) :=
    ⟨l'.map (fun i => (l.get? i).getD default), hperm.map _, hsl.map _⟩
  rw [map_getD_range] at hmap
  exact hmap.countP_le pr

theorem pyIdx_natCast (len j : ℕ) : pyIdx len ((j : ℕ) : ℤ) = j := by
  unfold pyIdx
  rw [if_neg (by simp : ¬ ((j : ℕ) : ℤ) < 0)]
  simp

/-- The Hungarian path respects the capacity expansion: a facility never
receives more assignments than its available slot count, and the snapshot
never reports occupancy below the input value. -/
theorem solveHWC_capacity (hav : ℚ → ℚ → ℚ → ℚ → ℚ) (fuel : ℕ)
    (pats : List Patient) (facs : List Fac) (w : Wts) (cns : Cons)
    (hnd : (facs.map Fac.idr).Nodup)
    {asgs : List Asg} {snap : List Snap}
    (h : solveHungarianWithCapacity hav fuel pats facs w cns =
      some (asgs, snap)) :
    (∀ f ∈ facs, asgs.countP (fun a => a.hid = f.idr) ≤
      (computeAvailableSlots f.cap f.occ cns.maxLoad).toNat) ∧
    (∀ f ∈ facs, ∀ s ∈ snap, s.hid = f.idr → f.occ ≤ s.occ) := by
  simp only [solveHungarianWithCapacity] at h
  split at h
  · simp only [Option.some.injEq, Prod.mk.injEq] at h
    constructor
    · intro f hf
      rw [← h.1]
      simp
    · intro f hf s hs
      rw [← h.2] at hs
      cases hs
  · rcases Option.map_eq_some'.mp h with ⟨pairs, hp, heq⟩
    simp only [Prod.mk.injEq] at heq
    set slots := buildCapacityExpandedSlots facs cns with hslots
    set C := costEntry hav w cns pats slots with hC
    obtain ⟨hvals, hcolnd⟩ := lsa_cols hp
    have hasgs : asgs = (decodePairs hav C pats slots pairs).1 := heq.1.symm
    have hused : snap =
        hungarianSnapshot facs (decodePairs hav C pats slots pairs).2 :=
      heq.2.symm
    constructor
    · intro f hf
      have hhids : asgs.map Asg.hid =
          (pairs.filter
            (fun rc => ¬ INF ≤ C rc.1 (pyIdx slots.length rc.2))).map
            (fun rc => (pyGetSlot slots rc.2).hid) := by
        rw [hasgs]
        have := decodePairs_hids hav C pats slots pairs ([], fun _ => 0)
        simpa [decodePairs] using this
      set flt := pairs.filter
        (fun rc => ¬ INF ≤ C rc.1 (pyIdx slots.length rc.2)) with hflt
      set idx := flt.map (fun rc => pyIdx slots.length rc.2) with hidx
      have hfltsub : ∀ rc ∈ flt, rc ∈ pairs :=
        fun rc hrc => List.mem_of_mem_filter hrc
      have hidxlt : ∀ i ∈ idx, i < slots.length := by
        intro i hi
        rcases List.mem_map.mp hi with ⟨rc, hrc, rfl⟩
        obtain ⟨j, hj2, hjlt⟩ := hvals rc (hfltsub rc hrc)
        rw [hj2, pyIdx_natCast]
        exact hjlt
      have hidxnd : idx.Nodup := by
        rw [hidx, show (fun rc : ℕ × ℤ => pyIdx slots.length rc.2) =
          (fun z => pyIdx slots.length z) ∘ Prod.snd from rfl,
          ← List.map_map]
        refine List.Nodup.map_on ?_
          (((List.filter_sublist pairs).map Prod.snd).nodup hcolnd)
        intro z hz z' hz' hzz
        rcases List.mem_map.mp hz with ⟨rc, hrc, rfl⟩
        rcases List.mem_map.mp hz' with ⟨rc', hrc', rfl⟩
        obtain ⟨j, hj2, -⟩ := hvals rc (hfltsub rc hrc)
        obtain ⟨j', hj2', -⟩ := hvals rc' (hfltsub rc' hrc')
        rw [hj2, hj2']
        rw [hj2, hj2', pyIdx_natCast, pyIdx_natCast] at hzz
        exact_mod_cast hzz
      have h1 : asgs.countP (fun a => a.hid = f.idr) =
          (asgs.map Asg.hid).countP (fun y => y = f.idr) := by
        rw [List.countP_map]
        rfl
      rw [h1, hhids]
      have h3 : flt.map (fun rc => (pyGetSlot slots rc.2).hid) =
          (idx.map (fun i => (slots.get? i).getD default)).map Slot.hid := by
        rw [hidx, List.map_map, List.map_map]
        rfl
      rw [h3, List.countP_map]
      have h4 := countP_getD_le slots idx hidxnd hidxlt
        (fun sl => decide (sl.hid = f.idr))
      have h5 : slots.countP (fun sl => decide (sl.hid = f.idr)) =
          (facSlots cns f).length := by
        rw [List.countP_eq_length_filter, hslots,
          filter_buildSlots facs cns f hnd hf]
      have h6 : (facSlots cns f).length ≤
          (computeAvailableSlots f.cap f.occ cns.maxLoad).toNat := by
        unfold facSlots
        split
        · simp
        · simp
      calc ((idx.map (fun i => (slots.get? i).getD default)).countP
            fun sl => decide (sl.hid = f.idr))
          ≤ slots.countP (fun sl => decide (sl.hid = f.idr)) := h4
        _ = (facSlots cns f).length := h5
        _ ≤ (computeAvailableSlots f.cap f.occ cns.maxLoad).toNat := h6
    · intro f hf s hs hhid
      rw [hused] at hs
      unfold hungarianSnapshot at hs
      rcases List.mem_map.mp hs with ⟨rs, hrs, hrec⟩
      have hshid : s.hid = rs.idr := by rw [← hrec]
      have hrsf : rs = f :=
        List.inj_on_of_nodup_map hnd hrs hf (hshid ▸ hhid)
      have hsocc : s.occ = rs.occ +
          (((decodePairs hav C pats slots pairs).2 rs.idr : ℕ) : ℚ) := by
        rw [← hrec]
      rw [hsocc, hrsf]
      have hnn : (0 : ℚ) ≤
          (((decodePairs hav C pats slots pairs).2 f.idr : ℕ) : ℚ) :=
        Nat.cast_nonneg _
      linarith

/-- C1: neither solver admits past the configured load limit. In
`greedy_match` every produced assignment's `occ_before` ratio — read from
the mutable counters at assignment time — is strictly below `max_load`; in
the Hungarian path each facility receives at most
`max(0, floor(max_load*capacity) - floor(occupied))` assignments; and both
facility snapshots preserve (never lower) pre-existing occupancy, in
particular occupancy already above `max_load` on input. -/
theorem C1_no_solver_overload (hav : ℚ → ℚ → ℚ → ℚ → ℚ) (fuel : ℕ)
    (pats : List Patient) (facs : List Fac) (cfg : Config) (w : Wts)
    (cns : Cons) (hnd : (facs.map Fac.idr).Nodup) :
    (∀ a ∈ (greedyMatch hav pats facs cfg).asgs,
      a.occB < cfg.cns.maxLoad) ∧
    (∀ f ∈ facs, ∀ s ∈ (greedyMatch hav pats facs cfg).facs,
      s.hid = f.idr → f.occ ≤ s.occ) ∧
    (∀ asgs snap,
      solveHungarianWithCapacity hav fuel pats facs w cns =
        some (asgs, snap) →
      (∀ f ∈ facs, asgs.countP (fun a => a.hid = f.idr) ≤
        (max 0 (⌊cns.maxLoad * f.cap⌋ - ⌊f.occ⌋)).toNat) ∧
      (∀ f ∈ facs, ∀ s ∈ snap, s.hid = f.idr → f.occ ≤ s.occ)) := by
  refine ⟨greedy_occB_all hav pats facs cfg,
    greedy_snap_mono hav pats facs cfg hnd, ?_⟩
  intro asgs snap hsol
  exact solveHWC_capacity hav fuel pats facs w cns hnd hsol

/-- C1 witness: the combined statement at the concrete two-facility,
one-patient instance with unique facility identifiers. -/
theorem C1_no_solver_overload_witness :
    ([c3A, c3B].map Fac.idr).Nodup ∧
    ((∀ a ∈ (greedyMatch hav0 [c3P] [c3A, c3B] c3cfgH).asgs,
      a.occB < c3cfgH.cns.maxLoad) ∧
    (∀ f ∈ [c3A, c3B],
      ∀ s ∈ (greedyMatch hav0 [c3P] [c3A, c3B] c3cfgH).facs,
      s.hid = f.idr → f.occ ≤ s.occ) ∧
    (∀ asgs snap,
      solveHungarianWithCapacity hav0 5 [c3P] [c3A, c3B] c3cfgH.w
        c3cfgH.cns = some (asgs, snap) →
      (∀ f ∈ [c3A, c3B], asgs.countP (fun a => a.hid = f.idr) ≤
        (max 0 (⌊c3cfgH.cns.maxLoad * f.cap⌋ - ⌊f.occ⌋)).toNat) ∧
      (∀ f ∈ [c3A, c3B], ∀ s ∈ snap, s.hid = f.idr → f.occ ≤ s.occ))) :=
  ⟨by decide,
   C1_no_solver_overload hav0 5 [c3P] [c3A, c3B] c3cfgH c3cfgH.w
     c3cfgH.cns (by decide)⟩

/-! ### C2: minimality of the Hungarian matching on the capacity-expanded
cost matrix -/

theorem map_zip_range {n : ℕ} {ci : List ℤ} (hlen : ci.length = n)
    (f : ℕ × ℤ → ℚ) :
    ((List.range n).zip ci).map f =
      (List.range n).map (fun i => f (i, (ci.get? i).getD 0)) := by
  apply List.ext_get?
  intro k
  rw [List.get?_map, List.get?_map]
  by_cases hk : k < n
  · have h1 : (List.range n).get? k = some k := List.get?_range hk
    obtain ⟨z, hz⟩ : ∃ z, ci.get? k = some z := by
      cases hzc : ci.get? k with
      | none =>
        have hle := List.get?_eq_none.mp hzc
        rw [hlen] at hle
        omega
      | some z => exact ⟨z, rfl⟩
    have hzip : ((List.range n).zip ci).get? k = some (k, z) :=
      (List.get?_zip_eq_some _ _ _ _).mpr ⟨h1, hz⟩
    rw [hzip, h1]
    have hz' : ci[k]?.getD 0 = z := by
      rw [← List.get?_eq_getElem?, hz]
      rfl
    simp [hz']
  · have h1 : (List.range n).get? k = none :=
      List.get?_eq_none.mpr (by simpa using not_lt.mp hk)
    have hzip : ((List.range n).zip ci).get? k = none :=
      List.get?_eq_none.mpr (by
        rw [List.length_zip, hlen]
        simp only [List.length_range, min_self]
        omega)
    rw [hzip, h1]
    rfl

theorem sum_map_filter_of_zero {α : Type} (p : α → Bool) (g : α → ℚ) :
    ∀ l : List α, (∀ x ∈ l, p x = false → g x = 0) →
      ((l.filter p).map g).sum = (l.map g).sum := by
  intro l
  induction l with
  | nil => intro hz; rfl
  | cons x t ih =>
    intro hz
    have ht := ih (fun y hy hpy => hz y (List.mem_cons_of_mem x hy) hpy)
    rw [List.filter_cons]
    cases hp : p x
    · rw [if_neg (by simp [hp]), ht, List.map_cons, List.sum_cons,
        hz x (List.mem_cons_self x t) hp, zero_add]
    · rw [if_pos (by simp [hp]), List.map_cons, List.sum_cons,
        List.map_cons, List.sum_cons, ht]

/-- C2 (amended): on the capacity-expanded cost matrix of any patients,
facilities and configuration, whenever `linear_sum_assignment` returns, the
reported pairs form a partial one-to-one patient-to-slot matching (pairwise
distinct rows below the patient count, pairwise distinct in-range slot
columns) whose total cost is minimal: it is bounded by the zero-padded total
cost of every bounded injective assignment of the padded square. -/
theorem C2_hungarian_min_total (hav : ℚ → ℚ → ℚ → ℚ → ℚ) (fuel : ℕ)
    (pats : List Patient) (facs : List Fac) (w : Wts) (cns : Cons)
    (slots : List Slot) (C : ℕ → ℕ → ℚ) (m s size : ℕ)
    (hslots : slots = buildCapacityExpandedSlots facs cns)
    (hC : C = costEntry hav w cns pats slots)
    (hm : m = pats.length) (hs : s = slots.length)
    (hsize : size = max m s)
    (pairs : List (ℕ × ℤ))
    (h : linearSumAssignment fuel C m s = some pairs) :
    (∀ rc ∈ pairs, rc.1 < m ∧ ∃ j : ℕ, rc.2 = (j : ℤ) ∧ j < s) ∧
    (pairs.map Prod.fst).Nodup ∧
    (pairs.map Prod.snd).Nodup ∧
    (∀ τ : ℕ → ℕ, (∀ i, i < size → τ i < size) →
      (∀ i i', i < size → i' < size → τ i = τ i' → i = i') →
      (pairs.map (fun rc => C rc.1 (pyIdx s rc.2))).sum ≤
        ((List.range size).map (fun i => padC C m s i (τ i))).sum) := by
  have hrows := lsa_rows h
  have hcols := lsa_cols h
  refine ⟨fun rc hrc => ⟨hrows.2 rc hrc, hcols.1 rc hrc⟩, hrows.1,
    hcols.2, ?_⟩
  subst hsize
  intro τ hτb hτinj
  unfold linearSumAssignment at h
  split at h
  · next hms =>
    subst hms
    simp only [max_self] at hτb hτinj ⊢
    rcases Option.map_eq_some'.mp h with ⟨ci, hci, rfl⟩
    obtain ⟨hlen, hvals, -⟩ := hungarianSquare_perm hci
    have hmin := hungarianSquare_min fuel m C ci hci
    have hL : ((List.range m).zip ci).map
        (fun rc => C rc.1 (pyIdx m rc.2)) =
        (List.range m).map (fun i => C i (hungCol ci i)) := by
      rw [map_zip_range hlen]
      apply List.map_congr_left
      intro i hi
      have hin := List.mem_range.mp hi
      obtain ⟨j, hjn, hget⟩ := hvals i hin
      show C i (pyIdx m ((ci.get? i).getD 0)) = C i (hungCol ci i)
      rw [hget]
      show C i (pyIdx m ((j : ℕ) : ℤ)) = C i (hungCol ci i)
      rw [pyIdx_natCast]
      have hj : hungCol ci i = j := by
        rw [hungCol, hget]
        rfl
      rw [hj]
    have hR : (List.range m).map (fun i => padC C m m i (τ i)) =
        (List.range m).map (fun i => C i (τ i)) := by
      apply List.map_congr_left
      intro i hi
      have hin := List.mem_range.mp hi
      show padC C m m i (τ i) = C i (τ i)
      unfold padC
      rw [if_pos ⟨hin, hτb i hin⟩]
    rw [hL, hR]
    exact hmin τ hτb hτinj
  · next hms =>
    rcases Option.map_eq_some'.mp h with ⟨ci, hci, rfl⟩
    obtain ⟨hlen, hvals, -⟩ := hungarianSquare_perm hci
    have hmin := hungarianSquare_min fuel (max m s) (padC C m s) ci hci
    have hval2 : ∀ rc ∈ (List.range (max m s)).zip ci,
        ∃ j : ℕ, rc.2 = ((j : ℕ) : ℤ) ∧ j < max m s ∧
          pyIdx s rc.2 = j ∧ hungCol ci rc.1 = j := by
      intro rc hrc
      obtain ⟨h1, h2⟩ := mem_zip_range_pairs hrc
      obtain ⟨j, hjn, hget⟩ := hvals rc.1 h1
      rw [h2] at hget
      injection hget with hj
      refine ⟨j, hj, hjn, by rw [hj, pyIdx_natCast], ?_⟩
      rw [hungCol, h2, hj]
      rfl
    have e0 : (((List.range (max m s)).zip ci).filter
          (fun rc => rc.1 < m ∧ rc.2 < (s : ℤ))).map
          (fun rc => C rc.1 (pyIdx s rc.2)) =
        (((List.range (max m s)).zip ci).filter
          (fun rc => rc.1 < m ∧ rc.2 < (s : ℤ))).map
          (fun rc => padC C m s rc.1 (pyIdx s rc.2)) := by
      apply List.map_congr_left
      intro rc hrc
      have hcond := (List.mem_filter.mp hrc).2
      simp only [decide_eq_true_eq] at hcond
      obtain ⟨j, hj, hjn, hpy, -⟩ :=
        hval2 rc (List.mem_of_mem_filter hrc)
      show C rc.1 (pyIdx s rc.2) = padC C m s rc.1 (pyIdx s rc.2)
      rw [hpy]
      unfold padC
      rw [if_pos ⟨hcond.1, by
        have := hcond.2
        rw [hj] at this
        exact_mod_cast this⟩]
    have e1 : ((((List.range (max m s)).zip ci).filter
          (fun rc => rc.1 < m ∧ rc.2 < (s : ℤ))).map
          (fun rc => padC C m s rc.1 (pyIdx s rc.2))).sum =
        (((List.range (max m s)).zip ci).map
          (fun rc => padC C m s rc.1 (pyIdx s rc.2))).sum := by
      apply sum_map_filter_of_zero
      intro rc hrc hfalse
      obtain ⟨j, hj, hjn, hpy, -⟩ := hval2 rc hrc
      rw [decide_eq_false_iff_not] at hfalse
      rw [hpy]
      show padC C m s rc.1 j = 0
      unfold padC
      rw [if_neg]
      intro hcase
      apply hfalse
      refine ⟨hcase.1, ?_⟩
      rw [hj]
      exact_mod_cast hcase.2
    have e2 : (((List.range (max m s)).zip ci).map
          (fun rc => padC C m s rc.1 (pyIdx s rc.2))).sum =
        ((List.range (max m s)).map
          (fun i => padC C m s i (hungCol ci i))).sum := by
      rw [map_zip_range hlen]
      apply congrArg List.sum
      apply List.map_congr_left
      intro i hi
      have hin := List.mem_range.mp hi
      obtain ⟨j, hjn, hget⟩ := hvals i hin
      show padC C m s i (pyIdx s ((ci.get? i).getD 0)) =
        padC C m s i (hungCol ci i)
      rw [hget]
      show padC C m s i (pyIdx s ((j : ℕ) : ℤ)) = padC C m s i (hungCol ci i)
      rw [pyIdx_natCast]
      have hj : hungCol ci i = j := by
        rw [hungCol, hget]
        rfl
      rw [hj]
    rw [e0, e1, e2]
    exact hmin τ hτb hτinj

/-- C2 witness: the pipeline-level optimality theorem applied to the
concrete one-patient, one-slot capacity-expanded instance of the C3
fixtures. -/
theorem C2_hungarian_min_total_witness :
    (∀ rc ∈ [((0 : ℕ), (0 : ℤ))], rc.1 < 1 ∧
      ∃ j : ℕ, rc.2 = ((j : ℕ) : ℤ) ∧ j < 1) ∧
    ([((0 : ℕ), (0 : ℤ))].map Prod.fst).Nodup ∧
    ([((0 : ℕ), (0 : ℤ))].map Prod.snd).Nodup ∧
    (∀ τ : ℕ → ℕ, (∀ i, i < 1 → τ i < 1) →
      (∀ i i', i < 1 → i' < 1 → τ i = τ i' → i = i') →
      ([((0 : ℕ), (0 : ℤ))].map (fun rc =>
        costEntry hav0 c3cfgH.w c3cfgH.cns [c3P] [c3slot] rc.1
          (pyIdx 1 rc.2))).sum ≤
        ((List.range 1).map (fun i =>
          padC (costEntry hav0 c3cfgH.w c3cfgH.cns [c3P] [c3slot]) 1 1 i
            (τ i))).sum) := by
  have hlsa : linearSumAssignment 5
      (costEntry hav0 c3cfgH.w c3cfgH.cns [c3P] [c3slot]) 1 1 =
      some [((0 : ℕ), (0 : ℤ))] := by
    unfold linearSumAssignment
    rw [if_pos rfl, hungarianSquare_one 5 (by norm_num)]
    rfl
  exact C2_hungarian_min_total hav0 5 [c3P] [c3A, c3B] c3cfgH.w c3cfgH.cns
    [c3slot] (costEntry hav0 c3cfgH.w c3cfgH.cns [c3P] [c3slot]) 1 1 1
    c3slots_eq.symm rfl rfl rfl rfl [((0 : ℕ), (0 : ℤ))] hlsa

end MedSupply
